import Mathlib

/-!
Package cfg_flags: an INI configuration file merged into the command-line flags.

Shallow embedding of `cfg_flags.go` (functions `Parse`, `getValuesFromFile`,
`getMissingFlags`, `cleanString`) together with the parts of the Go standard
library they call (`strings.TrimSpace`, `strings.Split`, `strconv.Unquote`,
`unicode/utf8`, the registry of package `flag`).

Conventions of the embedding:
* a Go `string` is a list of bytes, each byte a natural number below 256;
* a function that mutates through a pointer returns the new value;
* the variables that the flags of the registry point to are held in a store
  indexed by address, so that two flags may be bound to one variable;
* a Go `error` result is an `Option` of a structured error whose fields are the
  arguments of the corresponding `fmt.Errorf` call;
* loops run on an explicit fuel equal to the length of the data they consume.
-/

set_option autoImplicit false

namespace CfgFlags

/-! ## Strings and UTF-8 (packages `unicode/utf8`, `unicode`) -/

/-- Go string: a sequence of bytes. -/
abbrev Str := List Nat

/-- Constant `utf8.RuneError`, the replacement character U+FFFD. -/
def RuneError : Nat := 0xFFFD

/-- Constant `utf8.RuneSelf`: bytes below it are single-byte runes. -/
def RuneSelf : Nat := 0x80

/-- Constant `utf8.MaxRune`. -/
def MaxRune : Nat := 0x10FFFF

/-- Entry of the table `first` of package utf8 for a lead byte of a multi-byte
sequence: the size of the sequence and the accepted range of the second byte;
`none` for the ASCII bytes and for the bytes that start no sequence. -/
def firstInfo (b : Nat) : Option (Nat × Nat × Nat) :=
  if b < 0xC2 then none
  else if b ≤ 0xDF then some (2, 0x80, 0xBF)
  else if b = 0xE0 then some (3, 0xA0, 0xBF)
  else if b ≤ 0xEC then some (3, 0x80, 0xBF)
  else if b = 0xED then some (3, 0x80, 0x9F)
  else if b ≤ 0xEF then some (3, 0x80, 0xBF)
  else if b = 0xF0 then some (4, 0x90, 0xBF)
  else if b ≤ 0xF3 then some (4, 0x80, 0xBF)
  else if b = 0xF4 then some (4, 0x80, 0x8F)
  else none

/-- Continuation byte test: `locb <= b && b <= hicb`. -/
def isCont (b : Nat) : Bool := decide (0x80 ≤ b) && decide (b ≤ 0xBF)

/-- Function `utf8.DecodeRuneInString`: the first rune of `s` and its width in
bytes; `(RuneError, 0)` on the empty string and `(RuneError, 1)` on an invalid
encoding. Masks and shifts are written with `%` and `*`. -/
def DecodeRuneInString (s : Str) : Nat × Nat :=
  match s with
  | [] => (RuneError, 0)
  | s0 :: t =>
    if s0 < RuneSelf then (s0, 1)
    else
      match firstInfo s0 with
      | none => (RuneError, 1)
      | some (sz, lo, hi) =>
        if s.length < sz then (RuneError, 1)
        else
          match t with
          | [] => (RuneError, 1)
          | s1 :: t1 =>
            if s1 < lo ∨ hi < s1 then (RuneError, 1)
            else if sz ≤ 2 then (s0 % 32 * 64 + s1 % 64, 2)
            else
              match t1 with
              | [] => (RuneError, 1)
              | s2 :: t2 =>
                if ¬ isCont s2 then (RuneError, 1)
                else if sz ≤ 3 then (s0 % 16 * 4096 + s1 % 64 * 64 + s2 % 64, 3)
                else
                  match t2 with
                  | [] => (RuneError, 1)
                  | s3 :: _ =>
                    if ¬ isCont s3 then (RuneError, 1)
                    else (s0 % 8 * 262144 + s1 % 64 * 4096 + s2 % 64 * 64 + s3 % 64, 4)

/-- Function `utf8.RuneStart`: the byte is not a continuation byte. -/
def RuneStart (b : Nat) : Bool := decide (b / 64 % 4 ≠ 2)

/-- Start index computed by the backward scan of `utf8.DecodeLastRuneInString`
for a string of length `e` whose last byte is not ASCII: the scan goes back
from `e - 2` over at most three bytes and stops at the first rune start. -/
def lastRuneStart (s : Str) (e : Nat) : Nat :=
  if e < 2 then 0
  else if RuneStart (s.getD (e - 2) 0) then e - 2
  else if e < 3 then 0
  else if RuneStart (s.getD (e - 3) 0) then e - 3
  else if e < 4 then 0
  else if RuneStart (s.getD (e - 4) 0) then e - 4
  else if e < 5 then 0
  else e - 5

/-- Function `utf8.DecodeLastRuneInString`: the last rune of `s` and its width. -/
def DecodeLastRuneInString (s : Str) : Nat × Nat :=
  let e := s.length
  if e = 0 then (RuneError, 0)
  else
    let r := s.getD (e - 1) 0
    if r < RuneSelf then (r, 1)
    else
      let start := lastRuneStart s e
      let d := DecodeRuneInString (s.drop start)
      if start + d.2 ≠ e then (RuneError, 1) else d

/-- Loop of `utf8.ValidString`. -/
def validLoop : Nat → Str → Bool
  | 0, _ => true
  | fuel + 1, s =>
    match s with
    | [] => true
    | si :: t =>
      if si < RuneSelf then validLoop fuel t
      else
        match firstInfo si with
        | none => false
        | some (sz, lo, hi) =>
          if s.length < sz then false
          else if t.getD 0 0 < lo ∨ hi < t.getD 0 0 then false
          else if sz = 2 then validLoop fuel (s.drop sz)
          else if ¬ isCont (t.getD 1 0) then false
          else if sz = 3 then validLoop fuel (s.drop sz)
          else if ¬ isCont (t.getD 2 0) then false
          else validLoop fuel (s.drop sz)

/-- Function `utf8.ValidString`. -/
def ValidString (s : Str) : Bool := validLoop s.length s

/-- Function `utf8.ValidRune`. -/
def ValidRune (r : Nat) : Bool :=
  decide (r < 0xD800) || (decide (0xDFFF < r) && decide (r ≤ MaxRune))

/-- Function `utf8.AppendRune` applied to an empty buffer: the UTF-8 encoding
of the rune, the encoding of `RuneError` for an invalid rune. -/
def EncodeRune (r : Nat) : Str :=
  if r ≤ 0x7F then [r]
  else if r ≤ 0x7FF then [0xC0 + r / 64, 0x80 + r % 64]
  else if r > MaxRune ∨ (0xD800 ≤ r ∧ r ≤ 0xDFFF) then [0xEF, 0xBF, 0xBD]
  else if r ≤ 0xFFFF then [0xE0 + r / 4096, 0x80 + r / 64 % 64, 0x80 + r % 64]
  else [0xF0 + r / 262144, 0x80 + r / 4096 % 64, 0x80 + r / 64 % 64, 0x80 + r % 64]

/-- UTF-8 bytes of a text given as a list of Unicode characters. -/
def utf8 (cs : List Char) : Str := cs.flatMap (fun c => EncodeRune c.toNat)

/-- Function `unicode.IsSpace`. -/
def IsSpace (r : Nat) : Bool :=
  decide (r = 0x09 ∨ r = 0x0A ∨ r = 0x0B ∨ r = 0x0C ∨ r = 0x0D ∨ r = 0x20 ∨ r = 0x85 ∨ r = 0xA0
    ∨ r = 0x1680 ∨ (0x2000 ≤ r ∧ r ≤ 0x200A) ∨ r = 0x2028 ∨ r = 0x2029 ∨ r = 0x202F
    ∨ r = 0x205F ∨ r = 0x3000)

/-! ## Package `strings` -/

/-- Loop of `strings.TrimLeftFunc(s, unicode.IsSpace)`. -/
def trimLeftLoop : Nat → Str → Str
  | 0, s => s
  | fuel + 1, s =>
    match s with
    | [] => []
    | _ :: _ =>
      if IsSpace (DecodeRuneInString s).1 then trimLeftLoop fuel (s.drop (DecodeRuneInString s).2)
      else s

/-- Loop of `strings.TrimRightFunc(s, unicode.IsSpace)`. -/
def trimRightLoop : Nat → Str → Str
  | 0, s => s
  | fuel + 1, s =>
    match s with
    | [] => []
    | _ :: _ =>
      if IsSpace (DecodeLastRuneInString s).1 then
        trimRightLoop fuel (s.take (s.length - (DecodeLastRuneInString s).2))
      else s

/-- Function `strings.TrimSpace`: leading and trailing Unicode white space removed. -/
def TrimSpace (s : Str) : Str :=
  let l := trimLeftLoop s.length s
  trimRightLoop l.length l

/-- Function `strings.Split(s, sep)` for a one-byte separator `sep`. -/
def Split : Str → Nat → List Str
  | [], _ => [[]]
  | c :: cs, sep =>
    if c = sep then [] :: Split cs sep
    else
      match Split cs sep with
      | [] => [[c]]
      | f :: fs => (c :: f) :: fs

/-! ## Package `strconv`: `Unquote` -/

/-- The only error value `strconv.Unquote` returns. -/
inductive StrconvError where
  | ErrSyntax
  deriving DecidableEq

/-- Function `index` of package strconv (`strings.IndexByte`): the position of
the first occurrence of the byte, `none` for Go's `-1`. -/
def indexByte : Str → Nat → Option Nat
  | [], _ => none
  | c :: cs, b => if c = b then some 0 else (indexByte cs b).map (fun i => i + 1)

/-- Function `contains` of package strconv. -/
def contains (s : Str) (b : Nat) : Bool := decide (b ∈ s)

/-- Function `unhex` of package strconv. -/
def unhex (b : Nat) : Option Nat :=
  if 0x30 ≤ b ∧ b ≤ 0x39 then some (b - 0x30)
  else if 0x61 ≤ b ∧ b ≤ 0x66 then some (b - 0x61 + 10)
  else if 0x41 ≤ b ∧ b ≤ 0x46 then some (b - 0x41 + 10)
  else none

/-- Hexadecimal digits folded as `v = v<<4 | x`; `none` when one is no digit. -/
def hexFold : Str → Nat → Option Nat
  | [], v => some v
  | d :: ds, v =>
    match unhex d with
    | none => none
    | some x => hexFold ds (v * 16 + x)

/-- Octal digits folded as `v = (v << 3) | x`; `none` when one is no digit. -/
def octFold : Str → Nat → Option Nat
  | [], v => some v
  | d :: ds, v => if d < 0x30 ∨ 0x37 < d then none else octFold ds (v * 8 + (d - 0x30))

/-- Function `strconv.UnquoteChar`: decodes the first character or escape
sequence of `s`; the result is `(value, multibyte, tail)`, `none` when Go
returns `ErrSyntax`. -/
def UnquoteChar (s : Str) (quote : Nat) : Option (Nat × Bool × Str) :=
  match s with
  | [] => none
  | c :: t =>
    if c = quote ∧ (quote = 0x27 ∨ quote = 0x22) then none
    else if RuneSelf ≤ c then
      some ((DecodeRuneInString s).1, true, s.drop (DecodeRuneInString s).2)
    else if c ≠ 0x5C then some (c, false, t)
    else
      match t with
      | [] => none
      | e :: s2 =>
        if e = 0x61 then some (0x07, false, s2)
        else if e = 0x62 then some (0x08, false, s2)
        else if e = 0x66 then some (0x0C, false, s2)
        else if e = 0x6E then some (0x0A, false, s2)
        else if e = 0x72 then some (0x0D, false, s2)
        else if e = 0x74 then some (0x09, false, s2)
        else if e = 0x76 then some (0x0B, false, s2)
        else if e = 0x78 ∨ e = 0x75 ∨ e = 0x55 then
          let n := if e = 0x78 then 2 else if e = 0x75 then 4 else 8
          if s2.length < n then none
          else
            match hexFold (s2.take n) 0 with
            | none => none
            | some v =>
              if e = 0x78 then some (v, false, s2.drop n)
              else if ¬ ValidRune v then none
              else some (v, true, s2.drop n)
        else if 0x30 ≤ e ∧ e ≤ 0x37 then
          if s2.length < 2 then none
          else
            match octFold (s2.take 2) (e - 0x30) with
            | none => none
            | some v => if v > 255 then none else some (v, false, s2.drop 2)
        else if e = 0x5C then some (0x5C, false, s2)
        else if e = 0x27 ∨ e = 0x22 then
          if e ≠ quote then none else some (e, false, s2)
        else none

/-- Loop of `unquote` over the text after the opening quote: stops before the
first unescaped `quote` byte or at the end of the input and returns the buffer
and the rest of the input; `none` when Go returns `ErrSyntax`. -/
def unquoteLoop (quote : Nat) : Nat → Str → Str → Option (Str × Str)
  | 0, inp, buf => some (buf, inp)
  | fuel + 1, inp, buf =>
    match inp with
    | [] => some (buf, inp)
    | c :: _ =>
      if c = quote then some (buf, inp)
      else
        match UnquoteChar inp quote with
        | none => none
        | some (r, multibyte, rem) =>
          if c = 0x0A then none
          else
            let buf1 := if r < RuneSelf ∨ multibyte = false then buf ++ [r % 256] else buf ++ EncodeRune r
            if quote = 0x27 then some (buf1, rem) else unquoteLoop quote fuel rem buf1

/-- Function `unquote(in, true)` of package strconv: the unquoted text and the
rest of the input after the closing quote; `none` when Go returns `ErrSyntax`. -/
def unquote (inp : Str) : Option (Str × Str) :=
  if inp.length < 2 then none
  else
    match inp with
    | [] => none
    | quote :: rest =>
      match indexByte rest quote with
      | none => none
      | some e =>
        let stop := e + 2
        if quote = 0x60 then some ((rest.take e).filter (fun b => b ≠ 0x0D), inp.drop stop)
        else if quote = 0x22 ∨ quote = 0x27 then
          let noEscape := contains (inp.take stop) 0x5C = false ∧ contains (inp.take stop) 0x0A = false
          let valid :=
            if quote = 0x22 then ValidString (rest.take e)
            else decide (1 + (DecodeRuneInString (rest.take e)).2 + 1 = stop ∧
              ((DecodeRuneInString (rest.take e)).1 ≠ RuneError ∨ (DecodeRuneInString (rest.take e)).2 ≠ 1))
          if noEscape ∧ valid = true then some (rest.take e, inp.drop stop)
          else
            match unquoteLoop quote (rest.length + 1) rest [] with
            | none => none
            | some (_, []) => none
            | some (buf, c :: rem) => if c = quote then some (buf, rem) else none
        else none

/-- Function `strconv.Unquote`. -/
def Unquote (s : Str) : Except StrconvError Str :=
  match unquote s with
  | none => .error .ErrSyntax
  | some (out, rem) => if rem.length > 0 then .error .ErrSyntax else .ok out

/-! ## cfg_flags: the line parser -/

/-- Errors of package cfg_flags, one constructor per `fmt.Errorf` call; the
fields are the arguments formatted into the message. -/
inductive Error where
  | noConfigPath
  | readFile (configFile : Str) (err : Str)
  | moreThanOneEq (line : Str) (i : Nat)
  | noEq (line : Str) (i : Nat)
  | processLine (i : Nat) (err : StrconvError)
  | unknownFlag (key : Str)
  | flagParse (key : Str) (err : Str)
  deriving DecidableEq

/-- Function `cleanString(str *string) error`: the pair of the string behind
the pointer after the call and the error returned. -/
def cleanString (str : Str) : Str × Option StrconvError :=
  let tmp := TrimSpace str
  if tmp.length = 0 then (str, none)
  else if tmp.headD 0 ≠ 0x22 then
    (TrimSpace ((Split ((Split tmp 0x23).headD []) 0x3B).headD []), none)
  else
    match Unquote tmp with
    | .error err => (str, some err)
    | .ok result => (TrimSpace result, none)

/-- Go `map[string]string`, as an association list without repeated keys. -/
abbrev FileMap := List (Str × Str)

/-- Map assignment `m[k] = v`. -/
def mapSet : FileMap → Str → Str → FileMap
  | [], k, v => [(k, v)]
  | (k1, v1) :: rest, k, v => if k1 = k then (k, v) :: rest else (k1, v1) :: mapSet rest k v

/-- Map read `m[k]`, `none` when the key is absent. -/
def mapGet : FileMap → Str → Option Str
  | [], _ => none
  | (k1, v1) :: rest, k => if k1 = k then some v1 else mapGet rest k

/-- Skip test of `getValuesFromFile` on a trimmed line:
`line == "" || line[0] == ';' || line[0] == '#' || line[0] == '['`. -/
def skipLine (line : Str) : Bool :=
  decide (line = [] ∨ line.headD 0 = 0x3B ∨ line.headD 0 = 0x23 ∨ line.headD 0 = 0x5B)

/-- Loop of `getValuesFromFile` over the lines, `i` the index of the next line. -/
def parseLines : Nat → List Str → FileMap → Except Error FileMap
  | _, [], valuesFromFile => .ok valuesFromFile
  | i, raw :: rest, valuesFromFile =>
    let line := TrimSpace raw
    if skipLine line then parseLines (i + 1) rest valuesFromFile
    else
      let fields := Split line 0x3D
      if fields.length > 2 then .error (.moreThanOneEq line i)
      else if fields.length < 2 then .error (.noEq line i)
      else
        match cleanString (fields.getD 1 []) with
        | (_, some err) => .error (.processLine i err)
        | (field1, none) =>
          parseLines (i + 1) rest (mapSet valuesFromFile (TrimSpace (fields.getD 0 [])) field1)

/-- Function `getValuesFromFile`; `readFile` stands for `ioutil.ReadFile`. -/
def getValuesFromFile (readFile : Str → Except Str Str) (configFile : Str) : Except Error FileMap :=
  match readFile configFile with
  | .error err => .error (.readFile configFile err)
  | .ok content => parseLines 0 (Split content 0x0A) []

/-! ## Package `flag`: the registry -/

/-- Interface `flag.Value` for values of type `V`: `String()` and `Set(string) error`.
`Set` returns the value after the call and the error; the value may have been
changed also when an error is returned. -/
structure ValueOps (V : Type) where
  String : V → Str
  Set : V → Str → V × Option Str

/-- Struct `flag.Flag` (fields `Name` and `Value`). The field `Value` of Go is an
interface that holds a pointer to the variable the flag is bound to; here it is
the address of that variable in the store of the registry. Two flags bound to
the same variable, as after `flag.StringVar(&x, "n", ...)` and
`flag.StringVar(&x, "name", ...)`, hold the same address, and a `Set` through
one of them changes what the other reads. -/
structure Flag where
  Name : Str
  Value : Nat
  deriving DecidableEq

/-- Struct `flag.FlagSet`: `formal` holds the registered flags, `actual` the
names of the flags set on the command line; `store` is the memory that the
pointers of the flags refer to, the content of every variable by address. -/
structure FlagSet (V : Type) where
  formal : List Flag
  actual : List Str
  store : Nat → V

/-- Function `flag.Lookup`. -/
def Lookup {V : Type} (fs : FlagSet V) (name : Str) : Option Flag :=
  fs.formal.find? (fun f => decide (f.Name = name))

/-- Go comparison `s < t` of strings (bytewise lexicographic). -/
def strLt : Str → Str → Bool
  | [], [] => false
  | [], _ :: _ => true
  | _ :: _, [] => false
  | a :: s, b :: t => if a < b then true else if b < a then false else strLt s t

/-- Insertion of a flag into a list sorted by name. -/
def insertFlag (f : Flag) : List Flag → List Flag
  | [] => [f]
  | g :: gs => if strLt f.Name g.Name then f :: g :: gs else g :: insertFlag f gs

/-- Function `sortFlags` of package flag: the flags in lexicographical order of their names. -/
def sortFlags : List Flag → List Flag
  | [] => []
  | f :: fs => insertFlag f (sortFlags fs)

/-- Function `flag.VisitAll`: the sequence of flags handed to the callback. -/
def VisitAll {V : Type} (fs : FlagSet V) : List Flag := sortFlags fs.formal

/-- Function `flag.Visit`: the sequence of flags handed to the callback, those that have been set. -/
def Visit {V : Type} (fs : FlagSet V) : List Flag :=
  sortFlags (fs.formal.filter (fun f => decide (f.Name ∈ fs.actual)))

/-- Assignment `*p = v` to the variable at address `p`: every flag bound to
that variable reads `v` afterwards. -/
def assign {V : Type} (store : Nat → V) (p : Nat) (v : V) : Nat → V :=
  fun q => if q = p then v else store q

/-! ## cfg_flags: the merge -/

/-- Inner loop of `getMissingFlags`: `true` when `name` occurs in `set`. -/
def foundIn (name : Str) : List Str → Bool
  | [] => false
  | v :: rest => if v = name then true else foundIn name rest

/-- Function `getMissingFlags`. -/
def getMissingFlags {V : Type} (fs : FlagSet V) : List Str :=
  let set := (Visit fs).foldl (fun set f => set ++ [f.Name]) []
  (VisitAll fs).foldl (fun missing f => if foundIn f.Name set then missing else missing ++ [f.Name]) []

/-- Inner loop of `Parse` over `missingFlags` for the flag `f` found for a
file entry with value `value`: `f.Value.String()` reads the variable behind the
pointer of `f` and `f.Value.Set(value)` writes it. The result is the store
afterwards and the error of `Set`. -/
def applyMissing {V : Type} (ops : ValueOps V) (f : Flag) (value : Str) (store : Nat → V) :
    List Str → (Nat → V) × Option Str
  | [] => (store, none)
  | v :: rest =>
    if f.Name = v then
      if ops.String (store f.Value) ≠ value then
        (assign store f.Value (ops.Set (store f.Value) value).1, (ops.Set (store f.Value) value).2)
      else (store, none)
    else applyMissing ops f value store rest

/-- Loop of `Parse` over the entries of the file mapping, taken in the order
in which `range` yields them: the registry afterwards and the error returned. -/
def mergeLoop {V : Type} (ops : ValueOps V) (missingFlags : List Str) :
    List (Str × Str) → FlagSet V → FlagSet V × Option Error
  | [], fs => (fs, none)
  | (key, value) :: rest, fs =>
    match Lookup fs key with
    | none => (fs, some (.unknownFlag key))
    | some f =>
      match applyMissing ops f value fs.store missingFlags with
      | (store, some err) => ({ fs with store := store }, some (.flagParse key err))
      | (store, none) => mergeLoop ops missingFlags rest { fs with store := store }

/-- The merge step of `Parse`: `getMissingFlags` followed by the loop over the file mapping. -/
def merge {V : Type} (ops : ValueOps V) (fs : FlagSet V) (entries : List (Str × Str)) :
    FlagSet V × Option Error :=
  mergeLoop ops (getMissingFlags fs) entries fs

/-- Name of the flag registered by `init`: the bytes of `config`. -/
def configName : Str := [0x63, 0x6F, 0x6E, 0x66, 0x69, 0x67]

/-- Function `Parse`. The registry `fs` is the one left by `flag.Parse()`,
`*configFlag` is the string of the flag `config` in it, `readFile` stands for
`ioutil.ReadFile` and `rangeOrder` for the order in which `range` yields the
entries of the map. The result is the registry afterwards and the error returned. -/
def Parse {V : Type} (ops : ValueOps V) (readFile : Str → Except Str Str)
    (rangeOrder : FileMap → List (Str × Str)) (fs : FlagSet V) (configFile : Str) :
    FlagSet V × Option Error :=
  let configFlag : Str :=
    match Lookup fs configName with
    | some f => ops.String (fs.store f.Value)
    | none => []
  if configFlag ≠ [] ∨ configFile ≠ [] then
    let configFilePath := if configFlag ≠ [] then configFlag else configFile
    match getValuesFromFile readFile configFilePath with
    | .error err => (fs, some err)
    | .ok valuesFromFile => merge ops fs (rangeOrder valuesFromFile)
  else (fs, some .noConfigPath)

/-! ## Values of package `flag` used in examples -/

/-- Two of the value types of package flag: `stringValue` and `boolValue`. -/
inductive GoValue where
  | stringValue (s : Str)
  | boolValue (b : Bool)
  deriving DecidableEq

/-- Function `strconv.ParseBool`: accepts 1, t, T, TRUE, true, True, 0, f, F, FALSE, false, False. -/
def ParseBool (s : Str) : Option Bool :=
  if s = [0x31] ∨ s = [0x74] ∨ s = [0x54] ∨ s = [0x54, 0x52, 0x55, 0x45]
      ∨ s = [0x74, 0x72, 0x75, 0x65] ∨ s = [0x54, 0x72, 0x75, 0x65] then some true
  else if s = [0x30] ∨ s = [0x66] ∨ s = [0x46] ∨ s = [0x46, 0x41, 0x4C, 0x53, 0x45]
      ∨ s = [0x66, 0x61, 0x6C, 0x73, 0x65] ∨ s = [0x46, 0x61, 0x6C, 0x73, 0x65] then some false
  else none

/-- Methods `String` and `Set` of `stringValue` and `boolValue`; the error of
`boolValue.Set` is `errParse`, the bytes of `parse error`. -/
def goOps : ValueOps GoValue where
  String := fun v =>
    match v with
    | .stringValue s => s
    | .boolValue b => if b then [0x74, 0x72, 0x75, 0x65] else [0x66, 0x61, 0x6C, 0x73, 0x65]
  Set := fun v s =>
    match v with
    | .stringValue _ => (.stringValue s, none)
    | .boolValue _ =>
      match ParseBool s with
      | some b => (.boolValue b, none)
      | none => (.boolValue false, some [0x70, 0x61, 0x72, 0x73, 0x65, 0x20, 0x65, 0x72, 0x72, 0x6F, 0x72])

/-! ## Vocabulary of the specification -/

/-- Control character (Unicode category Cc). -/
def isControl (c : Char) : Bool :=
  decide (c.toNat < 0x20) || (decide (0x7F ≤ c.toNat) && decide (c.toNat ≤ 0x9F))

/-- Left part of a data line: the text before its first `=`. -/
def keyPart (line : Str) : Str := line.takeWhile (fun b => decide (b ≠ 0x3D))

/-- Right part (value part) of a data line: the text after its first `=`. -/
def valuePart (line : Str) : Str := (line.dropWhile (fun b => decide (b ≠ 0x3D))).drop 1

/-- Trimmed lines that are not skipped among the given raw lines. -/
def dataOf (lines : List Str) : List Str :=
  (lines.map TrimSpace).filter (fun line => !skipLine line)

/-- Data lines of a file text: the trimmed lines that are not skipped, in file order. -/
def dataLines (text : Str) : List Str := dataOf (Split text 0x0A)

/-- A data line is malformed when it does not hold exactly one `=`, or when its
trimmed value part starts with a double quote and is no well-formed quoted literal. -/
def malformedLine (line : Str) : Bool :=
  decide (line.count 0x3D ≠ 1) ||
    (decide ((TrimSpace (valuePart line)).headD 0 = 0x22) &&
      match Unquote (TrimSpace (valuePart line)) with
      | .error _ => true
      | .ok _ => false)

/-- Entry a data line stands for: its trimmed left part and its cleaned value part. -/
def lineEntry (line : Str) : Str × Str :=
  (TrimSpace (keyPart line), (cleanString (valuePart line)).1)

/-- Value of the last entry with key `k`, `none` when there is none. -/
def lastValue (k : Str) : List (Str × Str) → Option Str
  | [] => none
  | (k1, v1) :: rest =>
    match lastValue k rest with
    | some v => some v
    | none => if k1 = k then some v1 else none

/-- Error that the loop of `getValuesFromFile` returns for a malformed data
line `line` (trimmed) met at index `i`. -/
def lineError (line : Str) (i : Nat) : Error :=
  if (Split line 0x3D).length > 2 then .moreThanOneEq line i
  else if (Split line 0x3D).length < 2 then .noEq line i
  else .processLine i .ErrSyntax

/-- The map built from the data lines one after the other starting from `m`,
`none` when a malformed data line is met. -/
def foldData : List Str → FileMap → Option FileMap
  | [], m => some m
  | line :: rest, m =>
    if malformedLine line then none
    else foldData rest (mapSet m (lineEntry line).1 (lineEntry line).2)

/-- Longest initial part of `t` that contains neither `#` nor `;`. -/
def uncommented (t : Str) : Str := t.takeWhile (fun b => decide (b ≠ 0x23 ∧ b ≠ 0x3B))

/-- A file text made of the given lines, separated by newlines. -/
def joinLines : List Str → Str
  | [] => []
  | [l] => l
  | l :: l2 :: ls => l ++ 0x0A :: joinLines (l2 :: ls)

/-- Value of `*configFlag`: the string of the flag `config` of the registry,
empty when it was not given on the command line. -/
def configFlagValue {V : Type} (ops : ValueOps V) (fs : FlagSet V) : Str :=
  match Lookup fs configName with
  | some f => ops.String (fs.store f.Value)
  | none => []

/-- Current value of the flag `name`: the content of the variable it is bound
to, `none` when no flag of that name is registered. -/
def flagValue {V : Type} (fs : FlagSet V) (name : Str) : Option V :=
  (Lookup fs name).map (fun f => fs.store f.Value)

/-- Address of the variable the flag `name` is bound to, `none` when no flag of
that name is registered. -/
def address {V : Type} (fs : FlagSet V) (name : Str) : Option Nat :=
  (Lookup fs name).map Flag.Value

/-- The flag `k` is registered and the flag `name` is bound to the same variable. -/
@[reducible] def sameVariable {V : Type} (fs : FlagSet V) (k name : Str) : Prop :=
  address fs k ≠ none ∧ address fs k = address fs name

/-- No two different keys of the entries name flags that are bound to the same
variable and are both not set on the command line. -/
@[reducible] def unshared {V : Type} (fs : FlagSet V) (entries : List (Str × Str)) : Prop :=
  ∀ e1 ∈ entries, ∀ e2 ∈ entries, e1.1 ≠ e2.1 → sameVariable fs e1.1 e2.1 →
    e1.1 ∈ fs.actual ∨ e2.1 ∈ fs.actual

/-- A registry with the two flags `n` and `name` bound to one variable, as after
`flag.StringVar(&x, "n", ...)` and `flag.StringVar(&x, "name", ...)`: `actual`
holds the names of the flags set on the command line and `x` is the content of
the variable. -/
def shortLong {V : Type} (actual : List Str) (x : V) : FlagSet V :=
  { formal := [{ Name := utf8 "n".toList, Value := 0 }, { Name := utf8 "name".toList, Value := 0 }],
    actual := actual,
    store := fun _ => x }


/-- Effective configuration path for the command-line value `c` and the
caller's default `d`: `c` when it is not empty, otherwise `d` when it is not
empty, otherwise none. -/
def effectivePath (c d : Str) : Option Str :=
  if c ≠ [] then some c else if d ≠ [] then some d else none

/-- No leading and no trailing white space: the string is empty, or neither its
first rune nor its last rune is white space. -/
def trimmed (x : Str) : Prop :=
  x = [] ∨ (IsSpace (DecodeRuneInString x).1 = false ∧ IsSpace (DecodeLastRuneInString x).1 = false)

/-- A user-defined `flag.Value` that accumulates what it is given: `String`
returns the text held and `Set` appends its argument to it, without error. -/
def appendOps : ValueOps Str where
  String := fun x => x
  Set := fun x s => (x ++ s, none)

/-! ## Properties -/

/-! ### Lemmas on `strings.Split` -/

theorem split_ne_nil (s : Str) (sep : Nat) : Split s sep ≠ [] := by
  induction s with
  | nil => simp [Split]
  | cons c cs ih =>
    unfold Split
    split_ifs
    · simp
    · cases h : Split cs sep with
      | nil => simp
      | cons f fs => simp

theorem split_headD (s : Str) (sep : Nat) :
    (Split s sep).headD [] = s.takeWhile (fun b => decide (b ≠ sep)) := by
  induction s with
  | nil => simp [Split]
  | cons c cs ih =>
    unfold Split
    by_cases h : c = sep
    · simp [h]
    · cases hs : Split cs sep with
      | nil => exact absurd hs (split_ne_nil cs sep)
      | cons f fs =>
        rw [hs] at ih
        simp [h, List.takeWhile_cons] at ih ⊢
        exact ih

theorem split_length (s : Str) (sep : Nat) : (Split s sep).length = s.count sep + 1 := by
  induction s with
  | nil => simp [Split]
  | cons c cs ih =>
    unfold Split
    by_cases h : c = sep
    · subst h
      simp [ih]
    · cases hs : Split cs sep with
      | nil => exact absurd hs (split_ne_nil cs sep)
      | cons f fs =>
        rw [hs] at ih
        have hc : (c == sep) = false := by simpa using h
        simp [h, List.count_cons, hc] at ih ⊢
        exact ih

theorem split_of_not_mem (s : Str) (sep : Nat) (h : sep ∉ s) : Split s sep = [s] := by
  induction s with
  | nil => simp [Split]
  | cons c cs ih =>
    have hc : c ≠ sep := fun e => h (by simp [e])
    have hcs : sep ∉ cs := fun e => h (by simp [e])
    unfold Split
    simp [hc, ih hcs]

theorem split_append (a b : Str) (sep : Nat) :
    Split (a ++ sep :: b) sep = Split a sep ++ Split b sep := by
  induction a with
  | nil => simp [Split]
  | cons c cs ih =>
    by_cases h : c = sep
    · simp [Split, h, ih]
    · cases hs : Split cs sep with
      | nil => exact absurd hs (split_ne_nil cs sep)
      | cons f fs =>
        rw [List.cons_append, Split, if_neg h, ih, hs, Split, if_neg h, hs]
        rfl

/-- The first field of a line split at a comment marker and then at the other
one is the longest initial part without either marker. -/
theorem split_comment (t : Str) :
    (Split ((Split t 0x23).headD []) 0x3B).headD []
      = t.takeWhile (fun b => decide (b ≠ 0x23 ∧ b ≠ 0x3B)) := by
  rw [split_headD, split_headD]
  induction t with
  | nil => simp
  | cons c cs ih =>
    by_cases h1 : c = 0x23
    · simp [List.takeWhile_cons, h1]
    · by_cases h2 : c = 0x3B
      · simp [List.takeWhile_cons, h2]
      · simpa [List.takeWhile_cons, h1, h2] using ih

/-! ### Lemmas on UTF-8 and `strings.TrimSpace` -/

theorem decode_ascii (b : Nat) (t : Str) (h : b < 0x80) : DecodeRuneInString (b :: t) = (b, 1) := by
  simp [DecodeRuneInString, RuneSelf, h]

theorem decodeLast_ascii (t : Str) (b : Nat) (h : b < 0x80) :
    DecodeLastRuneInString (t ++ [b]) = (b, 1) := by
  simp [DecodeLastRuneInString, RuneSelf, h, List.getD_eq_getElem?_getD]

theorem trimLeftLoop_succ (n : Nat) (s : Str) (hs : s ≠ []) :
    trimLeftLoop (n + 1) s
      = if IsSpace (DecodeRuneInString s).1 then trimLeftLoop n (s.drop (DecodeRuneInString s).2)
        else s := by
  cases s with
  | nil => exact absurd rfl hs
  | cons x xs => rfl

theorem trimRightLoop_succ (n : Nat) (s : Str) (hs : s ≠ []) :
    trimRightLoop (n + 1) s
      = if IsSpace (DecodeLastRuneInString s).1 then
          trimRightLoop n (s.take (s.length - (DecodeLastRuneInString s).2))
        else s := by
  cases s with
  | nil => exact absurd rfl hs
  | cons x xs => rfl

theorem trimLeftLoop_keep (n b : Nat) (t : Str) (h : b < 0x80) (hs : IsSpace b = false) :
    trimLeftLoop n (b :: t) = b :: t := by
  cases n with
  | zero => rfl
  | succ n => simp [trimLeftLoop, decode_ascii b t h, hs]

theorem trimRightLoop_keep (n b : Nat) (t : Str) (h : b < 0x80) (hs : IsSpace b = false) :
    trimRightLoop n (t ++ [b]) = t ++ [b] := by
  cases n with
  | zero => rfl
  | succ n =>
    rw [trimRightLoop_succ n _ (by simp), decodeLast_ascii t b h]
    simp [hs]

theorem validChar_toNat (c : Char) :
    c.toNat < 0xD800 ∨ (0xDFFF < c.toNat ∧ c.toNat < 0x110000) := by
  have := c.valid
  simpa [UInt32.isValidChar, Nat.isValidChar, Char.toNat] using this

theorem runeSelf_eq : RuneSelf = 128 := rfl

theorem maxRune_eq : MaxRune = 1114111 := rfl

theorem firstInfo_two (b : Nat) (h1 : 0xC2 ≤ b) (h2 : b ≤ 0xDF) :
    firstInfo b = some (2, 0x80, 0xBF) := by
  unfold firstInfo
  rw [if_neg (by omega), if_pos (by omega)]

theorem firstInfo_three (b : Nat) (h1 : 0xE0 ≤ b) (h2 : b ≤ 0xEF) :
    firstInfo b = some (3, (if b = 0xE0 then 0xA0 else 0x80), (if b = 0xED then 0x9F else 0xBF)) := by
  have h : b = 0xE0 ∨ b = 0xE1 ∨ b = 0xE2 ∨ b = 0xE3 ∨ b = 0xE4 ∨ b = 0xE5 ∨ b = 0xE6 ∨ b = 0xE7
      ∨ b = 0xE8 ∨ b = 0xE9 ∨ b = 0xEA ∨ b = 0xEB ∨ b = 0xEC ∨ b = 0xED ∨ b = 0xEE ∨ b = 0xEF := by
    omega
  rcases h with h | h | h | h | h | h | h | h | h | h | h | h | h | h | h | h <;> subst h <;> rfl

theorem firstInfo_four (b : Nat) (h1 : 0xF0 ≤ b) (h2 : b ≤ 0xF4) :
    firstInfo b = some (4, (if b = 0xF0 then 0x90 else 0x80), (if b = 0xF4 then 0x8F else 0xBF)) := by
  have h : b = 0xF0 ∨ b = 0xF1 ∨ b = 0xF2 ∨ b = 0xF3 ∨ b = 0xF4 := by omega
  rcases h with h | h | h | h | h <;> subst h <;> rfl

theorem validLoop_step (fuel si : Nat) (t : Str) (sz lo hi : Nat) (hr : ¬ si < 128)
    (hf : firstInfo si = some (sz, lo, hi)) (hlen : sz ≤ (si :: t).length)
    (h1 : lo ≤ t.getD 0 0 ∧ t.getD 0 0 ≤ hi)
    (h2 : sz ≠ 2 → isCont (t.getD 1 0) = true)
    (h3 : sz ≠ 2 → sz ≠ 3 → isCont (t.getD 2 0) = true) :
    validLoop (fuel + 1) (si :: t) = validLoop fuel ((si :: t).drop sz) := by
  rw [validLoop]
  simp only [runeSelf_eq, if_neg hr, hf]
  rw [if_neg (by omega), if_neg (by omega)]
  by_cases e2 : sz = 2
  · rw [if_pos e2]
  · rw [if_neg e2, if_neg (by rw [h2 e2]; simp)]
    by_cases e3 : sz = 3
    · rw [if_pos e3]
    · rw [if_neg e3, if_neg (by rw [h3 e2 e3]; simp)]

theorem validLoop_encode (n : Nat) (hn : n < 0xD800 ∨ (0xDFFF < n ∧ n < 0x110000))
    (fuel : Nat) (rest : Str) :
    validLoop (fuel + 1) (EncodeRune n ++ rest) = validLoop fuel rest := by
  unfold EncodeRune
  by_cases h1 : n ≤ 0x7F
  · have : n < RuneSelf := by rw [runeSelf_eq]; omega
    simp [h1, validLoop, this]
  · rw [if_neg h1]
    by_cases h2 : n ≤ 0x7FF
    · rw [if_pos h2]
      have hf := firstInfo_two (0xC0 + n / 64) (by omega) (by omega)
      rw [List.cons_append, validLoop_step fuel _ _ 2 0x80 0xBF (by omega) hf (by simp)
        (by simp; omega) (by simp) (by simp)]
      simp
    · rw [if_neg h2, if_neg (by rw [maxRune_eq]; omega)]
      by_cases h4 : n ≤ 0xFFFF
      · rw [if_pos h4]
        have hf := firstInfo_three (0xE0 + n / 4096) (by omega) (by omega)
        rw [List.cons_append, validLoop_step fuel _ _ 3 _ _ (by omega) hf (by simp)
          (by simp; split_ifs <;> omega) (by simp [isCont]; omega) (by simp)]
        simp
      · rw [if_neg h4]
        have hf := firstInfo_four (0xF0 + n / 262144) (by omega) (by omega)
        rw [List.cons_append, validLoop_step fuel _ _ 4 _ _ (by omega) hf (by simp)
          (by simp; split_ifs <;> omega) (by simp [isCont]; omega) (by simp [isCont]; omega)]
        simp

theorem validLoop_utf8 (fuel : Nat) (cs : List Char) : validLoop fuel (utf8 cs) = true := by
  induction fuel generalizing cs with
  | zero => rfl
  | succ fuel ih =>
    cases cs with
    | nil => rfl
    | cons c cs =>
      have : utf8 (c :: cs) = EncodeRune c.toNat ++ utf8 cs := by simp [utf8]
      rw [this, validLoop_encode _ (validChar_toNat c)]
      exact ih cs

theorem encode_ascii_mem (n b : Nat) (hb : b ∈ EncodeRune n) (hlt : b < 0x80) : n = b := by
  unfold EncodeRune at hb
  split_ifs at hb <;> simp at hb <;> omega

theorem trimSpace_quoted (c : Str) : TrimSpace (0x22 :: c ++ [0x22]) = 0x22 :: c ++ [0x22] := by
  unfold TrimSpace
  simp only [List.cons_append]
  rw [trimLeftLoop_keep _ 0x22 _ (by decide) (by decide)]
  rw [← List.cons_append, trimRightLoop_keep _ 0x22 _ (by decide) (by decide)]

theorem indexByte_append (c r : Str) (b : Nat) (h : b ∉ c) :
    indexByte (c ++ b :: r) b = some c.length := by
  induction c with
  | nil => simp [indexByte]
  | cons x xs ih =>
    have hx : x ≠ b := fun e => h (by simp [e])
    have hxs : b ∉ xs := fun e => h (by simp [e])
    simp [indexByte, hx, ih hxs]

theorem unquote_plain (c : Str) (hq : 0x22 ∉ c) (hbs : 0x5C ∉ c) (hnl : 0x0A ∉ c)
    (hv : ValidString c = true) : Unquote (0x22 :: c ++ [0x22]) = .ok c := by
  have hidx := indexByte_append c [] 0x22 hq
  unfold Unquote unquote
  rw [if_neg (by simp)]
  simp only [List.cons_append]
  rw [hidx]
  simp only
  rw [if_neg (by decide), if_pos (by simp)]
  have htake : (0x22 :: (c ++ [0x22])).take (c.length + 2) = 0x22 :: (c ++ [0x22]) := by
    apply List.take_of_length_le
    simp
  have hdrop : (0x22 :: (c ++ [0x22])).drop (c.length + 2) = [] := by
    apply List.drop_of_length_le
    simp
  have hc : (c ++ [0x22]).take c.length = c := by simp
  rw [htake, hdrop, hc]
  have h1 : contains (0x22 :: (c ++ [0x22])) 0x5C = false := by
    simp [contains, hbs]
  have h2 : contains (0x22 :: (c ++ [0x22])) 0x0A = false := by
    simp [contains, hnl]
  simp [h1, h2, hv]

theorem utf8_cons (c : Char) (cs : List Char) : utf8 (c :: cs) = EncodeRune c.toNat ++ utf8 cs := by
  simp [utf8]

theorem utf8_ascii_mem (cs : List Char) (b : Nat) (hb : b ∈ utf8 cs) (hlt : b < 0x80) :
    Char.ofNat b ∈ cs := by
  induction cs with
  | nil => simp [utf8] at hb
  | cons c cs ih =>
    rw [utf8_cons, List.mem_append] at hb
    rcases hb with hb | hb
    · have := encode_ascii_mem _ _ hb hlt
      rw [← this]
      simp
    · exact List.mem_cons_of_mem _ (ih hb)

theorem validString_utf8 (cs : List Char) : ValidString (utf8 cs) = true :=
  validLoop_utf8 _ cs

theorem uncommented_longest (t q : Str) (hq : q <+: t) (h1 : 0x23 ∉ q) (h2 : 0x3B ∉ q) :
    q.length ≤ (uncommented t).length := by
  obtain ⟨r, rfl⟩ := hq
  induction q with
  | nil => simp
  | cons x xs ih =>
    have hx1 : x ≠ 0x23 := fun e => h1 (by simp [e])
    have hx2 : x ≠ 0x3B := fun e => h2 (by simp [e])
    have := ih (fun e => h1 (by simp [e])) (fun e => h2 (by simp [e]))
    simp only [uncommented] at this ⊢
    simp [List.takeWhile_cons, hx1, hx2]
    simpa using this

theorem uncommented_spec (t : Str) :
    uncommented t <+: t ∧ 0x23 ∉ uncommented t ∧ 0x3B ∉ uncommented t := by
  refine ⟨⟨t.dropWhile (fun b => decide (b ≠ 0x23 ∧ b ≠ 0x3B)), List.takeWhile_append_dropWhile _ _⟩, ?_, ?_⟩
  · intro h
    have := List.mem_takeWhile_imp h
    simp at this
  · intro h
    have := List.mem_takeWhile_imp h
    simp at this

theorem cleanString_trimmed_empty (v : Str) (h : TrimSpace v = []) : cleanString v = (v, none) := by
  unfold cleanString
  simp [h]

theorem firstInfo_none_low (b : Nat) (h : b < 0xC2) : firstInfo b = none := by
  unfold firstInfo
  rw [if_pos h]

theorem firstInfo_none_high (b : Nat) (h : 0xF4 < b) : firstInfo b = none := by
  unfold firstInfo
  rw [if_neg (by omega), if_neg (by omega), if_neg (by omega), if_neg (by omega),
    if_neg (by omega), if_neg (by omega), if_neg (by omega), if_neg (by omega), if_neg (by omega)]

theorem firstInfo_some (b sz lo hi : Nat) (h : firstInfo b = some (sz, lo, hi)) :
    (0xC2 ≤ b ∧ b ≤ 0xF4) ∧ (sz = 2 ∨ sz = 3 ∨ sz = 4) ∧ 0x80 ≤ lo ∧ hi ≤ 0xBF := by
  by_cases h1 : b < 0xC2
  · rw [firstInfo_none_low b h1] at h; cases h
  · by_cases h2 : b ≤ 0xDF
    · rw [firstInfo_two b (by omega) h2] at h
      cases h
      exact ⟨⟨by omega, by omega⟩, Or.inl rfl, by omega, by omega⟩
    · by_cases h3 : b ≤ 0xEF
      · rw [firstInfo_three b (by omega) h3] at h
        cases h
        refine ⟨⟨by omega, by omega⟩, Or.inr (Or.inl rfl), ?_, ?_⟩
        · by_cases e : b = 0xE0
          · rw [if_pos e]; omega
          · rw [if_neg e]
        · by_cases e : b = 0xED
          · rw [if_pos e]; omega
          · rw [if_neg e]
      · by_cases h4 : b ≤ 0xF4
        · rw [firstInfo_four b (by omega) h4] at h
          cases h
          refine ⟨⟨by omega, by omega⟩, Or.inr (Or.inr rfl), ?_, ?_⟩
          · by_cases e : b = 0xF0
            · rw [if_pos e]; omega
            · rw [if_neg e]
          · by_cases e : b = 0xF4
            · rw [if_pos e]; omega
            · rw [if_neg e]
        · rw [firstInfo_none_high b (by omega)] at h; cases h

theorem isSpace_runeError : IsSpace RuneError = false := by decide

theorem decode_two (s0 s1 lo hi : Nat) (t : Str) (hr : ¬ s0 < 0x80)
    (hfi : firstInfo s0 = some (2, lo, hi)) (h1 : ¬ (s1 < lo ∨ hi < s1)) :
    DecodeRuneInString (s0 :: s1 :: t) = (s0 % 32 * 64 + s1 % 64, 2) := by
  unfold DecodeRuneInString
  simp only [runeSelf_eq, if_neg hr, hfi]
  rw [if_neg (by simp), if_neg h1, if_pos (le_refl 2)]

theorem decode_three (s0 s1 s2 lo hi : Nat) (t : Str) (hr : ¬ s0 < 0x80)
    (hfi : firstInfo s0 = some (3, lo, hi)) (h1 : ¬ (s1 < lo ∨ hi < s1))
    (h2 : isCont s2 = true) :
    DecodeRuneInString (s0 :: s1 :: s2 :: t)
      = (s0 % 16 * 4096 + s1 % 64 * 64 + s2 % 64, 3) := by
  unfold DecodeRuneInString
  simp only [runeSelf_eq, if_neg hr, hfi]
  rw [if_neg (by simp), if_neg h1, if_neg (by omega), if_neg (by simp [h2]), if_pos (le_refl 3)]

theorem decode_four (s0 s1 s2 s3 lo hi : Nat) (t : Str) (hr : ¬ s0 < 0x80)
    (hfi : firstInfo s0 = some (4, lo, hi)) (h1 : ¬ (s1 < lo ∨ hi < s1))
    (h2 : isCont s2 = true) (h3 : isCont s3 = true) :
    DecodeRuneInString (s0 :: s1 :: s2 :: s3 :: t)
      = (s0 % 8 * 262144 + s1 % 64 * 4096 + s2 % 64 * 64 + s3 % 64, 4) := by
  unfold DecodeRuneInString
  simp only [runeSelf_eq, if_neg hr, hfi]
  rw [if_neg (by simp), if_neg h1, if_neg (by omega), if_neg (by simp [h2]), if_neg (by omega),
    if_neg (by simp [h3])]

/-- Shape of a decoded rune: the empty string, an ASCII byte, an invalid
encoding, or a lead byte followed by one, two or three continuation bytes; in
the valid cases the bytes after the rune do not matter. -/
theorem decode_cases (y : Str) :
    (y = [] ∧ DecodeRuneInString y = (RuneError, 0))
      ∨ (∃ b t, y = b :: t ∧ b < 0x80 ∧ DecodeRuneInString y = (b, 1))
      ∨ (y ≠ [] ∧ DecodeRuneInString y = (RuneError, 1))
      ∨ (∃ b0 b1 t, y = b0 :: b1 :: t ∧ (0xC2 ≤ b0 ∧ b0 ≤ 0xF4) ∧ isCont b1 = true
          ∧ (DecodeRuneInString y).2 = 2
          ∧ ∀ u, DecodeRuneInString (b0 :: b1 :: u) = DecodeRuneInString y)
      ∨ (∃ b0 b1 b2 t, y = b0 :: b1 :: b2 :: t ∧ (0xC2 ≤ b0 ∧ b0 ≤ 0xF4) ∧ isCont b1 = true
          ∧ isCont b2 = true ∧ (DecodeRuneInString y).2 = 3
          ∧ ∀ u, DecodeRuneInString (b0 :: b1 :: b2 :: u) = DecodeRuneInString y)
      ∨ (∃ b0 b1 b2 b3 t, y = b0 :: b1 :: b2 :: b3 :: t ∧ (0xC2 ≤ b0 ∧ b0 ≤ 0xF4) ∧ isCont b1 = true
          ∧ isCont b2 = true ∧ isCont b3 = true ∧ (DecodeRuneInString y).2 = 4
          ∧ ∀ u, DecodeRuneInString (b0 :: b1 :: b2 :: b3 :: u) = DecodeRuneInString y) := by
  cases y with
  | nil => exact Or.inl ⟨rfl, rfl⟩
  | cons s0 t =>
    by_cases ha : s0 < 0x80
    · exact Or.inr (Or.inl ⟨s0, t, rfl, ha, decode_ascii s0 t ha⟩)
    · have hr : ¬ s0 < RuneSelf := by rw [runeSelf_eq]; exact ha
      cases hfi : firstInfo s0 with
      | none =>
        refine Or.inr (Or.inr (Or.inl ⟨by simp, ?_⟩))
        unfold DecodeRuneInString
        simp only [if_neg hr, hfi]
      | some info =>
        obtain ⟨sz, lo, hi⟩ := info
        obtain ⟨hb0, hsz, hlo, hhi⟩ := firstInfo_some s0 sz lo hi hfi
        cases t with
        | nil =>
          refine Or.inr (Or.inr (Or.inl ⟨by simp, ?_⟩))
          unfold DecodeRuneInString
          simp only [if_neg hr, hfi]
          split_ifs <;> rfl
        | cons s1 t1 =>
          by_cases h1 : s1 < lo ∨ hi < s1
          · refine Or.inr (Or.inr (Or.inl ⟨by simp, ?_⟩))
            unfold DecodeRuneInString
            simp only [if_neg hr, hfi, if_pos h1]
            split_ifs <;> rfl
          · have hc1 : isCont s1 = true := by
              simp only [isCont, Bool.and_eq_true, decide_eq_true_eq]
              omega
            by_cases hs2 : sz = 2
            · subst hs2
              refine Or.inr (Or.inr (Or.inr (Or.inl ⟨s0, s1, t1, rfl, hb0, hc1, ?_, ?_⟩)))
              · rw [decode_two s0 s1 lo hi t1 ha hfi h1]
              · intro u
                rw [decode_two s0 s1 lo hi t1 ha hfi h1, decode_two s0 s1 lo hi u ha hfi h1]
            · cases t1 with
              | nil =>
                refine Or.inr (Or.inr (Or.inl ⟨by simp, ?_⟩))
                unfold DecodeRuneInString
                simp only [if_neg hr, hfi, if_neg h1]
                rw [if_pos (by simp only [List.length_cons, List.length_nil]; omega)]
              | cons s2 t2 =>
                by_cases h2 : isCont s2 = true
                · by_cases hs3 : sz = 3
                  · subst hs3
                    refine Or.inr (Or.inr (Or.inr (Or.inr (Or.inl
                      ⟨s0, s1, s2, t2, rfl, hb0, hc1, h2, ?_, ?_⟩))))
                    · rw [decode_three s0 s1 s2 lo hi t2 ha hfi h1 h2]
                    · intro u
                      rw [decode_three s0 s1 s2 lo hi t2 ha hfi h1 h2,
                        decode_three s0 s1 s2 lo hi u ha hfi h1 h2]
                  · have hs4 : sz = 4 := by omega
                    subst hs4
                    cases t2 with
                    | nil =>
                      refine Or.inr (Or.inr (Or.inl ⟨by simp, ?_⟩))
                      unfold DecodeRuneInString
                      simp only [if_neg hr, hfi, if_neg h1]
                      rw [if_pos (by simp)]
                    | cons s3 t3 =>
                      by_cases h3 : isCont s3 = true
                      · refine Or.inr (Or.inr (Or.inr (Or.inr (Or.inr
                          ⟨s0, s1, s2, s3, t3, rfl, hb0, hc1, h2, h3, ?_, ?_⟩))))
                        · rw [decode_four s0 s1 s2 s3 lo hi t3 ha hfi h1 h2 h3]
                        · intro u
                          rw [decode_four s0 s1 s2 s3 lo hi t3 ha hfi h1 h2 h3,
                            decode_four s0 s1 s2 s3 lo hi u ha hfi h1 h2 h3]
                      · refine Or.inr (Or.inr (Or.inl ⟨by simp, ?_⟩))
                        unfold DecodeRuneInString
                        simp only [if_neg hr, hfi, if_neg h1]
                        rw [if_neg (by simp), if_neg (by omega), if_neg (by simp [h2]),
                          if_neg (by omega), if_pos (by simp [h3])]
                · refine Or.inr (Or.inr (Or.inl ⟨by simp, ?_⟩))
                  unfold DecodeRuneInString
                  simp only [if_neg hr, hfi, if_neg h1]
                  by_cases hlen : (s0 :: s1 :: s2 :: t2).length < sz
                  · rw [if_pos hlen]
                  · rw [if_neg hlen, if_neg (by omega), if_pos (by simp [h2])]

theorem decode_size (y : Str) (h : y ≠ []) :
    1 ≤ (DecodeRuneInString y).2 ∧ (DecodeRuneInString y).2 ≤ y.length := by
  rcases decode_cases y with ⟨h0, _⟩ | ⟨b, t, rfl, _, hd⟩ | ⟨_, hd⟩ | ⟨b0, b1, t, rfl, _, _, hd, _⟩
    | ⟨b0, b1, b2, t, rfl, _, _, _, hd, _⟩ | ⟨b0, b1, b2, b3, t, rfl, _, _, _, _, hd, _⟩
  · exact absurd h0 h
  · rw [hd]; simp
  · rw [hd]
    cases y with
    | nil => exact absurd rfl h
    | cons a as => simp
  · rw [hd]; simp
  · rw [hd]; simp
  · rw [hd]; simp

/-- A white-space first rune is decoded from its own bytes: text appended after
the string does not change it. -/
theorem decode_append_of_space (p q : Str) (h : IsSpace (DecodeRuneInString p).1 = true) :
    DecodeRuneInString (p ++ q) = DecodeRuneInString p := by
  rcases decode_cases p with ⟨_, hd⟩ | ⟨b, t, rfl, hb, hd⟩ | ⟨_, hd⟩
    | ⟨b0, b1, t, rfl, _, _, _, hu⟩ | ⟨b0, b1, b2, t, rfl, _, _, _, _, hu⟩
    | ⟨b0, b1, b2, b3, t, rfl, _, _, _, _, _, hu⟩
  · rw [hd] at h; rw [isSpace_runeError] at h; cases h
  · rw [List.cons_append, decode_ascii b _ hb, hd]
  · rw [hd] at h; rw [isSpace_runeError] at h; cases h
  · exact hu _
  · exact hu _
  · exact hu _

theorem runeStart_lead (b : Nat) (h1 : 0xC2 ≤ b) (h2 : b ≤ 0xF4) : RuneStart b = true := by
  simp only [RuneStart, decide_eq_true_eq]
  omega

theorem runeStart_cont (b : Nat) (h : isCont b = true) : RuneStart b = false := by
  simp only [isCont, Bool.and_eq_true, decide_eq_true_eq] at h
  simp only [RuneStart, decide_eq_false_iff_not, not_not]
  omega

theorem cont_not_ascii (b : Nat) (h : isCont b = true) : ¬ b < RuneSelf := by
  simp only [isCont, Bool.and_eq_true, decide_eq_true_eq] at h
  rw [runeSelf_eq]
  omega

theorem lastRuneStart_lt (s : Str) (e : Nat) (h : 1 ≤ e) : lastRuneStart s e < e := by
  unfold lastRuneStart
  split_ifs <;> omega

theorem decodeLast_size (s : Str) (h : s ≠ []) :
    1 ≤ (DecodeLastRuneInString s).2 ∧ (DecodeLastRuneInString s).2 ≤ s.length := by
  have hlen : 1 ≤ s.length := List.length_pos.mpr h
  unfold DecodeLastRuneInString
  simp only
  rw [if_neg (by omega)]
  by_cases ha : s.getD (s.length - 1) 0 < RuneSelf
  · rw [if_pos ha]; exact ⟨le_refl 1, hlen⟩
  · rw [if_neg ha]
    by_cases hs : lastRuneStart s s.length
        + (DecodeRuneInString (s.drop (lastRuneStart s s.length))).2 ≠ s.length
    · rw [if_pos hs]; exact ⟨le_refl 1, hlen⟩
    · rw [if_neg hs]
      have hlt := lastRuneStart_lt s s.length hlen
      have := not_not.mp hs
      omega

/-- When the last rune is white space and covers the whole string, it is the
first rune as well. -/
theorem decodeLast_full (s : Str) (h : s ≠ []) (hsz : (DecodeLastRuneInString s).2 = s.length)
    (hsp : IsSpace (DecodeLastRuneInString s).1 = true) :
    DecodeRuneInString s = DecodeLastRuneInString s := by
  have hlen : 1 ≤ s.length := List.length_pos.mpr h
  unfold DecodeLastRuneInString at hsz hsp ⊢
  simp only at hsz hsp ⊢
  rw [if_neg (by omega)] at hsz hsp ⊢
  by_cases ha : s.getD (s.length - 1) 0 < RuneSelf
  · rw [if_pos ha] at hsz hsp ⊢
    simp only at hsz
    cases s with
    | nil => exact absurd rfl h
    | cons b t =>
      cases t with
      | nil =>
        simp only [List.length_cons, List.length_nil, List.getD_cons_zero] at ha ⊢
        rw [runeSelf_eq] at ha
        exact decode_ascii b [] ha
      | cons c u => simp at hsz
  · rw [if_neg ha] at hsz hsp ⊢
    by_cases hs : lastRuneStart s s.length
        + (DecodeRuneInString (s.drop (lastRuneStart s s.length))).2 ≠ s.length
    · rw [if_pos hs] at hsp
      rw [isSpace_runeError] at hsp
      cases hsp
    · rw [if_neg hs] at hsz ⊢
      have h0 : lastRuneStart s s.length = 0 := by
        have := not_not.mp hs
        omega
      rw [h0, List.drop_zero]

theorem getD_append_length (x y : Str) (k : Nat) :
    (x ++ y).getD (x.length + k) 0 = y.getD k 0 := by
  induction x with
  | nil => simp
  | cons a as ih =>
    rw [List.cons_append, List.length_cons, Nat.add_right_comm, List.getD_cons_succ]
    exact ih

/-- Last rune of a string that ends with the bytes of one white-space rune. -/
theorem decodeLast_append_rune (x y : Str) (hy : y ≠ [])
    (hs : IsSpace (DecodeRuneInString y).1 = true)
    (hlen : (DecodeRuneInString y).2 = y.length) :
    DecodeLastRuneInString (x ++ y) = DecodeRuneInString y := by
  rcases decode_cases y with ⟨h0, _⟩ | ⟨b, t, rfl, hb, hd⟩ | ⟨_, hd⟩
    | ⟨b0, b1, t, rfl, hb0, hc1, hd, _⟩ | ⟨b0, b1, b2, t, rfl, hb0, hc1, hc2, hd, _⟩
    | ⟨b0, b1, b2, b3, t, rfl, hb0, hc1, hc2, hc3, hd, _⟩
  · exact absurd h0 hy
  · rw [hd] at hlen
    have ht : t = [] := by
      simp only [List.length_cons] at hlen
      exact List.length_eq_zero.mp (by omega)
    subst ht
    rw [decodeLast_ascii x b hb, hd]
  · rw [hd] at hs; rw [isSpace_runeError] at hs; cases hs
  · rw [hd] at hlen
    have ht : t = [] := by
      simp only [List.length_cons] at hlen
      exact List.length_eq_zero.mp (by omega)
    subst ht
    have hl : (x ++ [b0, b1]).length = x.length + 2 := by simp
    have g1 : (x ++ [b0, b1]).getD (x.length + 1) 0 = b1 := getD_append_length x [b0, b1] 1
    have g0 : (x ++ [b0, b1]).getD (x.length + 0) 0 = b0 := getD_append_length x [b0, b1] 0
    unfold DecodeLastRuneInString
    simp only [hl]
    rw [if_neg (by omega), show x.length + 2 - 1 = x.length + 1 from by omega, g1,
      if_neg (cont_not_ascii b1 hc1)]
    have hst : lastRuneStart (x ++ [b0, b1]) (x.length + 2) = x.length := by
      unfold lastRuneStart
      rw [if_neg (by omega), show x.length + 2 - 2 = x.length + 0 from by omega, g0,
        if_pos (runeStart_lead b0 hb0.1 hb0.2)]
      rfl
    rw [hst, List.drop_left, hd, if_neg (by simp)]
  · rw [hd] at hlen
    have ht : t = [] := by
      simp only [List.length_cons] at hlen
      exact List.length_eq_zero.mp (by omega)
    subst ht
    have hl : (x ++ [b0, b1, b2]).length = x.length + 3 := by simp
    have g2 : (x ++ [b0, b1, b2]).getD (x.length + 2) 0 = b2 := getD_append_length x _ 2
    have g1 : (x ++ [b0, b1, b2]).getD (x.length + 1) 0 = b1 := getD_append_length x _ 1
    have g0 : (x ++ [b0, b1, b2]).getD (x.length + 0) 0 = b0 := getD_append_length x _ 0
    unfold DecodeLastRuneInString
    simp only [hl]
    rw [if_neg (by omega), show x.length + 3 - 1 = x.length + 2 from by omega, g2,
      if_neg (cont_not_ascii b2 hc2)]
    have hst : lastRuneStart (x ++ [b0, b1, b2]) (x.length + 3) = x.length := by
      unfold lastRuneStart
      rw [if_neg (by omega), show x.length + 3 - 2 = x.length + 1 from by omega, g1,
        runeStart_cont b1 hc1, if_neg (by simp), if_neg (by omega),
        show x.length + 3 - 3 = x.length + 0 from by omega, g0,
        if_pos (runeStart_lead b0 hb0.1 hb0.2)]
      rfl
    rw [hst, List.drop_left, hd, if_neg (by simp)]
  · rw [hd] at hlen
    have ht : t = [] := by
      simp only [List.length_cons] at hlen
      exact List.length_eq_zero.mp (by omega)
    subst ht
    have hl : (x ++ [b0, b1, b2, b3]).length = x.length + 4 := by simp
    have g3 : (x ++ [b0, b1, b2, b3]).getD (x.length + 3) 0 = b3 := getD_append_length x _ 3
    have g2 : (x ++ [b0, b1, b2, b3]).getD (x.length + 2) 0 = b2 := getD_append_length x _ 2
    have g1 : (x ++ [b0, b1, b2, b3]).getD (x.length + 1) 0 = b1 := getD_append_length x _ 1
    have g0 : (x ++ [b0, b1, b2, b3]).getD (x.length + 0) 0 = b0 := getD_append_length x _ 0
    unfold DecodeLastRuneInString
    simp only [hl]
    rw [if_neg (by omega), show x.length + 4 - 1 = x.length + 3 from by omega, g3,
      if_neg (cont_not_ascii b3 hc3)]
    have hst : lastRuneStart (x ++ [b0, b1, b2, b3]) (x.length + 4) = x.length := by
      unfold lastRuneStart
      rw [if_neg (by omega), show x.length + 4 - 2 = x.length + 2 from by omega, g2,
        runeStart_cont b2 hc2, if_neg (by simp), if_neg (by omega),
        show x.length + 4 - 3 = x.length + 1 from by omega, g1,
        runeStart_cont b1 hc1, if_neg (by simp), if_neg (by omega),
        show x.length + 4 - 4 = x.length + 0 from by omega, g0,
        if_pos (runeStart_lead b0 hb0.1 hb0.2)]
      rfl
    rw [hst, List.drop_left, hd, if_neg (by simp)]

/-- Result of the left trimming loop: a final part of the string that is empty
or starts with a rune that is no white space. -/
theorem trimLeftLoop_spec (n : Nat) (s : Str) (h : s.length ≤ n) :
    (∃ x, s = x ++ trimLeftLoop n s)
      ∧ (trimLeftLoop n s = [] ∨ IsSpace (DecodeRuneInString (trimLeftLoop n s)).1 = false) := by
  induction n generalizing s with
  | zero =>
    have hs : s = [] := List.length_eq_zero.mp (by omega)
    subst hs
    exact ⟨⟨[], rfl⟩, Or.inl rfl⟩
  | succ n ih =>
    by_cases hs : s = []
    · subst hs
      exact ⟨⟨[], rfl⟩, Or.inl rfl⟩
    · rw [trimLeftLoop_succ n s hs]
      by_cases hsp : IsSpace (DecodeRuneInString s).1 = true
      · rw [if_pos hsp]
        have hsz := decode_size s hs
        have hl : (s.drop (DecodeRuneInString s).2).length ≤ n := by
          rw [List.length_drop]
          omega
        obtain ⟨⟨x, hx⟩, hF⟩ := ih _ hl
        refine ⟨⟨s.take (DecodeRuneInString s).2 ++ x, ?_⟩, hF⟩
        rw [List.append_assoc, ← hx, List.take_append_drop]
      · rw [if_neg hsp]
        exact ⟨⟨[], rfl⟩, Or.inr (by simpa using hsp)⟩

/-- Result of the right trimming loop: an initial part of the string that is
empty or ends with a rune that is no white space. -/
theorem trimRightLoop_spec (n : Nat) (s : Str) (h : s.length ≤ n) :
    (∃ k, trimRightLoop n s = s.take k)
      ∧ (trimRightLoop n s = []
        ∨ IsSpace (DecodeLastRuneInString (trimRightLoop n s)).1 = false) := by
  induction n generalizing s with
  | zero =>
    have hs : s = [] := List.length_eq_zero.mp (by omega)
    subst hs
    exact ⟨⟨0, rfl⟩, Or.inl rfl⟩
  | succ n ih =>
    by_cases hs : s = []
    · subst hs
      exact ⟨⟨0, rfl⟩, Or.inl rfl⟩
    · rw [trimRightLoop_succ n s hs]
      by_cases hsp : IsSpace (DecodeLastRuneInString s).1 = true
      · rw [if_pos hsp]
        have hsz := decodeLast_size s hs
        have hl : (s.take (s.length - (DecodeLastRuneInString s).2)).length ≤ n := by
          rw [List.length_take]
          omega
        obtain ⟨⟨k, hk⟩, hL⟩ := ih _ hl
        refine ⟨⟨min k (s.length - (DecodeLastRuneInString s).2), ?_⟩, hL⟩
        rw [hk, List.take_take]
      · rw [if_neg hsp]
        exact ⟨⟨s.length, (List.take_length s).symm⟩, Or.inr (by simpa using hsp)⟩

/-- An initial part of a string that does not start with white space does not
start with white space. -/
theorem first_not_space_take (s : Str) (k : Nat)
    (h : s = [] ∨ IsSpace (DecodeRuneInString s).1 = false) :
    s.take k = [] ∨ IsSpace (DecodeRuneInString (s.take k)).1 = false := by
  by_cases ht : s.take k = []
  · exact Or.inl ht
  · refine Or.inr ?_
    by_contra hc
    have hc' : IsSpace (DecodeRuneInString (s.take k)).1 = true := by simpa using hc
    have := decode_append_of_space (s.take k) (s.drop k) hc'
    rw [List.take_append_drop] at this
    rcases h with h | h
    · subst h; simp at ht
    · rw [this, hc'] at h
      cases h

/-- The result of `strings.TrimSpace` has no leading and no trailing white space. -/
theorem trimmed_TrimSpace (s : Str) : trimmed (TrimSpace s) := by
  unfold TrimSpace trimmed
  simp only
  obtain ⟨_, hF⟩ := trimLeftLoop_spec s.length s (le_refl _)
  obtain ⟨⟨k, hk⟩, hL⟩ := trimRightLoop_spec (trimLeftLoop s.length s).length
    (trimLeftLoop s.length s) (le_refl _)
  have hF' := first_not_space_take _ k hF
  rw [← hk] at hF'
  rcases hL with hL | hL
  · exact Or.inl hL
  · rcases hF' with hF' | hF'
    · exact Or.inl hF'
    · exact Or.inr ⟨hF', hL⟩

/-- The result of `strings.TrimSpace` is a part of the string. -/
theorem TrimSpace_part (s : Str) : ∃ x y, s = x ++ TrimSpace s ++ y := by
  unfold TrimSpace
  simp only
  obtain ⟨⟨x, hx⟩, _⟩ := trimLeftLoop_spec s.length s (le_refl _)
  obtain ⟨⟨k, hk⟩, _⟩ := trimRightLoop_spec (trimLeftLoop s.length s).length
    (trimLeftLoop s.length s) (le_refl _)
  refine ⟨x, (trimLeftLoop s.length s).drop k, ?_⟩
  rw [hk, List.append_assoc, List.take_append_drop]
  exact hx

theorem mem_of_mem_TrimSpace (s : Str) (b : Nat) (h : b ∈ TrimSpace s) : b ∈ s := by
  obtain ⟨x, y, hxy⟩ := TrimSpace_part s
  rw [hxy]
  simp [h]

/-- The right trimming loop does not empty a string that does not start with
white space. -/
theorem trimRightLoop_ne_nil (n : Nat) (u : Str) (hu : u ≠ [])
    (hF : IsSpace (DecodeRuneInString u).1 = false) : trimRightLoop n u ≠ [] := by
  induction n generalizing u with
  | zero => exact hu
  | succ n ih =>
    rw [trimRightLoop_succ n u hu]
    by_cases hsp : IsSpace (DecodeLastRuneInString u).1 = true
    · rw [if_pos hsp]
      have hsz := decodeLast_size u hu
      by_cases ht : u.take (u.length - (DecodeLastRuneInString u).2) = []
      · exfalso
        have hlen : (DecodeLastRuneInString u).2 = u.length := by
          have := congrArg List.length ht
          rw [List.length_take] at this
          simp only [List.length_nil] at this
          have hpos : 1 ≤ u.length := List.length_pos.mpr hu
          omega
        have := decodeLast_full u hu hlen hsp
        rw [this, hsp] at hF
        cases hF
      · apply ih _ ht
        rcases first_not_space_take u (u.length - (DecodeLastRuneInString u).2) (Or.inr hF)
          with h | h
        · exact absurd h ht
        · exact h
    · rw [if_neg hsp]
      exact hu

/-- When the left trimming loop empties a string, the string ends with the
bytes of one white-space rune. -/
theorem trimLeftLoop_nil_last (n : Nat) (v : Str) (hv : v ≠ []) (h : trimLeftLoop n v = []) :
    ∃ x y, v = x ++ y ∧ y ≠ [] ∧ IsSpace (DecodeRuneInString y).1 = true
      ∧ (DecodeRuneInString y).2 = y.length := by
  induction n generalizing v with
  | zero => exact absurd h hv
  | succ n ih =>
    rw [trimLeftLoop_succ n v hv] at h
    by_cases hsp : IsSpace (DecodeRuneInString v).1 = true
    · rw [if_pos hsp] at h
      have hsz := decode_size v hv
      by_cases hd : v.drop (DecodeRuneInString v).2 = []
      · refine ⟨[], v, rfl, hv, hsp, ?_⟩
        have := congrArg List.length hd
        rw [List.length_drop] at this
        simp only [List.length_nil] at this
        omega
      · obtain ⟨x, y, hxy, hy, hs, hl⟩ := ih _ hd h
        refine ⟨v.take (DecodeRuneInString v).2 ++ x, y, ?_, hy, hs, hl⟩
        rw [List.append_assoc, ← hxy, List.take_append_drop]
    · rw [if_neg hsp] at h
      exact absurd h hv

/-- A final part of a string that does not end with white space is empty when
its trimmed form is empty. -/
theorem blank_suffix_nil (p v : Str)
    (hL : p ++ v = [] ∨ IsSpace (DecodeLastRuneInString (p ++ v)).1 = false)
    (h : TrimSpace v = []) : v = [] := by
  by_contra hv
  unfold TrimSpace at h
  simp only at h
  by_cases hu : trimLeftLoop v.length v = []
  · obtain ⟨x, y, hxy, hy, hs, hl⟩ := trimLeftLoop_nil_last v.length v hv hu
    have hd := decodeLast_append_rune (p ++ x) y hy hs hl
    rw [List.append_assoc, ← hxy] at hd
    rcases hL with hL | hL
    · exact hv (List.append_eq_nil.mp hL).2
    · rw [hd, hs] at hL
      cases hL
  · obtain ⟨_, hF⟩ := trimLeftLoop_spec v.length v (le_refl _)
    rcases hF with hF | hF
    · exact hu hF
    · exact trimRightLoop_ne_nil _ _ hu hF h

/-! ### Lemmas on the line parser -/

theorem split_cons_form (s : Str) (sep : Nat) :
    Split s sep = s.takeWhile (fun b => decide (b ≠ sep)) ::
      (match s.dropWhile (fun b => decide (b ≠ sep)) with
       | [] => []
       | _ :: r => Split r sep) := by
  induction s with
  | nil => simp [Split]
  | cons c cs ih =>
    by_cases h : c = sep
    · simp [Split, h, List.takeWhile_cons, List.dropWhile_cons]
    · rw [Split, if_neg h, ih]
      simp [List.takeWhile_cons, List.dropWhile_cons, h]

theorem split_two (s : Str) (sep : Nat) (h : (Split s sep).length = 2) :
    Split s sep = [s.takeWhile (fun b => decide (b ≠ sep)),
      (s.dropWhile (fun b => decide (b ≠ sep))).drop 1] := by
  rw [split_cons_form] at h ⊢
  cases hd : s.dropWhile (fun b => decide (b ≠ sep)) with
  | nil => rw [hd] at h; simp at h
  | cons x r =>
    rw [hd] at h
    simp only [List.length_cons] at h
    have h1 : (Split r sep).length = 1 := by omega
    rw [split_length] at h1
    have h0 : sep ∉ r := by
      intro hm
      have := List.count_pos_iff.mpr hm
      omega
    simp [split_of_not_mem r sep h0]

theorem cleanString_error_iff (x : Str) :
    (cleanString x).2 ≠ none ↔
      ((TrimSpace x).headD 0 = 0x22 ∧ ∃ e, Unquote (TrimSpace x) = .error e) := by
  unfold cleanString
  simp only
  by_cases h0 : (TrimSpace x).length = 0
  · have h : TrimSpace x = [] := List.length_eq_zero.mp h0
    rw [if_pos h0, h]
    constructor
    · intro hn; exact absurd rfl hn
    · rintro ⟨hh, _⟩; exact absurd hh (by decide)
  · rw [if_neg h0]
    by_cases h1 : (TrimSpace x).headD 0 ≠ 0x22
    · rw [if_pos h1]
      constructor
      · intro hn; exact absurd rfl hn
      · rintro ⟨hh, _⟩; exact absurd hh h1
    · rw [if_neg h1]
      have h1' : (TrimSpace x).headD 0 = 0x22 := not_not.mp h1
      cases hu : Unquote (TrimSpace x) with
      | error e =>
        dsimp only
        constructor
        · intro _; exact ⟨h1', e, rfl⟩
        · intro _ hn; cases hn
      | ok r =>
        dsimp only
        constructor
        · intro hn; exact absurd rfl hn
        · rintro ⟨_, e, he⟩; cases he

theorem malformedLine_iff (line : Str) :
    malformedLine line = true ↔
      ((Split line 0x3D).length ≠ 2 ∨
        ((Split line 0x3D).length = 2 ∧ (cleanString ((Split line 0x3D).getD 1 [])).2 ≠ none)) := by
  unfold malformedLine
  rw [split_length, Bool.or_eq_true, Bool.and_eq_true, decide_eq_true_eq, decide_eq_true_eq]
  by_cases hc : line.count 0x3D = 1
  · have h2 : (Split line 0x3D).length = 2 := by rw [split_length, hc]
    have hv : (Split line 0x3D).getD 1 [] = valuePart line := by
      rw [split_two _ _ h2]; rfl
    rw [hv, cleanString_error_iff]
    constructor
    · rintro (h | ⟨hh, hm⟩)
      · exact absurd hc h
      · refine Or.inr ⟨by omega, hh, ?_⟩
        cases hu : Unquote (TrimSpace (valuePart line)) with
        | error e => exact ⟨e, rfl⟩
        | ok r => rw [hu] at hm; cases hm
    · rintro (h | ⟨_, hh, e, he⟩)
      · omega
      · refine Or.inr ⟨hh, ?_⟩
        rw [he]
  · constructor
    · intro _; exact Or.inl (by omega)
    · intro _; exact Or.inl hc

theorem parseLines_cons_skip (i : Nat) (raw : Str) (rest : List Str) (m : FileMap)
    (h : skipLine (TrimSpace raw) = true) :
    parseLines i (raw :: rest) m = parseLines (i + 1) rest m := by
  rw [parseLines]
  simp [h]

theorem parseLines_cons_bad (i : Nat) (raw : Str) (rest : List Str) (m : FileMap)
    (h : skipLine (TrimSpace raw) = false) (hb : malformedLine (TrimSpace raw) = true) :
    ∃ e, parseLines i (raw :: rest) m = .error e := by
  rw [parseLines]
  simp only [h]
  rw [malformedLine_iff] at hb
  rcases hb with hb | ⟨h2, hb⟩
  · by_cases hgt : (Split (TrimSpace raw) 0x3D).length > 2
    · simp [hgt]
    · have : (Split (TrimSpace raw) 0x3D).length < 2 := by omega
      simp [hgt, this]
  · simp only [h2]
    cases hc : cleanString ((Split (TrimSpace raw) 0x3D).getD 1 []) with
    | mk a b =>
      rw [hc] at hb
      cases b with
      | none => simp at hb
      | some e => simp

theorem parseLines_cons_good (i : Nat) (raw : Str) (rest : List Str) (m : FileMap)
    (h : skipLine (TrimSpace raw) = false) (hb : malformedLine (TrimSpace raw) = false) :
    parseLines i (raw :: rest) m
      = parseLines (i + 1) rest (mapSet m (lineEntry (TrimSpace raw)).1 (lineEntry (TrimSpace raw)).2) := by
  have hb' : ¬ (malformedLine (TrimSpace raw) = true) := by simp [hb]
  rw [malformedLine_iff] at hb'
  have h2 : (Split (TrimSpace raw) 0x3D).length = 2 := by
    by_contra hne
    exact hb' (Or.inl hne)
  have hc : (cleanString ((Split (TrimSpace raw) 0x3D).getD 1 [])).2 = none := by
    by_contra hne
    exact hb' (Or.inr ⟨h2, hne⟩)
  have hs := split_two _ _ h2
  rw [parseLines]
  simp only [h, h2]
  have hv : (Split (TrimSpace raw) 0x3D).getD 1 [] = valuePart (TrimSpace raw) := by
    rw [hs]; rfl
  have hk : (Split (TrimSpace raw) 0x3D).getD 0 [] = keyPart (TrimSpace raw) := by
    rw [hs]; rfl
  rw [hv] at hc ⊢
  rw [hk]
  cases hcs : cleanString (valuePart (TrimSpace raw)) with
  | mk a b =>
    rw [hcs] at hc
    simp only at hc
    subst hc
    simp [lineEntry, hcs]

theorem mapGet_mapSet (m : FileMap) (k v k2 : Str) :
    mapGet (mapSet m k v) k2 = if k = k2 then some v else mapGet m k2 := by
  induction m with
  | nil => simp [mapSet, mapGet]
  | cons e rest ih =>
    obtain ⟨k1, v1⟩ := e
    by_cases h : k1 = k
    · subst h
      by_cases h2 : k1 = k2
      · simp [mapSet, mapGet, h2]
      · simp [mapSet, mapGet, h2]
    · by_cases h2 : k1 = k2
      · subst h2
        simp [mapSet, mapGet, h, Ne.symm h]
      · simp [mapSet, mapGet, h, h2, ih]

theorem dataOf_cons_skip (raw : Str) (rest : List Str) (h : skipLine (TrimSpace raw) = true) :
    dataOf (raw :: rest) = dataOf rest := by
  simp [dataOf, h]

theorem dataOf_cons_data (raw : Str) (rest : List Str) (h : skipLine (TrimSpace raw) = false) :
    dataOf (raw :: rest) = TrimSpace raw :: dataOf rest := by
  simp [dataOf, h]

theorem dataOf_append (a b : List Str) : dataOf (a ++ b) = dataOf a ++ dataOf b := by
  simp [dataOf]

/-- The loop fails exactly when some data line is malformed. -/
theorem parseLines_error_iff (ls : List Str) (i : Nat) (m : FileMap) :
    (∃ e, parseLines i ls m = .error e) ↔ ∃ line ∈ dataOf ls, malformedLine line = true := by
  induction ls generalizing i m with
  | nil => simp [parseLines, dataOf]
  | cons raw rest ih =>
    by_cases hs : skipLine (TrimSpace raw) = true
    · rw [parseLines_cons_skip i raw rest m hs, dataOf_cons_skip raw rest hs]
      exact ih _ _
    · have hs' : skipLine (TrimSpace raw) = false := by simpa using hs
      rw [dataOf_cons_data raw rest hs']
      by_cases hb : malformedLine (TrimSpace raw) = true
      · constructor
        · intro _; exact ⟨_, List.mem_cons_self _ _, hb⟩
        · intro _; exact parseLines_cons_bad i raw rest m hs' hb
      · have hb' : malformedLine (TrimSpace raw) = false := by simpa using hb
        rw [parseLines_cons_good i raw rest m hs' hb', ih]
        constructor
        · rintro ⟨l, hl, hm⟩; exact ⟨l, List.mem_cons_of_mem _ hl, hm⟩
        · rintro ⟨l, hl, hm⟩
          rcases List.mem_cons.mp hl with h | h
          · subst h; exact absurd hm hb
          · exact ⟨l, h, hm⟩

theorem except_ok_or_error {ε α : Type} (r : Except ε α) :
    (∃ a, r = .ok a) ↔ ¬ ∃ e, r = .error e := by
  cases r with
  | error e => simp
  | ok a => simp

theorem lastValue_cons (k : Str) (e : Str × Str) (rest : List (Str × Str)) :
    lastValue k (e :: rest) = match lastValue k rest with
      | some v => some v
      | none => if e.1 = k then some e.2 else none := by
  cases e
  rfl

/-- On success the map holds for each key the value of the last entry with that key. -/
theorem parseLines_lookup (ls : List Str) (i : Nat) (m0 m : FileMap)
    (h : parseLines i ls m0 = .ok m) (k : Str) :
    mapGet m k = match lastValue k ((dataOf ls).map lineEntry) with
      | some v => some v
      | none => mapGet m0 k := by
  induction ls generalizing i m0 with
  | nil =>
    simp [parseLines] at h
    subst h
    simp [dataOf, lastValue]
  | cons raw rest ih =>
    by_cases hs : skipLine (TrimSpace raw) = true
    · rw [parseLines_cons_skip i raw rest m0 hs] at h
      rw [dataOf_cons_skip raw rest hs]
      exact ih _ _ h
    · have hs' : skipLine (TrimSpace raw) = false := by simpa using hs
      by_cases hb : malformedLine (TrimSpace raw) = true
      · obtain ⟨e, he⟩ := parseLines_cons_bad i raw rest m0 hs' hb
        rw [he] at h; cases h
      · have hb' : malformedLine (TrimSpace raw) = false := by simpa using hb
        rw [parseLines_cons_good i raw rest m0 hs' hb'] at h
        rw [dataOf_cons_data raw rest hs', ih _ _ h, List.map_cons]
        cases hl : lastValue k ((dataOf rest).map lineEntry) with
        | some v => rw [lastValue_cons, hl]
        | none =>
          rw [lastValue_cons, hl, mapGet_mapSet]
          by_cases hk : (lineEntry (TrimSpace raw)).1 = k
          · simp [hk]
          · simp [hk]

theorem lastValue_ne_none (k : Str) (es : List (Str × Str)) :
    lastValue k es ≠ none ↔ ∃ e ∈ es, e.1 = k := by
  induction es with
  | nil => simp [lastValue]
  | cons e rest ih =>
    obtain ⟨k1, v1⟩ := e
    cases hl : lastValue k rest with
    | some v =>
      have : ∃ e ∈ rest, e.1 = k := ih.mp (by rw [hl]; simp)
      obtain ⟨e, he, hk⟩ := this
      simp only [lastValue, hl]
      constructor
      · intro _; exact ⟨e, List.mem_cons_of_mem _ he, hk⟩
      · intro _; simp
    | none =>
      have hno : ¬ ∃ e ∈ rest, e.1 = k := fun hx => (ih.mpr hx) hl
      simp only [lastValue, hl]
      by_cases hk : k1 = k
      · simp [hk]
      · rw [if_neg hk]
        constructor
        · intro hx; exact absurd rfl hx
        · rintro ⟨e, he, hek⟩
          rcases List.mem_cons.mp he with h | h
          · subst h; exact absurd hek hk
          · exact absurd ⟨e, h, hek⟩ hno

theorem lastValue_last (k : Str) (pre post : List (Str × Str)) (v : Str)
    (hpost : ∀ e ∈ post, e.1 ≠ k) : lastValue k (pre ++ (k, v) :: post) = some v := by
  have hp : lastValue k post = none := by
    by_contra hne
    obtain ⟨e, he, hk⟩ := (lastValue_ne_none k post).mp hne
    exact hpost e he hk
  induction pre with
  | nil => simp [lastValue, hp]
  | cons e rest ih =>
    obtain ⟨k1, v1⟩ := e
    simp [lastValue, ih]

/-- The loop succeeds with a map exactly when the data lines fold to that map. -/
theorem parseLines_ok_iff (ls : List Str) (i : Nat) (m0 m : FileMap) :
    parseLines i ls m0 = .ok m ↔ foldData (dataOf ls) m0 = some m := by
  induction ls generalizing i m0 with
  | nil => simp [parseLines, dataOf, foldData]
  | cons raw rest ih =>
    by_cases hs : skipLine (TrimSpace raw) = true
    · rw [parseLines_cons_skip i raw rest m0 hs, dataOf_cons_skip raw rest hs]
      exact ih _ _
    · have hs' : skipLine (TrimSpace raw) = false := by simpa using hs
      rw [dataOf_cons_data raw rest hs']
      by_cases hb : malformedLine (TrimSpace raw) = true
      · obtain ⟨e, he⟩ := parseLines_cons_bad i raw rest m0 hs' hb
        rw [he, foldData, if_pos hb]
        constructor
        · intro h; cases h
        · intro h; cases h
      · have hb' : malformedLine (TrimSpace raw) = false := by simpa using hb
        rw [parseLines_cons_good i raw rest m0 hs' hb', foldData, if_neg hb]
        exact ih _ _

theorem split_joinLines (ls : List Str) (h : ls ≠ []) :
    Split (joinLines ls) 0x0A = ls.flatMap (fun l => Split l 0x0A) := by
  induction ls with
  | nil => exact absurd rfl h
  | cons l rest ih =>
    cases rest with
    | nil => simp [joinLines]
    | cons l2 rest2 =>
      rw [joinLines, split_append, ih (by simp)]
      simp

theorem dataOf_single_skip (l : Str) (h : skipLine (TrimSpace l) = true) : dataOf [l] = [] := by
  simp [dataOf, h]

theorem dataLines_joinLines (ls : List Str) (h : ls ≠ []) :
    dataLines (joinLines ls) = (ls.map (fun l => dataOf (Split l 0x0A))).flatten := by
  rw [dataLines, split_joinLines ls h]
  induction ls with
  | nil => simp [dataOf]
  | cons l rest ih =>
    cases rest with
    | nil => simp
    | cons l2 rest2 =>
      have := ih (by simp)
      rw [List.flatMap_cons, dataOf_append, this]
      simp

theorem dataLines_nil : dataLines [] = [] := by decide

theorem dataLines_insert (pre post : List Str) (l : Str) (hnl : 0x0A ∉ l)
    (hskip : skipLine (TrimSpace l) = true) :
    dataLines (joinLines (pre ++ l :: post)) = dataLines (joinLines (pre ++ post)) := by
  rw [dataLines_joinLines _ (by simp)]
  have hl : dataOf (Split l 0x0A) = [] := by
    rw [split_of_not_mem l _ hnl]
    exact dataOf_single_skip l hskip
  by_cases he : pre ++ post = []
  · have hp : pre = [] := (List.append_eq_nil.mp he).1
    have hq : post = [] := (List.append_eq_nil.mp he).2
    subst hp hq
    simp [hl, joinLines, dataLines_nil]
  · rw [dataLines_joinLines _ he]
    simp [hl]

theorem getValuesFromFile_ok_iff (text configFile : Str) (m : FileMap) :
    getValuesFromFile (fun _ => Except.ok text) configFile = .ok m
      ↔ foldData (dataLines text) [] = some m := by
  unfold getValuesFromFile
  simp only
  exact parseLines_ok_iff _ _ _ _

theorem getValuesFromFile_error_iff (text configFile : Str) :
    (∃ e, getValuesFromFile (fun _ => Except.ok text) configFile = .error e)
      ↔ ∃ line ∈ dataLines text, malformedLine line = true := by
  unfold getValuesFromFile
  simp only
  exact parseLines_error_iff _ _ _

/-! ### Lemmas on the registry and the merge loop -/

theorem assign_same {V : Type} (store : Nat → V) (p : Nat) (v : V) : assign store p v p = v := by
  simp [assign]

theorem assign_other {V : Type} (store : Nat → V) (p q : Nat) (v : V) (h : q ≠ p) :
    assign store p v q = store q := by
  simp [assign, h]

theorem assign_self {V : Type} (store : Nat → V) (p : Nat) : assign store p (store p) = store := by
  funext q
  by_cases h : q = p
  · simp [assign, h]
  · simp [assign, h]

theorem assign_comm {V : Type} (store : Nat → V) (p q : Nat) (v w : V) (h : p ≠ q) :
    assign (assign store p v) q w = assign (assign store q w) p v := by
  funext r
  by_cases h1 : r = q
  · have h2 : r ≠ p := fun e => h (e.symm.trans h1)
    simp [assign, h1, Ne.symm h]
  · by_cases h2 : r = p
    · simp [assign, h2, h]
    · simp [assign, h1, h2]

theorem Lookup_name {V : Type} (fs : FlagSet V) (key : Str) (f : Flag) (h : Lookup fs key = some f) :
    f.Name = key := by
  have := List.find?_some h
  simpa using this

theorem Lookup_mem {V : Type} (fs : FlagSet V) (key : Str) (f : Flag) (h : Lookup fs key = some f) :
    f ∈ fs.formal :=
  List.mem_of_find?_eq_some h

theorem Lookup_none_iff {V : Type} (fs : FlagSet V) (key : Str) :
    Lookup fs key = none ↔ key ∉ fs.formal.map Flag.Name := by
  unfold Lookup
  rw [List.find?_eq_none]
  simp

/-- The flag found for a name depends on the registered flags only. -/
theorem Lookup_congr {V W : Type} (fs : FlagSet V) (gs : FlagSet W) (h : gs.formal = fs.formal)
    (name : Str) : Lookup gs name = Lookup fs name := by
  unfold Lookup
  rw [h]

theorem flagValue_of_Lookup {V : Type} (fs : FlagSet V) (name : Str) (f : Flag)
    (h : Lookup fs name = some f) : flagValue fs name = some (fs.store f.Value) := by
  unfold flagValue
  rw [h]
  rfl

theorem flagValue_none {V : Type} (fs : FlagSet V) (name : Str)
    (h : Lookup fs name = none) : flagValue fs name = none := by
  unfold flagValue
  rw [h]
  rfl

theorem sameVariable_iff {V : Type} (fs : FlagSet V) (k name : Str) :
    sameVariable fs k name
      ↔ ∃ g f, Lookup fs k = some g ∧ Lookup fs name = some f ∧ g.Value = f.Value := by
  unfold sameVariable address
  cases hk : Lookup fs k with
  | none => simp
  | some g =>
    cases hn : Lookup fs name with
    | none => simp
    | some f => simp

theorem applyMissing_not_mem {V : Type} (ops : ValueOps V) (f : Flag) (value : Str)
    (store : Nat → V) (missing : List Str) (h : f.Name ∉ missing) :
    applyMissing ops f value store missing = (store, none) := by
  induction missing with
  | nil => rfl
  | cons x xs ih =>
    have hx : f.Name ≠ x := fun e => h (by simp [e])
    have hxs : f.Name ∉ xs := fun e => h (by simp [e])
    simp [applyMissing, hx, ih hxs]

theorem applyMissing_mem {V : Type} (ops : ValueOps V) (f : Flag) (value : Str)
    (store : Nat → V) (missing : List Str) (h : f.Name ∈ missing) :
    applyMissing ops f value store missing
      = if ops.String (store f.Value) ≠ value then
          (assign store f.Value (ops.Set (store f.Value) value).1,
            (ops.Set (store f.Value) value).2)
        else (store, none) := by
  induction missing with
  | nil => simp at h
  | cons x xs ih =>
    by_cases hx : f.Name = x
    · simp [applyMissing, hx]
    · have hxs : f.Name ∈ xs := by
        rcases List.mem_cons.mp h with e | e
        · exact absurd e hx
        · exact e
      simp [applyMissing, hx, ih hxs]

/-- A step for a flag in the missing list whose string differs from the file
value writes the value left by `Set` and returns the error of `Set`. -/
theorem applyMissing_set {V : Type} (ops : ValueOps V) (f : Flag) (value : Str)
    (store : Nat → V) (missing : List Str) (h : f.Name ∈ missing)
    (hs : ops.String (store f.Value) ≠ value) :
    applyMissing ops f value store missing
      = (assign store f.Value (ops.Set (store f.Value) value).1,
          (ops.Set (store f.Value) value).2) := by
  rw [applyMissing_mem ops f value store missing h, if_pos hs]

/-- A step for a flag whose string is the file value writes nothing. -/
theorem applyMissing_same {V : Type} (ops : ValueOps V) (f : Flag) (value : Str)
    (store : Nat → V) (missing : List Str) (hs : ops.String (store f.Value) = value) :
    applyMissing ops f value store missing = (store, none) := by
  by_cases h : f.Name ∈ missing
  · rw [applyMissing_mem ops f value store missing h, if_neg (not_not.mpr hs)]
  · exact applyMissing_not_mem ops f value store missing h

/-- A step writes the variable of its flag only. -/
theorem applyMissing_other {V : Type} (ops : ValueOps V) (f : Flag) (value : Str)
    (store : Nat → V) (missing : List Str) (a : Nat) (h : a ≠ f.Value) :
    (applyMissing ops f value store missing).1 a = store a := by
  by_cases hm : f.Name ∈ missing
  · rw [applyMissing_mem ops f value store missing hm]
    by_cases hs : ops.String (store f.Value) ≠ value
    · rw [if_pos hs]
      exact assign_other _ _ _ _ h
    · rw [if_neg hs]
  · rw [applyMissing_not_mem ops f value store missing hm]

/-- A variable whose content differs after a step is the variable of the flag,
the flag is in the missing list and its string differed from the file value. -/
theorem applyMissing_changed {V : Type} (ops : ValueOps V) (f : Flag) (value : Str)
    (store : Nat → V) (missing : List Str) (a : Nat)
    (h : (applyMissing ops f value store missing).1 a ≠ store a) :
    a = f.Value ∧ f.Name ∈ missing ∧ ops.String (store f.Value) ≠ value := by
  refine ⟨?_, ?_, ?_⟩
  · by_contra hne
    exact h (applyMissing_other ops f value store missing a hne)
  · by_contra hm
    rw [applyMissing_not_mem ops f value store missing hm] at h
    exact h rfl
  · intro hs
    rw [applyMissing_same ops f value store missing hs] at h
    exact h rfl

theorem applyMissing_error {V : Type} (ops : ValueOps V) (f : Flag) (value : Str)
    (store : Nat → V) (missing : List Str) (err : Str)
    (h : (applyMissing ops f value store missing).2 = some err) :
    applyMissing ops f value store missing
        = (assign store f.Value (ops.Set (store f.Value) value).1, some err)
      ∧ (ops.Set (store f.Value) value).2 = some err := by
  by_cases hm : f.Name ∈ missing
  · rw [applyMissing_mem ops f value store missing hm] at h ⊢
    by_cases hs : ops.String (store f.Value) ≠ value
    · rw [if_pos hs] at h ⊢
      simp only at h
      rw [h]
      exact ⟨rfl, rfl⟩
    · rw [if_neg hs] at h
      cases h
  · rw [applyMissing_not_mem ops f value store missing hm] at h
    cases h

theorem mergeLoop_cons_none {V : Type} (ops : ValueOps V) (missing : List Str) (key value : Str)
    (rest : List (Str × Str)) (fs : FlagSet V) (h : Lookup fs key = none) :
    mergeLoop ops missing ((key, value) :: rest) fs = (fs, some (.unknownFlag key)) := by
  rw [mergeLoop, h]

theorem mergeLoop_cons_some {V : Type} (ops : ValueOps V) (missing : List Str) (key value : Str)
    (rest : List (Str × Str)) (fs : FlagSet V) (f : Flag) (h : Lookup fs key = some f) :
    mergeLoop ops missing ((key, value) :: rest) fs
      = match (applyMissing ops f value fs.store missing).2 with
        | some err =>
          ({ fs with store := (applyMissing ops f value fs.store missing).1 },
            some (.flagParse key err))
        | none => mergeLoop ops missing rest
            { fs with store := (applyMissing ops f value fs.store missing).1 } := by
  rw [mergeLoop, h]
  simp only
  cases hx : applyMissing ops f value fs.store missing with
  | mk a b =>
    cases b with
    | none => rfl
    | some e => rfl

/-- One successful step of the loop: the flag is found and `Set` raises no error. -/
theorem mergeLoop_cons_ok {V : Type} (ops : ValueOps V) (missing : List Str) (key value : Str)
    (rest : List (Str × Str)) (fs : FlagSet V)
    (h : (mergeLoop ops missing ((key, value) :: rest) fs).2 = none) :
    ∃ f, Lookup fs key = some f ∧ (applyMissing ops f value fs.store missing).2 = none
      ∧ mergeLoop ops missing ((key, value) :: rest) fs
          = mergeLoop ops missing rest
              { fs with store := (applyMissing ops f value fs.store missing).1 } := by
  cases hl : Lookup fs key with
  | none =>
    rw [mergeLoop_cons_none ops missing key value rest fs hl] at h
    cases h
  | some f =>
    rw [mergeLoop_cons_some ops missing key value rest fs f hl] at h ⊢
    cases hx : (applyMissing ops f value fs.store missing).2 with
    | some err =>
      rw [hx] at h
      cases h
    | none => exact ⟨f, rfl, hx, rfl⟩

theorem mergeLoop_cons_of_ok {V : Type} (ops : ValueOps V) (missing : List Str) (key value : Str)
    (rest : List (Str × Str)) (fs : FlagSet V) (f : Flag) (hl : Lookup fs key = some f)
    (hx : (applyMissing ops f value fs.store missing).2 = none) :
    mergeLoop ops missing ((key, value) :: rest) fs
      = mergeLoop ops missing rest
          { fs with store := (applyMissing ops f value fs.store missing).1 } := by
  rw [mergeLoop_cons_some ops missing key value rest fs f hl, hx]

/-- The loop writes variables only: the registered flags, with the variables
they are bound to, and the flags set on the command line stay as they are. -/
theorem mergeLoop_formal {V : Type} (ops : ValueOps V) (missing : List Str)
    (entries : List (Str × Str)) (fs : FlagSet V) :
    (mergeLoop ops missing entries fs).1.formal = fs.formal
      ∧ (mergeLoop ops missing entries fs).1.actual = fs.actual := by
  induction entries generalizing fs with
  | nil => exact ⟨rfl, rfl⟩
  | cons e rest ih =>
    obtain ⟨key, value⟩ := e
    cases hl : Lookup fs key with
    | none => rw [mergeLoop_cons_none ops missing key value rest fs hl]; exact ⟨rfl, rfl⟩
    | some f =>
      rw [mergeLoop_cons_some ops missing key value rest fs f hl]
      cases hx : (applyMissing ops f value fs.store missing).2 with
      | some err => exact ⟨rfl, rfl⟩
      | none => exact ih _

theorem mergeLoop_Lookup {V : Type} (ops : ValueOps V) (missing : List Str)
    (entries : List (Str × Str)) (fs : FlagSet V) (name : Str) :
    Lookup (mergeLoop ops missing entries fs).1 name = Lookup fs name :=
  Lookup_congr fs _ (mergeLoop_formal ops missing entries fs).1 name

/-- Frame of the loop: a variable keeps its content when no entry names a flag
of the missing list that is bound to it. -/
theorem mergeLoop_frame {V : Type} (ops : ValueOps V) (missing : List Str) (a : Nat)
    (entries : List (Str × Str)) (fs : FlagSet V)
    (h : ∀ e ∈ entries, ∀ g, Lookup fs e.1 = some g → g.Value = a → e.1 ∉ missing) :
    (mergeLoop ops missing entries fs).1.store a = fs.store a := by
  induction entries generalizing fs with
  | nil => rfl
  | cons e rest ih =>
    obtain ⟨key, value⟩ := e
    have hrest : ∀ e ∈ rest, ∀ g, Lookup fs e.1 = some g → g.Value = a → e.1 ∉ missing :=
      fun e he => h e (List.mem_cons_of_mem _ he)
    cases hl : Lookup fs key with
    | none => rw [mergeLoop_cons_none ops missing key value rest fs hl]
    | some f =>
      have hstep : (applyMissing ops f value fs.store missing).1 a = fs.store a := by
        by_cases ha : a = f.Value
        · have hnm : f.Name ∉ missing := by
            rw [Lookup_name fs key f hl]
            exact h (key, value) (List.mem_cons_self _ _) f hl ha.symm
          rw [applyMissing_not_mem ops f value fs.store missing hnm]
        · exact applyMissing_other ops f value fs.store missing a ha
      rw [mergeLoop_cons_some ops missing key value rest fs f hl]
      cases hx : (applyMissing ops f value fs.store missing).2 with
      | some err => exact hstep
      | none =>
        exact (ih { fs with store := (applyMissing ops f value fs.store missing).1 } hrest).trans
          hstep

theorem mem_insertFlag (f g : Flag) (l : List Flag) :
    g ∈ insertFlag f l ↔ g = f ∨ g ∈ l := by
  induction l with
  | nil => simp [insertFlag]
  | cons x xs ih =>
    unfold insertFlag
    split_ifs
    · simp
    · simp [ih]
      tauto

theorem mem_sortFlags (g : Flag) (l : List Flag) :
    g ∈ sortFlags l ↔ g ∈ l := by
  induction l with
  | nil => simp [sortFlags]
  | cons x xs ih => simp [sortFlags, mem_insertFlag, ih]

theorem foundIn_iff (name : Str) (set : List Str) : foundIn name set = true ↔ name ∈ set := by
  induction set with
  | nil => simp [foundIn]
  | cons v rest ih =>
    by_cases h : v = name
    · simp [foundIn, h]
    · simp [foundIn, h, ih, Ne.symm h]

theorem foldl_names (l : List Flag) (acc : List Str) :
    l.foldl (fun set f => set ++ [f.Name]) acc = acc ++ l.map Flag.Name := by
  induction l generalizing acc with
  | nil => simp
  | cons x xs ih => simp [ih]

theorem foldl_missing (set : List Str) (l : List Flag) (acc : List Str) :
    l.foldl (fun missing f => if foundIn f.Name set then missing else missing ++ [f.Name]) acc
      = acc ++ (l.filter (fun f => !foundIn f.Name set)).map Flag.Name := by
  induction l generalizing acc with
  | nil => simp
  | cons x xs ih =>
    by_cases h : foundIn x.Name set = true
    · simp [ih, h]
    · have h' : foundIn x.Name set = false := by simpa using h
      simp [ih, h']

/-- The missing list is the list of the names of all flags, in the order of
`VisitAll`, without the names of the flags of `Visit`. -/
theorem getMissingFlags_eq {V : Type} (fs : FlagSet V) :
    getMissingFlags fs
      = ((VisitAll fs).filter
          (fun f => !foundIn f.Name ((Visit fs).map Flag.Name))).map Flag.Name := by
  unfold getMissingFlags
  simp only [foldl_names, foldl_missing, List.nil_append]

theorem mem_getMissingFlags {V : Type} (fs : FlagSet V) (name : Str) :
    name ∈ getMissingFlags fs ↔ name ∈ fs.formal.map Flag.Name ∧ name ∉ fs.actual := by
  rw [getMissingFlags_eq]
  simp only [List.mem_map, List.mem_filter, VisitAll, Visit, mem_sortFlags, Bool.not_eq_true',
    decide_eq_true_eq]
  constructor
  · rintro ⟨f, ⟨hf, hnf⟩, rfl⟩
    refine ⟨⟨f, hf, rfl⟩, ?_⟩
    intro ha
    have : foundIn f.Name ((sortFlags (fs.formal.filter (fun g => decide (g.Name ∈ fs.actual)))).map
        Flag.Name) = true := by
      rw [foundIn_iff]
      exact List.mem_map.mpr ⟨f, by simp [mem_sortFlags, hf, ha], rfl⟩
    rw [this] at hnf
    cases hnf
  · rintro ⟨⟨f, hf, rfl⟩, hna⟩
    refine ⟨f, ⟨hf, ?_⟩, rfl⟩
    by_contra hx
    have hx' : foundIn f.Name ((sortFlags (fs.formal.filter
        (fun g => decide (g.Name ∈ fs.actual)))).map Flag.Name) = true := by simpa using hx
    rw [foundIn_iff] at hx'
    obtain ⟨g, hg, hgn⟩ := List.mem_map.mp hx'
    rw [mem_sortFlags] at hg
    simp at hg
    exact hna (hgn ▸ hg.2)

/-- The missing list depends on the registered flags and on the flags that
have been set only, not on the content of the variables. -/
theorem getMissingFlags_congr {V W : Type} (fs : FlagSet V) (gs : FlagSet W)
    (hn : gs.formal = fs.formal) (ha : gs.actual = fs.actual) :
    getMissingFlags gs = getMissingFlags fs := by
  unfold getMissingFlags Visit VisitAll
  rw [hn, ha]

theorem mergeLoop_append {V : Type} (ops : ValueOps V) (missing : List Str)
    (pre rest : List (Str × Str)) (fs : FlagSet V) :
    mergeLoop ops missing (pre ++ rest) fs
      = match (mergeLoop ops missing pre fs).2 with
        | none => mergeLoop ops missing rest (mergeLoop ops missing pre fs).1
        | some _ => mergeLoop ops missing pre fs := by
  induction pre generalizing fs with
  | nil => rfl
  | cons e pre ih =>
    obtain ⟨key, value⟩ := e
    rw [List.cons_append]
    cases hl : Lookup fs key with
    | none =>
      rw [mergeLoop_cons_none ops missing key value _ fs hl,
        mergeLoop_cons_none ops missing key value _ fs hl]
    | some f =>
      rw [mergeLoop_cons_some ops missing key value _ fs f hl,
        mergeLoop_cons_some ops missing key value _ fs f hl]
      cases hx : (applyMissing ops f value fs.store missing).2 with
      | some err => rfl
      | none =>
        simp only
        exact ih _

theorem mergeLoop_append_ok {V : Type} (ops : ValueOps V) (missing : List Str)
    (pre rest : List (Str × Str)) (fs : FlagSet V) (h : (mergeLoop ops missing pre fs).2 = none) :
    mergeLoop ops missing (pre ++ rest) fs
      = mergeLoop ops missing rest (mergeLoop ops missing pre fs).1 := by
  rw [mergeLoop_append, h]

/-- The variable of a flag of the missing list that is a key of the entries,
when no other key names a flag of the missing list bound to it: after a
successful loop it holds the value left by `Set` on its content. -/
theorem mergeLoop_sets {V : Type} (ops : ValueOps V) (missing : List Str) (name v : Str)
    (entries : List (Str × Str)) (fs : FlagSet V) (f : Flag)
    (hm : name ∈ missing) (hl : Lookup fs name = some f) (he : (name, v) ∈ entries)
    (hnd : (entries.map Prod.fst).Nodup) (hne : ops.String (fs.store f.Value) ≠ v)
    (hsep : ∀ e ∈ entries, e.1 ≠ name → ∀ g, Lookup fs e.1 = some g → g.Value = f.Value →
      e.1 ∉ missing)
    (hok : (mergeLoop ops missing entries fs).2 = none) :
    (mergeLoop ops missing entries fs).1.store f.Value = (ops.Set (fs.store f.Value) v).1 := by
  induction entries generalizing fs with
  | nil => simp at he
  | cons e rest ih =>
    obtain ⟨key, value⟩ := e
    rw [List.map_cons, List.nodup_cons] at hnd
    obtain ⟨hkey, hnd'⟩ := hnd
    obtain ⟨g, hlk, hx, heq⟩ := mergeLoop_cons_ok ops missing key value rest fs hok
    rw [heq] at hok ⊢
    by_cases hkn : key = name
    · subst hkn
      have hv : value = v := by
        rcases List.mem_cons.mp he with h | h
        · exact (Prod.mk.inj h).2.symm
        · exact absurd (List.mem_map.mpr ⟨(key, v), h, rfl⟩) hkey
      subst hv
      have hg : g = f := by
        rw [hl] at hlk
        exact (Option.some.inj hlk).symm
      subst hg
      have hgn : g.Name = key := Lookup_name fs key g hl
      refine (mergeLoop_frame ops missing g.Value rest
        { fs with store := (applyMissing ops g value fs.store missing).1 }
        (fun e he' g2 hg2 hv2 => hsep e (List.mem_cons_of_mem _ he')
          (fun hk => hkey (List.mem_map.mpr ⟨e, he', hk⟩)) g2 hg2 hv2)).trans ?_
      simp only
      rw [applyMissing_set ops g value fs.store missing (hgn ▸ hm) hne]
      exact assign_same _ _ _
    · have hin : (name, v) ∈ rest := by
        rcases List.mem_cons.mp he with h | h
        · exact absurd (Prod.mk.inj h).1.symm hkn
        · exact h
      have hstep : (applyMissing ops g value fs.store missing).1 f.Value = fs.store f.Value := by
        by_cases ha : f.Value = g.Value
        · have hnm : g.Name ∉ missing := by
            rw [Lookup_name fs key g hlk]
            exact hsep (key, value) (List.mem_cons_self _ _) hkn g hlk ha.symm
          rw [applyMissing_not_mem ops g value fs.store missing hnm]
        · exact applyMissing_other ops g value fs.store missing f.Value ha
      have := ih { fs with store := (applyMissing ops g value fs.store missing).1 } hl hin hnd'
        (by simp only; rw [hstep]; exact hne)
        (fun e he' hk g2 hg2 hv2 => hsep e (List.mem_cons_of_mem _ he') hk g2 hg2 hv2) hok
      simp only at this
      rw [this, hstep]

/-- A variable whose content differs after the loop: some entry names a flag of
the missing list that is bound to it, with a value that differs from the string
of its content before the loop. -/
theorem mergeLoop_changed {V : Type} (ops : ValueOps V) (missing : List Str) (a : Nat)
    (entries : List (Str × Str)) (fs : FlagSet V)
    (h : (mergeLoop ops missing entries fs).1.store a ≠ fs.store a) :
    ∃ k v g, (k, v) ∈ entries ∧ Lookup fs k = some g ∧ g.Value = a ∧ k ∈ missing
      ∧ ops.String (fs.store a) ≠ v := by
  induction entries generalizing fs with
  | nil => exact absurd rfl h
  | cons e rest ih =>
    obtain ⟨key, value⟩ := e
    cases hl : Lookup fs key with
    | none =>
      rw [mergeLoop_cons_none ops missing key value rest fs hl] at h
      exact absurd rfl h
    | some f =>
      have hfn : f.Name = key := Lookup_name fs key f hl
      rw [mergeLoop_cons_some ops missing key value rest fs f hl] at h
      by_cases hstep : (applyMissing ops f value fs.store missing).1 a = fs.store a
      · cases hx : (applyMissing ops f value fs.store missing).2 with
        | some err =>
          rw [hx] at h
          exact absurd hstep h
        | none =>
          rw [hx] at h
          simp only at h
          rw [← hstep] at h
          obtain ⟨k, v, g, hkv, hg, hga, hkm, hs⟩ := ih _ h
          simp only at hs
          rw [hstep] at hs
          exact ⟨k, v, g, List.mem_cons_of_mem _ hkv, hg, hga, hkm, hs⟩
      · obtain ⟨ha, hm, hs⟩ := applyMissing_changed ops f value fs.store missing a hstep
        exact ⟨key, value, f, List.mem_cons_self _ _, hl, ha.symm, hfn ▸ hm, ha ▸ hs⟩

/-- Two steps commute when their flags are bound to different variables or one
of the flags is not in the missing list. -/
theorem applyMissing_comm {V : Type} (ops : ValueOps V) (missing : List Str) (f g : Flag)
    (v w : Str) (s : Nat → V)
    (h : f.Value ≠ g.Value ∨ f.Name ∉ missing ∨ g.Name ∉ missing) :
    (applyMissing ops g w s missing).2
        = (applyMissing ops g w (applyMissing ops f v s missing).1 missing).2
      ∧ (applyMissing ops f v (applyMissing ops g w s missing).1 missing).2
        = (applyMissing ops f v s missing).2
      ∧ (applyMissing ops f v (applyMissing ops g w s missing).1 missing).1
        = (applyMissing ops g w (applyMissing ops f v s missing).1 missing).1 := by
  by_cases hf : f.Name ∈ missing
  · by_cases hg : g.Name ∈ missing
    · have hne : f.Value ≠ g.Value := by
        rcases h with h | h | h
        · exact h
        · exact absurd hf h
        · exact absurd hg h
      have e1 : ∀ t : Nat → V, (applyMissing ops f v t missing)
          = if ops.String (t f.Value) ≠ v then
              (assign t f.Value (ops.Set (t f.Value) v).1, (ops.Set (t f.Value) v).2)
            else (t, none) := fun t => applyMissing_mem ops f v t missing hf
      have e2 : ∀ t : Nat → V, (applyMissing ops g w t missing)
          = if ops.String (t g.Value) ≠ w then
              (assign t g.Value (ops.Set (t g.Value) w).1, (ops.Set (t g.Value) w).2)
            else (t, none) := fun t => applyMissing_mem ops g w t missing hg
      have o1 : (applyMissing ops f v s missing).1 g.Value = s g.Value :=
        applyMissing_other ops f v s missing g.Value (Ne.symm hne)
      have o2 : (applyMissing ops g w s missing).1 f.Value = s f.Value :=
        applyMissing_other ops g w s missing f.Value hne
      rw [e2 (applyMissing ops f v s missing).1, e1 (applyMissing ops g w s missing).1, o1, o2]
      rw [e1 s, e2 s]
      by_cases c1 : ops.String (s f.Value) ≠ v
      · by_cases c2 : ops.String (s g.Value) ≠ w
        · simp only [if_pos c1, if_pos c2]
          exact ⟨trivial, trivial, (assign_comm s f.Value g.Value _ _ hne).symm⟩
        · simp only [if_pos c1, if_neg c2]
          exact ⟨trivial, trivial, trivial⟩
      · by_cases c2 : ops.String (s g.Value) ≠ w
        · simp only [if_neg c1, if_pos c2]
          exact ⟨trivial, trivial, trivial⟩
        · simp only [if_neg c1, if_neg c2]
          exact ⟨trivial, trivial, trivial⟩
    · simp only [applyMissing_not_mem ops g w _ missing hg]
      exact ⟨trivial, trivial, trivial⟩
  · simp only [applyMissing_not_mem ops f v _ missing hf]
    exact ⟨trivial, trivial, trivial⟩

/-- The loop run on a permutation of entries with pairwise different keys, no
two of which name flags of the missing list bound to one variable: when it
succeeds in one order it returns the same result in the other. -/
theorem mergeLoop_perm {V : Type} (ops : ValueOps V) (missing : List Str)
    (l1 l2 : List (Str × Str)) (hp : l1.Perm l2) :
    ∀ fs : FlagSet V, (l1.map Prod.fst).Nodup →
      (∀ e1 ∈ l1, ∀ e2 ∈ l1, e1.1 ≠ e2.1 → ∀ g1 g2, Lookup fs e1.1 = some g1 →
        Lookup fs e2.1 = some g2 → g1.Value = g2.Value → e1.1 ∉ missing ∨ e2.1 ∉ missing) →
      (mergeLoop ops missing l1 fs).2 = none →
      mergeLoop ops missing l2 fs = mergeLoop ops missing l1 fs := by
  induction hp with
  | nil => intro fs _ _ _; rfl
  | cons x _ ih =>
    intro fs hnd hsep hok
    obtain ⟨key, value⟩ := x
    rw [List.map_cons, List.nodup_cons] at hnd
    obtain ⟨f, hl, hx, heq⟩ := mergeLoop_cons_ok ops missing key value _ fs hok
    rw [heq] at hok ⊢
    rw [mergeLoop_cons_of_ok ops missing key value _ fs f hl hx]
    exact ih _ hnd.2 (fun e1 h1 e2 h2 hne g1 g2 hg1 hg2 hv =>
      hsep e1 (List.mem_cons_of_mem _ h1) e2 (List.mem_cons_of_mem _ h2) hne g1 g2 hg1 hg2 hv) hok
  | swap x y l =>
    intro fs hnd hsep hok
    obtain ⟨kx, vx⟩ := x
    obtain ⟨ky, vy⟩ := y
    simp only [List.map_cons, List.nodup_cons, List.mem_cons, not_or] at hnd
    have hne : ky ≠ kx := hnd.1.1
    obtain ⟨fy, hly, hxy, heq1⟩ := mergeLoop_cons_ok ops missing ky vy _ fs hok
    rw [heq1] at hok ⊢
    obtain ⟨fx, hlx, hxx, heq2⟩ := mergeLoop_cons_ok ops missing kx vx _ _ hok
    rw [heq2]
    have hlx' : Lookup fs kx = some fx := hlx
    have hcond : fy.Value ≠ fx.Value ∨ fy.Name ∉ missing ∨ fx.Name ∉ missing := by
      by_cases hv : fy.Value = fx.Value
      · right
        rw [Lookup_name fs ky fy hly, Lookup_name fs kx fx hlx']
        exact hsep (ky, vy) (by simp) (kx, vx) (by simp) hne fy fx hly hlx' hv
      · exact Or.inl hv
    obtain ⟨c1, c2, c3⟩ := applyMissing_comm ops missing fy fx vy vx fs.store hcond
    simp only at hxx
    have hxx' : (applyMissing ops fx vx fs.store missing).2 = none := by rw [c1]; exact hxx
    rw [mergeLoop_cons_of_ok ops missing kx vx _ fs fx hlx' hxx']
    have hly' : Lookup { fs with store := (applyMissing ops fx vx fs.store missing).1 } ky
        = some fy := hly
    rw [mergeLoop_cons_of_ok ops missing ky vy _ _ fy hly' (by simp only; rw [c2]; exact hxy)]
    simp only
    rw [c3]
  | @trans la lb lc h12 _ ih1 ih2 =>
    intro fs hnd hsep hok
    have e1 := ih1 fs hnd hsep hok
    have hnd2 := (h12.map Prod.fst).nodup_iff.mp hnd
    have hsep2 : ∀ e1 ∈ lb, ∀ e2 ∈ lb, e1.1 ≠ e2.1 → ∀ g1 g2, Lookup fs e1.1 = some g1 →
        Lookup fs e2.1 = some g2 → g1.Value = g2.Value → e1.1 ∉ missing ∨ e2.1 ∉ missing :=
      fun e1 h1 e2 h2 => hsep e1 (h12.mem_iff.mpr h1) e2 (h12.mem_iff.mpr h2)
    rw [ih2 fs hnd2 hsep2 (by rw [e1]; exact hok), e1]

/-- The failing entry after a successful run of the entries before it. -/
theorem mergeLoop_fail_at {V : Type} (ops : ValueOps V) (missing : List Str)
    (post : List (Str × Str)) (k v : Str) (fs1 : FlagSet V)
    (hfail : (mergeLoop ops missing [(k, v)] fs1).2 ≠ none) :
    mergeLoop ops missing ((k, v) :: post) fs1 = mergeLoop ops missing [(k, v)] fs1
      ∧ (Lookup fs1 k = none →
          mergeLoop ops missing ((k, v) :: post) fs1 = (fs1, some (.unknownFlag k)))
      ∧ (∀ f, Lookup fs1 k = some f → ∃ err, (ops.Set (fs1.store f.Value) v).2 = some err
          ∧ mergeLoop ops missing ((k, v) :: post) fs1
              = ({ fs1 with store := assign fs1.store f.Value (ops.Set (fs1.store f.Value) v).1 },
                  some (.flagParse k err))) := by
  cases hl : Lookup fs1 k with
  | none =>
    rw [mergeLoop_cons_none ops missing k v post fs1 hl,
      mergeLoop_cons_none ops missing k v [] fs1 hl]
    refine ⟨rfl, fun _ => rfl, ?_⟩
    intro f hf
    cases hf
  | some f =>
    rw [mergeLoop_cons_some ops missing k v [] fs1 f hl] at hfail ⊢
    rw [mergeLoop_cons_some ops missing k v post fs1 f hl]
    cases hx : (applyMissing ops f v fs1.store missing).2 with
    | none =>
      rw [hx] at hfail
      exact absurd rfl hfail
    | some err =>
      obtain ⟨hset, herr⟩ := applyMissing_error ops f v fs1.store missing err hx
      simp only
      refine ⟨trivial, ?_, ?_⟩
      · intro h
        cases h
      · intro g hg
        cases hg
        refine ⟨err, herr, ?_⟩
        rw [hset]

/-- An entry is settled in a registry when the loop step for it finds its flag
and writes nothing, without error. -/
theorem mergeLoop_settled {V : Type} (ops : ValueOps V) (missing : List Str)
    (entries : List (Str × Str)) (fs : FlagSet V)
    (h : ∀ e ∈ entries, ∃ f, Lookup fs e.1 = some f
      ∧ applyMissing ops f e.2 fs.store missing = (fs.store, none)) :
    mergeLoop ops missing entries fs = (fs, none) := by
  induction entries with
  | nil => rfl
  | cons e rest ih =>
    obtain ⟨key, value⟩ := e
    obtain ⟨f, hl, ha⟩ := h (key, value) (List.mem_cons_self _ _)
    rw [mergeLoop_cons_of_ok ops missing key value rest fs f hl (by rw [ha]), ha]
    exact ih (fun e he => h e (List.mem_cons_of_mem _ he))

theorem mergeLoop_settles {V : Type} (ops : ValueOps V) (missing : List Str)
    (hrep : ∀ x s, (ops.Set x s).2 = none → ops.Set (ops.Set x s).1 s = ((ops.Set x s).1, none))
    (entries : List (Str × Str)) (fs : FlagSet V)
    (hnd : (entries.map Prod.fst).Nodup)
    (hsep : ∀ e1 ∈ entries, ∀ e2 ∈ entries, e1.1 ≠ e2.1 → ∀ g1 g2, Lookup fs e1.1 = some g1 →
        Lookup fs e2.1 = some g2 → g1.Value = g2.Value → e1.1 ∉ missing ∨ e2.1 ∉ missing)
    (hok : (mergeLoop ops missing entries fs).2 = none) :
    ∀ e ∈ entries, ∃ f, Lookup (mergeLoop ops missing entries fs).1 e.1 = some f
      ∧ applyMissing ops f e.2 (mergeLoop ops missing entries fs).1.store missing
          = ((mergeLoop ops missing entries fs).1.store, none) := by
  induction entries generalizing fs with
  | nil => intro e he; cases he
  | cons e rest ih =>
    obtain ⟨key, value⟩ := e
    rw [List.map_cons, List.nodup_cons] at hnd
    obtain ⟨hkey, hnd'⟩ := hnd
    obtain ⟨f, hl, hx, heq⟩ := mergeLoop_cons_ok ops missing key value rest fs hok
    rw [heq] at hok ⊢
    have hsep' : ∀ e1 ∈ rest, ∀ e2 ∈ rest, e1.1 ≠ e2.1 → ∀ g1 g2,
        Lookup { fs with store := (applyMissing ops f value fs.store missing).1 } e1.1 = some g1 →
        Lookup { fs with store := (applyMissing ops f value fs.store missing).1 } e2.1 = some g2 →
        g1.Value = g2.Value → e1.1 ∉ missing ∨ e2.1 ∉ missing :=
      fun e1 h1 e2 h2 hne g1 g2 hg1 hg2 hv =>
        hsep e1 (List.mem_cons_of_mem _ h1) e2 (List.mem_cons_of_mem _ h2) hne g1 g2 hg1 hg2 hv
    intro e he
    rcases List.mem_cons.mp he with h | h
    · subst h
      refine ⟨f, ?_, ?_⟩
      · rw [mergeLoop_Lookup]
        exact hl
      · show applyMissing ops f value _ missing = _
        by_cases hm : f.Name ∈ missing
        · have hframe : (mergeLoop ops missing rest
              { fs with store := (applyMissing ops f value fs.store missing).1 }).1.store f.Value
              = (applyMissing ops f value fs.store missing).1 f.Value := by
            apply mergeLoop_frame
            intro e2 he2 g2 hg2 hv2 hm2
            have hne : e2.1 ≠ key := fun hk => hkey (List.mem_map.mpr ⟨e2, he2, hk⟩)
            have hkm : key ∈ missing := (Lookup_name fs key f hl) ▸ hm
            rcases hsep e2 (List.mem_cons_of_mem _ he2) (key, value) (List.mem_cons_self _ _)
              hne g2 f hg2 hl hv2 with h1 | h1
            · exact h1 hm2
            · exact h1 hkm
          obtain ⟨fin, hfin⟩ : ∃ fin, fin = (mergeLoop ops missing rest
              { fs with store := (applyMissing ops f value fs.store missing).1 }).1.store :=
            ⟨_, rfl⟩
          rw [← hfin] at hframe ⊢
          rw [applyMissing_mem ops f value fin missing hm]
          by_cases hs : ops.String (fs.store f.Value) ≠ value
          · have hval : fin f.Value = (ops.Set (fs.store f.Value) value).1 := by
              rw [hframe, applyMissing_set ops f value fs.store missing hm hs]
              exact assign_same _ _ _
            have hx2 : (ops.Set (fs.store f.Value) value).2 = none := by
              rw [applyMissing_set ops f value fs.store missing hm hs] at hx
              exact hx
            have hr := hrep _ _ hx2
            rw [← hval] at hr
            by_cases hs2 : ops.String (fin f.Value) ≠ value
            · rw [if_pos hs2, hr]
              simp only
              rw [assign_self]
            · rw [if_neg hs2]
          · have hval : fin f.Value = fs.store f.Value := by
              rw [hframe, applyMissing_same ops f value fs.store missing (not_not.mp hs)]
            rw [hval, if_neg hs]
        · exact applyMissing_not_mem ops f value _ missing hm
    · exact ih _ hnd' hsep' hok e h

theorem Parse_eq {V : Type} (ops : ValueOps V) (readFile : Str → Except Str Str)
    (rangeOrder : FileMap → List (Str × Str)) (fs : FlagSet V) (configFile : Str) :
    Parse ops readFile rangeOrder fs configFile
      = if configFlagValue ops fs ≠ [] ∨ configFile ≠ [] then
          match getValuesFromFile readFile
              (if configFlagValue ops fs ≠ [] then configFlagValue ops fs else configFile) with
          | .error err => (fs, some err)
          | .ok valuesFromFile => merge ops fs (rangeOrder valuesFromFile)
        else (fs, some Error.noConfigPath) := rfl

theorem insertFlag_perm (f : Flag) (l : List Flag) :
    (insertFlag f l).Perm (f :: l) := by
  induction l with
  | nil => exact List.Perm.refl _
  | cons g gs ih =>
    unfold insertFlag
    split_ifs
    · exact List.Perm.refl _
    · exact (List.Perm.cons g ih).trans (List.Perm.swap f g gs)

theorem sortFlags_perm (l : List Flag) : (sortFlags l).Perm l := by
  induction l with
  | nil => exact List.Perm.refl _
  | cons f fs ih => exact (insertFlag_perm f (sortFlags fs)).trans (List.Perm.cons f ih)

theorem mem_Visit_names {V : Type} (fs : FlagSet V) (name : Str) :
    name ∈ (Visit fs).map Flag.Name ↔ name ∈ fs.formal.map Flag.Name ∧ name ∈ fs.actual := by
  simp only [Visit, List.mem_map, mem_sortFlags, List.mem_filter, decide_eq_true_eq]
  constructor
  · rintro ⟨f, ⟨hf, ha⟩, rfl⟩; exact ⟨⟨f, hf, rfl⟩, ha⟩
  · rintro ⟨⟨f, hf, rfl⟩, ha⟩; exact ⟨f, ⟨hf, ha⟩, rfl⟩

/-- The condition of the specification on shared variables, for the missing list. -/
theorem unshared_missing {V : Type} (fs : FlagSet V) (entries : List (Str × Str))
    (h : unshared fs entries) :
    ∀ e1 ∈ entries, ∀ e2 ∈ entries, e1.1 ≠ e2.1 → ∀ g1 g2, Lookup fs e1.1 = some g1 →
      Lookup fs e2.1 = some g2 → g1.Value = g2.Value →
      e1.1 ∉ getMissingFlags fs ∨ e2.1 ∉ getMissingFlags fs := by
  intro e1 h1 e2 h2 hne g1 g2 hg1 hg2 hv
  have hs : sameVariable fs e1.1 e2.1 :=
    (sameVariable_iff fs e1.1 e2.1).mpr ⟨g1, g2, hg1, hg2, hv⟩
  rcases h e1 h1 e2 h2 hne hs with ha | ha
  · exact Or.inl (fun hm => ((mem_getMissingFlags fs e1.1).mp hm).2 ha)
  · exact Or.inr (fun hm => ((mem_getMissingFlags fs e2.1).mp hm).2 ha)

theorem flagValue_store {V : Type} (fs : FlagSet V) (s : Nat → V) (name : Str) :
    flagValue { fs with store := s } name = (Lookup fs name).map (fun f => s f.Value) := rfl

/-- The value of a flag after the loop is read from the variable the flag was
bound to before it. -/
theorem flagValue_mergeLoop {V : Type} (ops : ValueOps V) (missing : List Str)
    (entries : List (Str × Str)) (fs : FlagSet V) (name : Str) :
    flagValue (mergeLoop ops missing entries fs).1 name
      = (Lookup fs name).map (fun f => (mergeLoop ops missing entries fs).1.store f.Value) := by
  unfold flagValue
  rw [mergeLoop_Lookup]

/-- In a registry whose flags are bound to pairwise different variables, a
flag shares its variable with itself only. -/
theorem sameVariable_nodup {V : Type} (fs : FlagSet V) (k name : Str)
    (hnd : (fs.formal.map Flag.Value).Nodup) (h : sameVariable fs k name) : k = name := by
  obtain ⟨g, f, hg, hf, hv⟩ := (sameVariable_iff fs k name).mp h
  have hgf : g = f :=
    List.inj_on_of_nodup_map hnd (Lookup_mem fs k g hg) (Lookup_mem fs name f hf) hv
  rw [← Lookup_name fs k g hg, ← Lookup_name fs name f hf, hgf]

theorem goOps_repeatable (x : GoValue) (s : Str) (h : (goOps.Set x s).2 = none) :
    goOps.Set (goOps.Set x s).1 s = ((goOps.Set x s).1, none) := by
  cases x with
  | stringValue t => rfl
  | boolValue b =>
    simp only [goOps] at h ⊢
    cases hp : ParseBool s with
    | none => rw [hp] at h; cases h
    | some c => simp [hp]

theorem parseLines_cons_bad_eq (i : Nat) (raw : Str) (rest : List Str) (m : FileMap)
    (h : skipLine (TrimSpace raw) = false) (hb : malformedLine (TrimSpace raw) = true) :
    parseLines i (raw :: rest) m = .error (lineError (TrimSpace raw) i) := by
  rw [parseLines]
  simp only [h]
  unfold lineError
  rw [malformedLine_iff] at hb
  rcases hb with hb | ⟨h2, hb⟩
  · by_cases hgt : (Split (TrimSpace raw) 0x3D).length > 2
    · simp [hgt]
    · have : (Split (TrimSpace raw) 0x3D).length < 2 := by omega
      simp [hgt, this]
  · simp only [h2]
    cases hc : cleanString ((Split (TrimSpace raw) 0x3D).getD 1 []) with
    | mk a b =>
      rw [hc] at hb
      cases b with
      | none => simp at hb
      | some e =>
        cases e
        simp

/-- The error of the parser is the error of the first malformed data line, with
the index of that line among the lines of the text, counted from `i`. -/
theorem parseLines_first_error (pre post : List Str) (raw : Str) (i : Nat) (m : FileMap)
    (hpre : ∀ l ∈ dataOf pre, malformedLine l = false)
    (hs : skipLine (TrimSpace raw) = false) (hb : malformedLine (TrimSpace raw) = true) :
    parseLines i (pre ++ raw :: post) m = .error (lineError (TrimSpace raw) (i + pre.length)) := by
  induction pre generalizing i m with
  | nil => exact parseLines_cons_bad_eq i raw post m hs hb
  | cons p ps ih =>
    rw [List.cons_append, List.length_cons]
    by_cases hp : skipLine (TrimSpace p) = true
    · rw [parseLines_cons_skip i p _ m hp]
      rw [dataOf_cons_skip p ps hp] at hpre
      rw [ih (i + 1) m hpre]
      congr 2
      omega
    · have hp' : skipLine (TrimSpace p) = false := by simpa using hp
      rw [dataOf_cons_data p ps hp'] at hpre
      rw [parseLines_cons_good i p _ m hp' (hpre _ (List.mem_cons_self _ _))]
      rw [ih (i + 1) _ (fun l hl => hpre l (List.mem_cons_of_mem _ hl))]
      congr 2
      omega

theorem lastValue_mem (k v : Str) (es : List (Str × Str)) (h : lastValue k es = some v) :
    (k, v) ∈ es := by
  induction es with
  | nil => simp [lastValue] at h
  | cons e rest ih =>
    rw [lastValue_cons] at h
    cases hl : lastValue k rest with
    | some w =>
      rw [hl] at h
      simp only at h
      rw [h] at hl
      exact List.mem_cons_of_mem _ (ih hl)
    | none =>
      rw [hl] at h
      simp only at h
      by_cases hk : e.1 = k
      · rw [if_pos hk] at h
        have hv : e.2 = v := Option.some.inj h
        have : e = (k, v) := by
          rw [← hk, ← hv]
        rw [this]
        exact List.mem_cons_self _ _
      · rw [if_neg hk] at h
        cases h

theorem mem_dataOf (ls : List Str) (line : Str) (h : line ∈ dataOf ls) :
    ∃ raw, line = TrimSpace raw := by
  unfold dataOf at h
  obtain ⟨hm, _⟩ := List.mem_filter.mp h
  obtain ⟨raw, _, hr⟩ := List.mem_map.mp hm
  exact ⟨raw, hr.symm⟩

theorem valuePart_suffix (line : Str) : ∃ p, line = p ++ valuePart line := by
  unfold valuePart
  cases hd : line.dropWhile (fun b => decide (b ≠ 0x3D)) with
  | nil => exact ⟨line, by simp⟩
  | cons c r =>
    refine ⟨line.takeWhile (fun b => decide (b ≠ 0x3D)) ++ [c], ?_⟩
    have := List.takeWhile_append_dropWhile (fun b => decide (b ≠ 0x3D)) line
    rw [hd] at this
    simp only [List.drop_succ_cons, List.drop_zero, List.append_assoc, List.singleton_append]
    exact this.symm

theorem wellformed_clean (line : Str) (h : malformedLine line = false) :
    (cleanString (valuePart line)).2 = none := by
  have hb : ¬ (malformedLine line = true) := by simp [h]
  rw [malformedLine_iff] at hb
  have h2 : (Split line 0x3D).length = 2 := by
    by_contra hne
    exact hb (Or.inl hne)
  have hv : (Split line 0x3D).getD 1 [] = valuePart line := by
    rw [split_two _ _ h2]; rfl
  by_contra hne
  exact hb (Or.inr ⟨h2, by rw [hv]; exact hne⟩)

/-- The value that a well-formed data line contributes has no leading and no
trailing white space, and it is empty when the value part is blank. -/
theorem cleaned_value_trimmed (raw : Str)
    (hwf : (cleanString (valuePart (TrimSpace raw))).2 = none) :
    trimmed (cleanString (valuePart (TrimSpace raw))).1
      ∧ (TrimSpace (valuePart (TrimSpace raw)) = [] →
          (cleanString (valuePart (TrimSpace raw))).1 = []) := by
  have hblank : TrimSpace (valuePart (TrimSpace raw)) = [] → valuePart (TrimSpace raw) = [] := by
    intro hb
    obtain ⟨p, hp⟩ := valuePart_suffix (TrimSpace raw)
    apply blank_suffix_nil p _ _ hb
    rw [← hp]
    rcases trimmed_TrimSpace raw with ht | ht
    · exact Or.inl ht
    · exact Or.inr ht.2
  unfold cleanString at hwf ⊢
  simp only at hwf ⊢
  by_cases h0 : (TrimSpace (valuePart (TrimSpace raw))).length = 0
  · have hnil := hblank (List.length_eq_zero.mp h0)
    rw [if_pos h0]
    simp only
    rw [hnil]
    exact ⟨Or.inl rfl, fun _ => rfl⟩
  · rw [if_neg h0] at hwf ⊢
    have hne : TrimSpace (valuePart (TrimSpace raw)) ≠ [] :=
      fun e => h0 (by rw [e]; rfl)
    by_cases h1 : (TrimSpace (valuePart (TrimSpace raw))).headD 0 ≠ 0x22
    · rw [if_pos h1]
      exact ⟨trimmed_TrimSpace _, fun e => absurd e hne⟩
    · rw [if_neg h1] at hwf ⊢
      cases hu : Unquote (TrimSpace (valuePart (TrimSpace raw))) with
      | error e =>
        rw [hu] at hwf
        cases hwf
      | ok r => exact ⟨trimmed_TrimSpace _, fun e => absurd e hne⟩

theorem keyPart_no_eq (line : Str) : 0x3D ∉ TrimSpace (keyPart line) := by
  intro h
  have := List.mem_takeWhile_imp (mem_of_mem_TrimSpace _ _ h)
  simp at this

/-! ### The cleaning step `cleanString` -/

/-- Claim C4. For every value part `v` whose trimmed form `t = TrimSpace v` is
non-empty and does not start with a double quote, `cleanString` returns no
error and leaves the trimmed longest initial part of `t` that contains neither
`#` nor `;`: `uncommented t` is an initial part of `t`, contains neither
marker, and no initial part of `t` without the markers is longer. -/
theorem cleanString_unquoted (v : Str) (hne : TrimSpace v ≠ [])
    (hq : (TrimSpace v).headD 0 ≠ 0x22) :
    cleanString v = (TrimSpace (uncommented (TrimSpace v)), none)
      ∧ uncommented (TrimSpace v) <+: TrimSpace v
      ∧ 0x23 ∉ uncommented (TrimSpace v) ∧ 0x3B ∉ uncommented (TrimSpace v)
      ∧ ∀ q : Str, q <+: TrimSpace v → 0x23 ∉ q → 0x3B ∉ q →
          q.length ≤ (uncommented (TrimSpace v)).length := by
  refine ⟨?_, (uncommented_spec _).1, (uncommented_spec _).2.1, (uncommented_spec _).2.2,
    fun q => uncommented_longest _ q⟩
  unfold cleanString
  simp only
  rw [if_neg (by simpa using hne), if_pos hq, split_comment]
  rfl

/-- Claim C4 at the value part of the line `name = alice # the user`: the
cleaned value is exactly `alice`. -/
theorem cleanString_unquoted_witness :
    cleanString (utf8 " alice # the user".toList) = (utf8 "alice".toList, none) :=
  (cleanString_unquoted (utf8 " alice # the user".toList) (by decide) (by decide)).1.trans
    (by decide)

/-- Claim C5, as amended. For every content string `c` that is valid UTF-8 and
has no backslash, no double quote, no newline (the one control character that
`strconv.Unquote` rejects between the quotes, so that every content without
control character is covered) and no leading or trailing white space, cleaning
the value made of `c` between double quotes returns no error and leaves
exactly `c`, whether or not `c` contains `#` or `;`. -/
theorem cleanString_quoted_valid (c : Str) (hv : ValidString c = true)
    (hbs : 0x5C ∉ c) (hq : 0x22 ∉ c) (hnl : 0x0A ∉ c) (htrim : TrimSpace c = c) :
    cleanString (0x22 :: c ++ [0x22]) = (c, none) := by
  unfold cleanString
  simp only [trimSpace_quoted]
  rw [if_neg (by simp), if_neg (by simp)]
  rw [unquote_plain _ hq hbs hnl hv]
  simp [htrim]

/-- Claim C5, as amended, at the content `hello # world`: the quoted value
cleans to `hello # world`, the `#` kept. -/
theorem cleanString_quoted_valid_witness :
    cleanString (0x22 :: utf8 "hello # world".toList ++ [0x22])
      = (utf8 "hello # world".toList, none) :=
  cleanString_quoted_valid (utf8 "hello # world".toList) (by decide) (by decide) (by decide)
    (by decide) (by decide)

/-- Claim C5 fails as stated: the content made of the bytes of `caf` followed
by the byte `0xE9` (the text `café` in Latin-1) has no backslash, no double
quote, no control character (no byte below `0x20`, no `0x7F` and no `0xC2`
that could start the encoding of one) and no leading or trailing white space,
but it is no valid UTF-8; `cleanString` returns no error and leaves `caf`
followed by the encoding `EF BF BD` of U+FFFD, not the content. -/
theorem cleanString_quoted_invalid_utf8 :
    0x5C ∉ ([0x63, 0x61, 0x66, 0xE9] : Str) ∧ 0x22 ∉ ([0x63, 0x61, 0x66, 0xE9] : Str)
      ∧ (∀ b ∈ ([0x63, 0x61, 0x66, 0xE9] : Str), 0x20 ≤ b ∧ b ≠ 0x7F ∧ b ≠ 0xC2)
      ∧ TrimSpace [0x63, 0x61, 0x66, 0xE9] = [0x63, 0x61, 0x66, 0xE9]
      ∧ ValidString [0x63, 0x61, 0x66, 0xE9] = false
      ∧ cleanString (0x22 :: [0x63, 0x61, 0x66, 0xE9] ++ [0x22])
          = ([0x63, 0x61, 0x66, 0xEF, 0xBF, 0xBD], none)
      ∧ ([0x63, 0x61, 0x66, 0xEF, 0xBF, 0xBD] : Str) ≠ [0x63, 0x61, 0x66, 0xE9] :=
  ⟨by decide, by decide, by decide, by decide, by decide, by decide, by decide⟩

/-- The statement of claim C5 for a Unicode text `cs`, taken in its UTF-8
encoding: such a content is valid UTF-8, and when it has no backslash, no
double quote, no control character and no leading or trailing white space the
quoted value cleans to it. -/
theorem cleanString_quoted_plain (cs : List Char)
    (hbs : Char.ofNat 0x5C ∉ cs) (hq : Char.ofNat 0x22 ∉ cs)
    (hctl : ∀ ch ∈ cs, isControl ch = false)
    (htrim : TrimSpace (utf8 cs) = utf8 cs) :
    cleanString (0x22 :: utf8 cs ++ [0x22]) = (utf8 cs, none) := by
  have h22 : 0x22 ∉ utf8 cs := fun h => hq (utf8_ascii_mem cs _ h (by decide))
  have h5c : 0x5C ∉ utf8 cs := fun h => hbs (utf8_ascii_mem cs _ h (by decide))
  have h0a : 0x0A ∉ utf8 cs := fun h => by
    have := hctl _ (utf8_ascii_mem cs _ h (by decide))
    revert this
    decide
  unfold cleanString
  simp only [trimSpace_quoted]
  rw [if_neg (by simp), if_neg (by simp)]
  rw [unquote_plain _ h22 h5c h0a (validString_utf8 cs)]
  simp [htrim]

/-- Claim C6, as amended. For every value part whose trimmed form starts with a
double quote and is a well-formed quoted literal with unescaped content `c`,
`cleanString` returns no error and leaves `TrimSpace c`: the content with its
leading and trailing white space removed. -/
theorem cleanString_quoted_trimmed (v c : Str) (hq : (TrimSpace v).headD 0 = 0x22)
    (hu : Unquote (TrimSpace v) = .ok c) : cleanString v = (TrimSpace c, none) := by
  have hne : TrimSpace v ≠ [] := by
    intro h
    rw [h] at hu
    simp [Unquote, unquote] at hu
  unfold cleanString
  simp only
  rw [if_neg (by simpa using hne), if_neg (by simpa using hq), hu]

/-- Claim C6, as amended, at the value made of a space, `a` and a space between
double quotes. -/
theorem cleanString_quoted_trimmed_witness :
    cleanString [0x22, 0x20, 0x61, 0x20, 0x22] = (TrimSpace [0x20, 0x61, 0x20], none) :=
  cleanString_quoted_trimmed [0x22, 0x20, 0x61, 0x20, 0x22] [0x20, 0x61, 0x20] (by decide) rfl

/-- Claim C6 fails as stated: the value made of a space, `a` and a space between
double quotes is a well-formed literal with content space, `a`, space, and
`cleanString` leaves `a` alone. -/
theorem cleanString_quoted_not_verbatim :
    (TrimSpace [0x22, 0x20, 0x61, 0x20, 0x22]).headD 0 = 0x22
      ∧ Unquote (TrimSpace [0x22, 0x20, 0x61, 0x20, 0x22]) = .ok [0x20, 0x61, 0x20]
      ∧ cleanString [0x22, 0x20, 0x61, 0x20, 0x22] = ([0x61], none)
      ∧ ([0x61] : Str) ≠ [0x20, 0x61, 0x20] :=
  ⟨by decide, rfl, by decide, by decide⟩

/-- Claim C10. The value part that the parser hands to `cleanString` is the
second field of a line that was trimmed before it was split at its only `=`.
For every line of the file: when the trimmed form of that value part is empty,
the value part is the empty string itself (a trimmed line does not end in
white space), and `cleanString` returns no error and leaves the empty string. -/
theorem cleanString_blank_value (raw : Str)
    (h2 : (Split (TrimSpace raw) 0x3D).length = 2)
    (hb : TrimSpace ((Split (TrimSpace raw) 0x3D).getD 1 []) = []) :
    (Split (TrimSpace raw) 0x3D).getD 1 [] = []
      ∧ cleanString ((Split (TrimSpace raw) 0x3D).getD 1 []) = ([], none) := by
  have hv : (Split (TrimSpace raw) 0x3D).getD 1 [] = valuePart (TrimSpace raw) := by
    rw [split_two _ _ h2]
    rfl
  rw [hv] at hb ⊢
  have hnil : valuePart (TrimSpace raw) = [] := by
    obtain ⟨p, hp⟩ := valuePart_suffix (TrimSpace raw)
    apply blank_suffix_nil p _ _ hb
    rw [← hp]
    rcases trimmed_TrimSpace raw with ht | ht
    · exact Or.inl ht
    · exact Or.inr ht.2
  rw [hnil]
  exact ⟨rfl, by decide⟩

/-- Claim C10 on the line `blank =` followed by three spaces: the value part
handed to `cleanString` is empty and is cleaned to the empty string. -/
theorem cleanString_blank_value_witness :
    (Split (TrimSpace (utf8 "blank =   ".toList)) 0x3D).getD 1 [] = []
      ∧ cleanString ((Split (TrimSpace (utf8 "blank =   ".toList)) 0x3D).getD 1 []) = ([], none) :=
  cleanString_blank_value (utf8 "blank =   ".toList) (by decide) (by decide)

/-- The function `cleanString` taken alone returns before the assignment when
the trimmed form is empty, so that a string made of one space, which the parser
never hands to it, would be left as it is. -/
theorem cleanString_blank_unchanged :
    TrimSpace [0x20] = [] ∧ cleanString [0x20] = ([0x20], none) :=
  ⟨by decide, by decide⟩

/-! ### The line parser `getValuesFromFile` -/

/-- Claim C7. For every file text, `getValuesFromFile` returns an error if and
only if some data line (a trimmed line that is not skipped) is malformed: it
does not hold exactly one `=` counted over the whole trimmed line, or its
trimmed value part starts with a double quote and `strconv.Unquote` rejects
it; and it returns a mapping if and only if no data line is malformed. -/
theorem getValuesFromFile_fails_iff_malformed (text configFile : Str) :
    ((∃ err, getValuesFromFile (fun _ => Except.ok text) configFile = .error err)
        ↔ ∃ line ∈ dataLines text, malformedLine line = true)
      ∧ ((∃ m, getValuesFromFile (fun _ => Except.ok text) configFile = .ok m)
        ↔ ¬ ∃ line ∈ dataLines text, malformedLine line = true) := by
  refine ⟨getValuesFromFile_error_iff text configFile, ?_⟩
  rw [except_ok_or_error, getValuesFromFile_error_iff]

/-- Claim C7 on the two lines of the specification: `novalue` and `a=b=c` are
rejected, the first with no `=` and the second with more than one, both
reported for line index 0. -/
theorem getValuesFromFile_rejects_samples :
    getValuesFromFile (fun _ => Except.ok (utf8 "novalue".toList)) []
        = .error (.noEq (utf8 "novalue".toList) 0)
      ∧ getValuesFromFile (fun _ => Except.ok (utf8 "a=b=c".toList)) []
        = .error (.moreThanOneEq (utf8 "a=b=c".toList) 0) :=
  ⟨rfl, rfl⟩

/-- Claim C8. For every file text that parses to a mapping `m` and every key
`k`: `k` is a key of `m` if and only if some data line has trimmed left part
`k`, and the value of `k` in `m` is the cleaned value part of the last data
line, in file order, whose trimmed left part is `k`. -/
theorem getValuesFromFile_last_wins (text configFile : Str) (m : FileMap)
    (h : getValuesFromFile (fun _ => Except.ok text) configFile = .ok m) (k : Str) :
    ((∃ v, mapGet m k = some v) ↔ ∃ line ∈ dataLines text, TrimSpace (keyPart line) = k)
      ∧ ∀ (pre post : List Str) (line : Str), dataLines text = pre ++ line :: post →
          TrimSpace (keyPart line) = k → (∀ l ∈ post, TrimSpace (keyPart l) ≠ k) →
          mapGet m k = some (cleanString (valuePart line)).1 := by
  have hl : mapGet m k = lastValue k ((dataLines text).map lineEntry) := by
    unfold getValuesFromFile at h
    simp only at h
    have := parseLines_lookup _ _ _ _ h k
    rw [this, dataLines]
    cases hv : lastValue k ((dataOf (Split text 0x0A)).map lineEntry) with
    | some v => rfl
    | none => rfl
  constructor
  · rw [hl, ← Option.ne_none_iff_exists', lastValue_ne_none]
    constructor
    · rintro ⟨e, he, hk⟩
      obtain ⟨line, hline, rfl⟩ := List.mem_map.mp he
      exact ⟨line, hline, hk⟩
    · rintro ⟨line, hline, hk⟩
      exact ⟨lineEntry line, List.mem_map.mpr ⟨line, hline, rfl⟩, hk⟩
  · intro pre post line hd hk hpost
    rw [hl, hd, List.map_append, List.map_cons]
    have : lineEntry line = (k, (cleanString (valuePart line)).1) := by
      rw [← hk]; rfl
    rw [this]
    apply lastValue_last
    intro e he
    obtain ⟨l, hl2, rfl⟩ := List.mem_map.mp he
    exact hpost l hl2

/-- Claim C8 on the text of the two lines `name = alice` and `name = bob`:
the mapping holds `bob` for `name`. -/
theorem getValuesFromFile_last_wins_witness :
    mapGet [(utf8 "name".toList, utf8 "bob".toList)] (utf8 "name".toList)
      = some (cleanString (valuePart (utf8 "name = bob".toList))).1 :=
  (getValuesFromFile_last_wins
    (joinLines [utf8 "name = alice".toList, utf8 "name = bob".toList]) []
    [(utf8 "name".toList, utf8 "bob".toList)] rfl (utf8 "name".toList)).2
    [utf8 "name = alice".toList] [] (utf8 "name = bob".toList) (by decide) (by decide)
    (by decide)

/-- Claim C9. For every list of lines `pre`, `post` and every line `l` without
newline whose trimmed form is skipped (empty, or starting with `;`, `#` or
`[`), the text with `l` between `pre` and `post` and the text without it parse
alike: one yields a mapping exactly when the other yields that same mapping,
and one fails exactly when the other fails. -/
theorem skipped_line_inert (pre post : List Str) (l configFile : Str) (hnl : 0x0A ∉ l)
    (hskip : skipLine (TrimSpace l) = true) :
    (∀ m, getValuesFromFile (fun _ => Except.ok (joinLines (pre ++ l :: post))) configFile = .ok m
        ↔ getValuesFromFile (fun _ => Except.ok (joinLines (pre ++ post))) configFile = .ok m)
      ∧ ((∃ e, getValuesFromFile (fun _ => Except.ok (joinLines (pre ++ l :: post))) configFile
            = .error e)
        ↔ ∃ e, getValuesFromFile (fun _ => Except.ok (joinLines (pre ++ post))) configFile
            = .error e) := by
  constructor
  · intro m
    rw [getValuesFromFile_ok_iff, getValuesFromFile_ok_iff, dataLines_insert pre post l hnl hskip]
  · rw [getValuesFromFile_error_iff, getValuesFromFile_error_iff,
      dataLines_insert pre post l hnl hskip]

/-- Claim C9 with the comment line `# x = y = z` taken out from between the
lines `a = 1` and `b = 2`. -/
theorem skipped_line_inert_witness :
    getValuesFromFile
        (fun _ => Except.ok (joinLines ([utf8 "a = 1".toList] ++ [utf8 "b = 2".toList]))) []
      = .ok [(utf8 "a".toList, utf8 "1".toList), (utf8 "b".toList, utf8 "2".toList)] :=
  ((skipped_line_inert [utf8 "a = 1".toList] [utf8 "b = 2".toList] (utf8 "# x = y = z".toList) []
    (by decide) (by decide)).1 _).mp rfl

/-! ### The merge step of `Parse` -/

/-- Claim C1, as amended. For every registry, every list of file entries and
every flag set on the command line, provided no other key of the entries names
a flag that is bound to the same variable and is not itself set on the command
line: the current value of the flag is the same after the merge as before it,
whatever the entries say and whether the merge returns an error or not. -/
theorem merge_keeps_set_flags {V : Type} (ops : ValueOps V) (fs : FlagSet V)
    (entries : List (Str × Str)) (name : Str) (h : name ∈ fs.actual)
    (hsep : ∀ e ∈ entries, e.1 ≠ name → sameVariable fs e.1 name → e.1 ∈ fs.actual) :
    flagValue (merge ops fs entries).1 name = flagValue fs name
      ∧ Lookup (merge ops fs entries).1 name = Lookup fs name := by
  unfold merge
  have hL := mergeLoop_Lookup ops (getMissingFlags fs) entries fs name
  refine ⟨?_, hL⟩
  cases hl : Lookup fs name with
  | none =>
    rw [flagValue_none fs name hl, flagValue_none _ name (hL.trans hl)]
  | some f =>
    rw [flagValue_of_Lookup fs name f hl, flagValue_of_Lookup _ name f (hL.trans hl)]
    congr 1
    apply mergeLoop_frame
    intro e he g hg hv hm
    have hna : e.1 ∉ fs.actual := ((mem_getMissingFlags fs e.1).mp hm).2
    by_cases hk : e.1 = name
    · exact hna (hk ▸ h)
    · exact hna (hsep e he hk ((sameVariable_iff fs e.1 name).mpr ⟨g, f, hg, hl, hv⟩))

/-- Claim C1, as amended, with the flag `x` set to `5` on the command line, the
unset flag `y` bound to another variable and the file entries `x = 99`,
`y = 2`: the value of `x` stays `5`. -/
theorem merge_keeps_set_flags_witness :
    flagValue (merge goOps
        { formal := [{ Name := utf8 "x".toList, Value := 0 }, { Name := utf8 "y".toList, Value := 1 }],
          actual := [utf8 "x".toList],
          store := fun p => if p = 0 then .stringValue (utf8 "5".toList)
            else .stringValue (utf8 "6".toList) }
        [(utf8 "x".toList, utf8 "99".toList), (utf8 "y".toList, utf8 "2".toList)]).1
        (utf8 "x".toList)
      = some (.stringValue (utf8 "5".toList)) :=
  (merge_keeps_set_flags goOps
    { formal := [{ Name := utf8 "x".toList, Value := 0 }, { Name := utf8 "y".toList, Value := 1 }],
      actual := [utf8 "x".toList],
      store := fun p => if p = 0 then .stringValue (utf8 "5".toList)
        else .stringValue (utf8 "6".toList) }
    [(utf8 "x".toList, utf8 "99".toList), (utf8 "y".toList, utf8 "2".toList)]
    (utf8 "x".toList) (by decide) (by decide)).1.trans rfl

/-- Claim C1 fails as stated: the flags `n` and `name` are bound to one string
variable, `n` was set on the command line to `cli`, and the file holds
`name = file`. The merge succeeds and the flag `n`, although set on the command
line, has the value `file` afterwards. -/
theorem merge_overwrites_set_alias :
    utf8 "n".toList ∈ (shortLong [utf8 "n".toList] (GoValue.stringValue (utf8 "cli".toList))).actual
      ∧ flagValue (shortLong [utf8 "n".toList] (GoValue.stringValue (utf8 "cli".toList)))
          (utf8 "n".toList) = some (.stringValue (utf8 "cli".toList))
      ∧ (merge goOps (shortLong [utf8 "n".toList] (GoValue.stringValue (utf8 "cli".toList)))
          [(utf8 "name".toList, utf8 "file".toList)]).2 = none
      ∧ flagValue (merge goOps (shortLong [utf8 "n".toList] (GoValue.stringValue (utf8 "cli".toList)))
          [(utf8 "name".toList, utf8 "file".toList)]).1 (utf8 "n".toList)
        = some (.stringValue (utf8 "file".toList)) :=
  ⟨by decide, rfl, rfl, rfl⟩

/-- Claim C2, as amended. For every registered flag `name` that is not among
the flags set on the command line and every file mapping (entries with
pairwise different keys) that maps `name` to a value `v` different from the
string of the flag's current value `x`, provided no other key of the mapping
names a flag that is bound to the same variable and is not set on the command
line: if the merge returns no error, the flag's value afterwards is the value
left by `Set(v)` on `x`. -/
theorem merge_fills_unset_flag {V : Type} (ops : ValueOps V) (fs : FlagSet V)
    (entries : List (Str × Str)) (name v : Str) (x : V)
    (hl : flagValue fs name = some x) (hns : name ∉ fs.actual) (he : (name, v) ∈ entries)
    (hnd : (entries.map Prod.fst).Nodup) (hne : ops.String x ≠ v)
    (hsep : ∀ e ∈ entries, e.1 ≠ name → sameVariable fs e.1 name → e.1 ∈ fs.actual)
    (hok : (merge ops fs entries).2 = none) :
    flagValue (merge ops fs entries).1 name = some (ops.Set x v).1 := by
  unfold merge at hok ⊢
  cases hf : Lookup fs name with
  | none =>
    rw [flagValue_none fs name hf] at hl
    cases hl
  | some f =>
    rw [flagValue_of_Lookup fs name f hf] at hl
    have hx : fs.store f.Value = x := Option.some.inj hl
    have hreg : name ∈ fs.formal.map Flag.Name := by
      by_contra hc
      rw [← Lookup_none_iff, hf] at hc
      cases hc
    rw [flagValue_of_Lookup _ name f
      ((mergeLoop_Lookup ops (getMissingFlags fs) entries fs name).trans hf)]
    rw [mergeLoop_sets ops _ name v entries fs f ((mem_getMissingFlags fs name).mpr ⟨hreg, hns⟩)
      hf he hnd (hx ▸ hne) ?_ hok, hx]
    intro e he2 hk g hg hv hm
    exact ((mem_getMissingFlags fs e.1).mp hm).2
      (hsep e he2 hk ((sameVariable_iff fs e.1 name).mpr ⟨g, f, hg, hf, hv⟩))

/-- Claim C2, as amended, with the string flag `timeout` of value `10`, not set
on the command line, and the file entry `timeout = 30`: the value becomes `30`. -/
theorem merge_fills_unset_flag_witness :
    flagValue (merge goOps
        { formal := [{ Name := utf8 "timeout".toList, Value := 0 }],
          actual := [],
          store := fun _ => .stringValue (utf8 "10".toList) }
        [(utf8 "timeout".toList, utf8 "30".toList)]).1 (utf8 "timeout".toList)
      = some (.stringValue (utf8 "30".toList)) :=
  merge_fills_unset_flag goOps
    { formal := [{ Name := utf8 "timeout".toList, Value := 0 }],
      actual := [],
      store := fun _ => .stringValue (utf8 "10".toList) }
    [(utf8 "timeout".toList, utf8 "30".toList)] (utf8 "timeout".toList) (utf8 "30".toList)
    (.stringValue (utf8 "10".toList)) rfl (by decide) (by decide) (by decide) (by decide)
    (by decide) rfl

/-- Claim C2 fails as stated: the flags `n` and `name` are bound to one string
variable holding `d`, none is set on the command line, and the file mapping
holds `n = a` and `name = b`, ranged in this order. The flag `n` is registered,
not set, a key of the mapping with the value `a` that differs from `d`, and the
merge succeeds; yet the value of `n` afterwards is `b`, not the value `a` left
by `Set(a)`. -/
theorem merge_alias_overwrites_fill :
    flagValue (shortLong [] (GoValue.stringValue (utf8 "d".toList))) (utf8 "n".toList)
        = some (.stringValue (utf8 "d".toList))
      ∧ utf8 "n".toList ∉ (shortLong [] (GoValue.stringValue (utf8 "d".toList))).actual
      ∧ goOps.String (.stringValue (utf8 "d".toList)) ≠ utf8 "a".toList
      ∧ (merge goOps (shortLong [] (GoValue.stringValue (utf8 "d".toList)))
          [(utf8 "n".toList, utf8 "a".toList), (utf8 "name".toList, utf8 "b".toList)]).2 = none
      ∧ flagValue (merge goOps (shortLong [] (GoValue.stringValue (utf8 "d".toList)))
          [(utf8 "n".toList, utf8 "a".toList), (utf8 "name".toList, utf8 "b".toList)]).1
          (utf8 "n".toList) = some (.stringValue (utf8 "b".toList))
      ∧ (goOps.Set (.stringValue (utf8 "d".toList)) (utf8 "a".toList)).1
          = .stringValue (utf8 "a".toList)
      ∧ GoValue.stringValue (utf8 "b".toList) ≠ .stringValue (utf8 "a".toList) :=
  ⟨rfl, by decide, by decide, rfl, rfl, rfl, by decide⟩

/-- For a `stringValue` flag the value left by the merge of claim C2 is the
file value itself. -/
theorem merge_fills_string_flag (fs : FlagSet GoValue) (entries : List (Str × Str))
    (name v s : Str) (hl : flagValue fs name = some (.stringValue s))
    (hns : name ∉ fs.actual) (he : (name, v) ∈ entries)
    (hnd : (entries.map Prod.fst).Nodup) (hne : s ≠ v)
    (hsep : ∀ e ∈ entries, e.1 ≠ name → sameVariable fs e.1 name → e.1 ∈ fs.actual)
    (hok : (merge goOps fs entries).2 = none) :
    flagValue (merge goOps fs entries).1 name = some (.stringValue v) := by
  unfold merge at hok ⊢
  cases hf : Lookup fs name with
  | none =>
    rw [flagValue_none fs name hf] at hl
    cases hl
  | some f =>
    rw [flagValue_of_Lookup fs name f hf] at hl
    have hx : fs.store f.Value = .stringValue s := Option.some.inj hl
    have hreg : name ∈ fs.formal.map Flag.Name := by
      by_contra hc
      rw [← Lookup_none_iff, hf] at hc
      cases hc
    rw [flagValue_of_Lookup _ name f
      ((mergeLoop_Lookup goOps (getMissingFlags fs) entries fs name).trans hf)]
    rw [mergeLoop_sets goOps _ name v entries fs f ((mem_getMissingFlags fs name).mpr ⟨hreg, hns⟩)
      hf he hnd (by rw [hx]; exact hne) ?_ hok, hx]
    · rfl
    · intro e he2 hk g hg hv hm
      exact ((mem_getMissingFlags fs e.1).mp hm).2
        (hsep e he2 hk ((sameVariable_iff fs e.1 name).mpr ⟨g, f, hg, hf, hv⟩))

/-- Claim C3. For every registry and every list of file entries that holds,
after the entries `pre`, an entry whose key `k` names no registered flag: the
merge returns an error; when the entries of `pre` raise no error it is the
unknown-flag error naming `k`, otherwise it is the outcome of `pre` itself; and
in both cases the registry is the one left by the entries of `pre`, so that no
entry of `post` changes any flag. -/
theorem merge_unknown_key_stops {V : Type} (ops : ValueOps V) (fs : FlagSet V)
    (pre post : List (Str × Str)) (k v : Str) (h : Lookup fs k = none) :
    (merge ops fs (pre ++ (k, v) :: post)).2 ≠ none
      ∧ ((merge ops fs pre).2 = none →
          merge ops fs (pre ++ (k, v) :: post) = ((merge ops fs pre).1, some (.unknownFlag k)))
      ∧ ((merge ops fs pre).2 ≠ none →
          merge ops fs (pre ++ (k, v) :: post) = merge ops fs pre)
      ∧ (merge ops fs (pre ++ (k, v) :: post)).1 = (merge ops fs pre).1 := by
  unfold merge
  have hk : Lookup (mergeLoop ops (getMissingFlags fs) pre fs).1 k = none :=
    (mergeLoop_Lookup ops (getMissingFlags fs) pre fs k).trans h
  rw [mergeLoop_append]
  cases hx : (mergeLoop ops (getMissingFlags fs) pre fs).2 with
  | none =>
    simp only
    rw [mergeLoop_cons_none ops _ k v post _ hk]
    simp
  | some err =>
    simp only
    rw [hx]
    simp

/-- Claim C3 with the unset flag `x` and the entries `x = 7`, `bogus = 1`,
`x = 9` in this order: the error names `bogus` and `x` holds `7`. -/
theorem merge_unknown_key_stops_witness :
    merge goOps
        { formal := [{ Name := utf8 "x".toList, Value := 0 }],
          actual := [],
          store := fun _ => .stringValue (utf8 "5".toList) }
        ([(utf8 "x".toList, utf8 "7".toList)]
          ++ (utf8 "bogus".toList, utf8 "1".toList) :: [(utf8 "x".toList, utf8 "9".toList)])
      = ({ formal := [{ Name := utf8 "x".toList, Value := 0 }],
           actual := [],
           store := assign (fun _ => .stringValue (utf8 "5".toList)) 0
             (.stringValue (utf8 "7".toList)) },
         some (.unknownFlag (utf8 "bogus".toList))) :=
  ((merge_unknown_key_stops goOps
    { formal := [{ Name := utf8 "x".toList, Value := 0 }],
      actual := [],
      store := fun _ => .stringValue (utf8 "5".toList) }
    [(utf8 "x".toList, utf8 "7".toList)] [(utf8 "x".toList, utf8 "9".toList)]
    (utf8 "bogus".toList) (utf8 "1".toList) rfl).2.1 rfl).trans rfl

/-! ### Path resolution and error propagation of `Parse` -/

/-- Claim C11. For every command-line value `c` of the flag `config` and every
caller default `d`, `Parse` works on the effective path: `c` when `c` is not
empty, otherwise `d` when `d` is not empty; it reads that file and no other,
and when both are empty it returns the no-configuration-path error with the
registry unchanged, whatever reading a file would give. -/
theorem Parse_path_resolution {V : Type} (ops : ValueOps V) (readFile : Str → Except Str Str)
    (rangeOrder : FileMap → List (Str × Str)) (fs : FlagSet V) (configFile : Str) :
    Parse ops readFile rangeOrder fs configFile
        = (match effectivePath (configFlagValue ops fs) configFile with
          | none => (fs, some Error.noConfigPath)
          | some path =>
            match getValuesFromFile readFile path with
            | .error err => (fs, some err)
            | .ok valuesFromFile => merge ops fs (rangeOrder valuesFromFile))
      ∧ (configFlagValue ops fs ≠ [] →
          effectivePath (configFlagValue ops fs) configFile = some (configFlagValue ops fs))
      ∧ (configFlagValue ops fs = [] → configFile ≠ [] →
          effectivePath (configFlagValue ops fs) configFile = some configFile)
      ∧ (configFlagValue ops fs = [] → configFile = [] →
          effectivePath (configFlagValue ops fs) configFile = none
            ∧ ∀ readFile2 : Str → Except Str Str,
                Parse ops readFile2 rangeOrder fs configFile = (fs, some Error.noConfigPath)) := by
  have hP : ∀ rf : Str → Except Str Str, Parse ops rf rangeOrder fs configFile
        = (match effectivePath (configFlagValue ops fs) configFile with
          | none => (fs, some Error.noConfigPath)
          | some path =>
            match getValuesFromFile rf path with
            | .error err => (fs, some err)
            | .ok valuesFromFile => merge ops fs (rangeOrder valuesFromFile)) := by
    intro rf
    rw [Parse_eq]
    unfold effectivePath
    by_cases hc : configFlagValue ops fs ≠ []
    · rw [if_pos (Or.inl hc), if_pos hc, if_pos hc]
    · by_cases hd : configFile ≠ []
      · rw [if_pos (Or.inr hd), if_neg hc, if_neg hc, if_pos hd]
      · rw [if_neg (by tauto), if_neg hc, if_neg hd]
  refine ⟨hP readFile, ?_, ?_, ?_⟩
  · intro hc; simp [effectivePath, hc]
  · intro hc hd; simp [effectivePath, hc, hd]
  · intro hc hd
    refine ⟨by simp [effectivePath, hc, hd], fun rf => ?_⟩
    rw [hP rf]
    simp [effectivePath, hc, hd]

/-- Claim C12. For every effective path on which `getValuesFromFile` returns an
error (the file cannot be read, or a line is malformed), `Parse` returns that
error and the registry is unchanged. -/
theorem Parse_parser_error_atomic {V : Type} (ops : ValueOps V) (readFile : Str → Except Str Str)
    (rangeOrder : FileMap → List (Str × Str)) (fs : FlagSet V) (configFile path : Str)
    (err : Error) (hp : effectivePath (configFlagValue ops fs) configFile = some path)
    (he : getValuesFromFile readFile path = .error err) :
    Parse ops readFile rangeOrder fs configFile = (fs, some err) := by
  rw [Parse_eq]
  unfold effectivePath at hp
  by_cases hc : configFlagValue ops fs ≠ []
  · rw [if_pos hc] at hp
    rw [if_pos (Or.inl hc), if_pos hc, Option.some.inj hp, he]
  · rw [if_neg hc] at hp
    by_cases hd : configFile ≠ []
    · rw [if_pos hd] at hp
      rw [if_pos (Or.inr hd), if_neg hc, Option.some.inj hp, he]
    · rw [if_neg hd] at hp
      cases hp

/-- Claim C12 with a file whose only line is `novalue`: `Parse` returns the
error of the parser and the flag `x` keeps its value `5`. -/
theorem Parse_parser_error_atomic_witness :
    Parse goOps (fun _ => Except.ok (utf8 "novalue".toList)) (fun m => m)
        { formal := [{ Name := utf8 "x".toList, Value := 0 }],
          actual := [],
          store := fun _ => .stringValue (utf8 "5".toList) }
        (utf8 "cfg.ini".toList)
      = ({ formal := [{ Name := utf8 "x".toList, Value := 0 }],
           actual := [],
           store := fun _ => .stringValue (utf8 "5".toList) },
         some (.noEq (utf8 "novalue".toList) 0)) :=
  Parse_parser_error_atomic goOps (fun _ => Except.ok (utf8 "novalue".toList)) (fun m => m)
    { formal := [{ Name := utf8 "x".toList, Value := 0 }],
      actual := [],
      store := fun _ => .stringValue (utf8 "5".toList) }
    (utf8 "cfg.ini".toList) (utf8 "cfg.ini".toList) (.noEq (utf8 "novalue".toList) 0) rfl rfl

/-! ### The merge step of `Parse`: errors, repetition, order, frame -/

/-- Claim C13, as amended. When the entries `pre` are merged without error and
the next entry `(k, v)` fails: the entries after it have no effect; every flag
that is not bound to the variable of the flag `k` has the value left by `pre`;
when no flag `k` is registered the result is the registry left by `pre` with
the unknown-flag error naming `k`; when a flag `k` is registered, with the value
`x` left by `pre`, `Set` has rejected `v`, the error names `k` and carries the
error of `Set`, and the flag `k` and every flag bound to the same variable hold
the value that the failed `Set` left; and when a failing `Set` never changes the
value, the registry is the one left by `pre`. -/
theorem merge_fail_fast {V : Type} (ops : ValueOps V) (fs : FlagSet V)
    (pre post : List (Str × Str)) (k v : Str)
    (hpre : (merge ops fs pre).2 = none)
    (hfail : (merge ops fs (pre ++ [(k, v)])).2 ≠ none) :
    merge ops fs (pre ++ (k, v) :: post) = merge ops fs (pre ++ [(k, v)])
      ∧ (∀ name, ¬ sameVariable fs k name →
          flagValue (merge ops fs (pre ++ (k, v) :: post)).1 name
            = flagValue (merge ops fs pre).1 name)
      ∧ (Lookup (merge ops fs pre).1 k = none →
          merge ops fs (pre ++ (k, v) :: post) = ((merge ops fs pre).1, some (.unknownFlag k)))
      ∧ (∀ x, flagValue (merge ops fs pre).1 k = some x → ∃ err, (ops.Set x v).2 = some err
          ∧ (merge ops fs (pre ++ (k, v) :: post)).2 = some (.flagParse k err)
          ∧ ∀ name, sameVariable fs k name →
              flagValue (merge ops fs (pre ++ (k, v) :: post)).1 name = some (ops.Set x v).1)
      ∧ ((∀ x s, (ops.Set x s).2 ≠ none → (ops.Set x s).1 = x) →
          (merge ops fs (pre ++ (k, v) :: post)).1 = (merge ops fs pre).1) := by
  unfold merge at hpre hfail ⊢
  rw [mergeLoop_append_ok ops _ pre _ fs hpre] at hfail ⊢
  rw [mergeLoop_append_ok ops _ pre _ fs hpre]
  have hL : ∀ name, Lookup (mergeLoop ops (getMissingFlags fs) pre fs).1 name = Lookup fs name :=
    mergeLoop_Lookup ops (getMissingFlags fs) pre fs
  obtain ⟨fs1, hfs1⟩ : ∃ fs1, fs1 = (mergeLoop ops (getMissingFlags fs) pre fs).1 := ⟨_, rfl⟩
  rw [← hfs1] at hfail hL ⊢
  obtain ⟨h1, h2, h3⟩ := mergeLoop_fail_at ops (getMissingFlags fs) post k v fs1 hfail
  refine ⟨h1, ?_, h2, ?_, ?_⟩
  · intro name hns
    cases hk : Lookup fs1 k with
    | none => rw [h2 hk]
    | some f =>
      obtain ⟨err, _, heq⟩ := h3 f hk
      rw [heq]
      simp only
      rw [flagValue_store]
      cases hn : Lookup fs1 name with
      | none => rw [flagValue_none fs1 name hn]; rfl
      | some g =>
        rw [flagValue_of_Lookup fs1 name g hn]
        have hne : g.Value ≠ f.Value := by
          intro hv
          apply hns
          exact (sameVariable_iff fs k name).mpr
            ⟨f, g, (hL k).symm.trans hk, (hL name).symm.trans hn, hv.symm⟩
        simp only [Option.map_some']
        rw [assign_other _ _ _ _ hne]
  · intro x hx
    cases hk : Lookup fs1 k with
    | none =>
      rw [flagValue_none fs1 k hk] at hx
      cases hx
    | some f =>
      rw [flagValue_of_Lookup fs1 k f hk] at hx
      have hxv : fs1.store f.Value = x := Option.some.inj hx
      obtain ⟨err, herr, heq⟩ := h3 f hk
      rw [hxv] at herr heq
      refine ⟨err, herr, by rw [heq], ?_⟩
      intro name hs
      obtain ⟨g1, g2, hg1, hg2, hv⟩ := (sameVariable_iff fs k name).mp hs
      have hgf : g1 = f := by
        rw [← hL k, hk] at hg1
        exact (Option.some.inj hg1).symm
      subst hgf
      rw [heq]
      simp only
      rw [flagValue_store, hL name, hg2]
      simp only [Option.map_some']
      rw [← hv, assign_same]
  · intro hkeep
    cases hk : Lookup fs1 k with
    | none => rw [h2 hk]
    | some f =>
      obtain ⟨err, herr, heq⟩ := h3 f hk
      rw [heq]
      simp only
      rw [hkeep _ _ (by rw [herr]; simp), assign_self]

/-- Claim C13, as amended, with the string flag `x` and the bool flags `v` and
`verbose` bound to one variable, all unset, and the entries `x = 7`,
`verbose = maybe`, `x = 9`: the result is the one of the entries `x = 7`,
`verbose = maybe`. -/
theorem merge_fail_fast_witness :
    merge goOps
        { formal := [{ Name := utf8 "x".toList, Value := 0 }, { Name := utf8 "v".toList, Value := 1 },
            { Name := utf8 "verbose".toList, Value := 1 }],
          actual := [],
          store := fun p => if p = 0 then .stringValue (utf8 "5".toList) else .boolValue true }
        ([(utf8 "x".toList, utf8 "7".toList)]
          ++ (utf8 "verbose".toList, utf8 "maybe".toList) :: [(utf8 "x".toList, utf8 "9".toList)])
      = merge goOps
        { formal := [{ Name := utf8 "x".toList, Value := 0 }, { Name := utf8 "v".toList, Value := 1 },
            { Name := utf8 "verbose".toList, Value := 1 }],
          actual := [],
          store := fun p => if p = 0 then .stringValue (utf8 "5".toList) else .boolValue true }
        ([(utf8 "x".toList, utf8 "7".toList)] ++ [(utf8 "verbose".toList, utf8 "maybe".toList)]) :=
  (merge_fail_fast goOps
    { formal := [{ Name := utf8 "x".toList, Value := 0 }, { Name := utf8 "v".toList, Value := 1 },
        { Name := utf8 "verbose".toList, Value := 1 }],
      actual := [],
      store := fun p => if p = 0 then .stringValue (utf8 "5".toList) else .boolValue true }
    [(utf8 "x".toList, utf8 "7".toList)] [(utf8 "x".toList, utf8 "9".toList)]
    (utf8 "verbose".toList) (utf8 "maybe".toList) rfl (by decide)).1

/-- Claim C13 fails as stated: with the bool flag `v` of value `true`, unset,
and the only entry `v = maybe`, the first entry fails (`boolValue.Set` returns
its parse error), no entry comes before it, and yet the flag `v` holds `false`
afterwards, not the value `true` of the registry before the merge. -/
theorem merge_failed_set_changes_flag :
    merge goOps
        { formal := [{ Name := utf8 "v".toList, Value := 0 }], actual := [],
          store := fun _ => .boolValue true } []
      = ({ formal := [{ Name := utf8 "v".toList, Value := 0 }], actual := [],
           store := fun _ => .boolValue true }, none)
      ∧ flagValue
          { formal := [{ Name := utf8 "v".toList, Value := 0 }], actual := [],
            store := fun _ => GoValue.boolValue true } (utf8 "v".toList)
        = some (.boolValue true)
      ∧ (merge goOps
          { formal := [{ Name := utf8 "v".toList, Value := 0 }], actual := [],
            store := fun _ => .boolValue true }
          [(utf8 "v".toList, utf8 "maybe".toList)]).2
        = some (.flagParse (utf8 "v".toList) (utf8 "parse error".toList))
      ∧ flagValue (merge goOps
          { formal := [{ Name := utf8 "v".toList, Value := 0 }], actual := [],
            store := fun _ => .boolValue true }
          [(utf8 "v".toList, utf8 "maybe".toList)]).1 (utf8 "v".toList)
        = some (.boolValue false)
      ∧ GoValue.boolValue false ≠ GoValue.boolValue true :=
  ⟨rfl, rfl, rfl, rfl, by decide⟩

/-- Claim C14, as amended. For every registry whose values are set repeatably
(setting the same text again on the value left by a successful `Set` succeeds
and leaves that value) and every file mapping (entries with pairwise different
keys) of which no two keys name unset flags bound to one variable and on which
the merge succeeds: the merge of the same mapping, ranged in any order, on the
resulting registry succeeds and leaves that registry as it is. -/
theorem merge_idempotent {V : Type} (ops : ValueOps V) (fs : FlagSet V)
    (entries entries2 : List (Str × Str))
    (hrep : ∀ x s, (ops.Set x s).2 = none → ops.Set (ops.Set x s).1 s = ((ops.Set x s).1, none))
    (hnd : (entries.map Prod.fst).Nodup) (hsep : unshared fs entries)
    (hok : (merge ops fs entries).2 = none) (hp : entries.Perm entries2) :
    merge ops (merge ops fs entries).1 entries2 = ((merge ops fs entries).1, none) := by
  have hn := mergeLoop_formal ops (getMissingFlags fs) entries fs
  have hm : getMissingFlags (merge ops fs entries).1 = getMissingFlags fs :=
    getMissingFlags_congr fs _ hn.1 hn.2
  unfold merge at hok hm ⊢
  rw [hm]
  apply mergeLoop_settled
  intro e he
  exact mergeLoop_settles ops _ hrep entries fs hnd (unshared_missing fs entries hsep) hok e
    (hp.mem_iff.mpr he)

/-- Claim C14, as amended, with the values of package flag, the flags `n` and
`name` bound to one string variable, `n` set on the command line to `cli`, and
the mapping `n = a`, `name = b`: the second merge, ranged in the other order,
leaves the registry of the first. -/
theorem merge_idempotent_witness :
    merge goOps
        (merge goOps (shortLong [utf8 "n".toList] (GoValue.stringValue (utf8 "cli".toList)))
          [(utf8 "n".toList, utf8 "a".toList), (utf8 "name".toList, utf8 "b".toList)]).1
        [(utf8 "name".toList, utf8 "b".toList), (utf8 "n".toList, utf8 "a".toList)]
      = ((merge goOps (shortLong [utf8 "n".toList] (GoValue.stringValue (utf8 "cli".toList)))
          [(utf8 "n".toList, utf8 "a".toList), (utf8 "name".toList, utf8 "b".toList)]).1,
         none) :=
  merge_idempotent goOps (shortLong [utf8 "n".toList] (GoValue.stringValue (utf8 "cli".toList)))
    [(utf8 "n".toList, utf8 "a".toList), (utf8 "name".toList, utf8 "b".toList)]
    [(utf8 "name".toList, utf8 "b".toList), (utf8 "n".toList, utf8 "a".toList)]
    goOps_repeatable (by decide) (by decide) rfl (List.Perm.swap _ _ _)

/-- Claim C14 fails as stated: with the accumulating value `appendOps`, the flag
`inc` holding `x`, unset, and the entry `inc = a`, the first merge succeeds and
leaves `xa`, and the second merge of the same entry on the resulting registry
succeeds and leaves `xaa`. -/
theorem merge_twice_accumulates :
    (merge appendOps
        { formal := [{ Name := utf8 "inc".toList, Value := 0 }], actual := [],
          store := fun _ => utf8 "x".toList }
        [(utf8 "inc".toList, utf8 "a".toList)]).2 = none
      ∧ flagValue (merge appendOps
          { formal := [{ Name := utf8 "inc".toList, Value := 0 }], actual := [],
            store := fun _ => utf8 "x".toList }
          [(utf8 "inc".toList, utf8 "a".toList)]).1 (utf8 "inc".toList)
        = some (utf8 "xa".toList)
      ∧ (merge appendOps
          (merge appendOps
            { formal := [{ Name := utf8 "inc".toList, Value := 0 }], actual := [],
              store := fun _ => utf8 "x".toList }
            [(utf8 "inc".toList, utf8 "a".toList)]).1
          [(utf8 "inc".toList, utf8 "a".toList)]).2 = none
      ∧ flagValue (merge appendOps
          (merge appendOps
            { formal := [{ Name := utf8 "inc".toList, Value := 0 }], actual := [],
              store := fun _ => utf8 "x".toList }
            [(utf8 "inc".toList, utf8 "a".toList)]).1
          [(utf8 "inc".toList, utf8 "a".toList)]).1 (utf8 "inc".toList)
        = some (utf8 "xaa".toList)
      ∧ utf8 "xaa".toList ≠ utf8 "xa".toList :=
  ⟨rfl, rfl, rfl, rfl, by decide⟩

/-- Claim C14 fails as stated also with the values of package flag: the flags
`n` and `name` are bound to one string variable holding `d`, none is set, and
the mapping holds `n = a` and `name = b`. The first merge, ranged as `n`,
`name`, succeeds and leaves `b`; the second merge of the same mapping, ranged
as `name`, `n`, succeeds and leaves `a`. -/
theorem merge_twice_aliased :
    (merge goOps (shortLong [] (GoValue.stringValue (utf8 "d".toList)))
        [(utf8 "n".toList, utf8 "a".toList), (utf8 "name".toList, utf8 "b".toList)]).2 = none
      ∧ flagValue (merge goOps (shortLong [] (GoValue.stringValue (utf8 "d".toList)))
          [(utf8 "n".toList, utf8 "a".toList), (utf8 "name".toList, utf8 "b".toList)]).1
          (utf8 "n".toList) = some (.stringValue (utf8 "b".toList))
      ∧ (merge goOps
          (merge goOps (shortLong [] (GoValue.stringValue (utf8 "d".toList)))
            [(utf8 "n".toList, utf8 "a".toList), (utf8 "name".toList, utf8 "b".toList)]).1
          [(utf8 "name".toList, utf8 "b".toList), (utf8 "n".toList, utf8 "a".toList)]).2 = none
      ∧ flagValue (merge goOps
          (merge goOps (shortLong [] (GoValue.stringValue (utf8 "d".toList)))
            [(utf8 "n".toList, utf8 "a".toList), (utf8 "name".toList, utf8 "b".toList)]).1
          [(utf8 "name".toList, utf8 "b".toList), (utf8 "n".toList, utf8 "a".toList)]).1
          (utf8 "n".toList) = some (.stringValue (utf8 "a".toList)) :=
  ⟨rfl, rfl, rfl, rfl⟩

/-- Claim C16. For every registry whose flags have pairwise different names,
`getMissingFlags` returns a list without repetition: the names of all flags in
the order of `VisitAll` (a rearrangement of the registered names), without the
names set on the command line; a name is in it if and only if it is registered
and not set. -/
theorem getMissingFlags_set_difference {V : Type} (fs : FlagSet V)
    (hnd : (fs.formal.map Flag.Name).Nodup) :
    (getMissingFlags fs).Nodup
      ∧ getMissingFlags fs
          = ((VisitAll fs).map Flag.Name).filter (fun name => decide (name ∉ fs.actual))
      ∧ ((VisitAll fs).map Flag.Name).Perm (fs.formal.map Flag.Name)
      ∧ ∀ name, name ∈ getMissingFlags fs
          ↔ (name ∈ fs.formal.map Flag.Name ∧ name ∉ fs.actual) := by
  have hperm : ((VisitAll fs).map Flag.Name).Perm (fs.formal.map Flag.Name) :=
    (sortFlags_perm fs.formal).map _
  have heq : getMissingFlags fs
      = ((VisitAll fs).map Flag.Name).filter (fun name => decide (name ∉ fs.actual)) := by
    rw [getMissingFlags_eq, List.filter_map]
    congr 1
    apply List.filter_congr
    intro f hf
    simp only [Function.comp]
    have hreg : f.Name ∈ fs.formal.map Flag.Name :=
      List.mem_map.mpr ⟨f, (mem_sortFlags f fs.formal).mp hf, rfl⟩
    by_cases ha : f.Name ∈ fs.actual
    · have : foundIn f.Name ((Visit fs).map Flag.Name) = true :=
        (foundIn_iff _ _).mpr ((mem_Visit_names fs f.Name).mpr ⟨hreg, ha⟩)
      simp [this, ha]
    · have : foundIn f.Name ((Visit fs).map Flag.Name) = false := by
        by_contra hc
        have hc' : foundIn f.Name ((Visit fs).map Flag.Name) = true := by simpa using hc
        exact ha ((mem_Visit_names fs f.Name).mp ((foundIn_iff _ _).mp hc')).2
      simp [this, ha]
  refine ⟨?_, heq, hperm, mem_getMissingFlags fs⟩
  rw [heq]
  exact (hperm.nodup_iff.mpr hnd).filter _

/-- Claim C16 with the flags `b`, `a`, `c` registered in this order and `a`
set on the command line: the missing list is `b`, `c`. -/
theorem getMissingFlags_set_difference_witness :
    @getMissingFlags GoValue
        { formal := [{ Name := utf8 "b".toList, Value := 0 },
            { Name := utf8 "a".toList, Value := 1 },
            { Name := utf8 "c".toList, Value := 2 }],
          actual := [utf8 "a".toList],
          store := fun _ => .boolValue true }
      = [utf8 "b".toList, utf8 "c".toList] :=
  (@getMissingFlags_set_difference GoValue
    { formal := [{ Name := utf8 "b".toList, Value := 0 },
        { Name := utf8 "a".toList, Value := 1 },
        { Name := utf8 "c".toList, Value := 2 }],
      actual := [utf8 "a".toList],
      store := fun _ => .boolValue true } (by decide)).2.1.trans (by decide)

/-- Claim C18, as amended. For every registry and every two orders of the same
file mapping (entries with pairwise different keys, one list a rearrangement of
the other) of which no two keys name unset flags bound to one variable: if the
merge succeeds in the first order, it succeeds in the second and leaves the
same registry, hence the same value for every flag. -/
theorem merge_order_independent {V : Type} (ops : ValueOps V) (fs : FlagSet V)
    (entries1 entries2 : List (Str × Str)) (hp : entries1.Perm entries2)
    (hnd : (entries1.map Prod.fst).Nodup) (hsep : unshared fs entries1)
    (hok : (merge ops fs entries1).2 = none) :
    (merge ops fs entries2).2 = none
      ∧ (merge ops fs entries2).1 = (merge ops fs entries1).1
      ∧ ∀ name, flagValue (merge ops fs entries2).1 name
          = flagValue (merge ops fs entries1).1 name := by
  unfold merge at hok ⊢
  have h := mergeLoop_perm ops (getMissingFlags fs) entries1 entries2 hp fs hnd
    (unshared_missing fs entries1 hsep) hok
  rw [h]
  exact ⟨hok, rfl, fun _ => rfl⟩

/-- Claim C18, as amended, with the unset flags `x` and `y`, bound to two
variables, and the entries `x = 1`, `y = 2` taken in both orders. -/
theorem merge_order_independent_witness :
    (merge goOps
        { formal := [{ Name := utf8 "x".toList, Value := 0 }, { Name := utf8 "y".toList, Value := 1 }],
          actual := [],
          store := fun p => if p = 0 then .stringValue (utf8 "5".toList)
            else .stringValue (utf8 "6".toList) }
        [(utf8 "y".toList, utf8 "2".toList), (utf8 "x".toList, utf8 "1".toList)]).1
      = (merge goOps
        { formal := [{ Name := utf8 "x".toList, Value := 0 }, { Name := utf8 "y".toList, Value := 1 }],
          actual := [],
          store := fun p => if p = 0 then .stringValue (utf8 "5".toList)
            else .stringValue (utf8 "6".toList) }
        [(utf8 "x".toList, utf8 "1".toList), (utf8 "y".toList, utf8 "2".toList)]).1 :=
  (merge_order_independent goOps
    { formal := [{ Name := utf8 "x".toList, Value := 0 }, { Name := utf8 "y".toList, Value := 1 }],
      actual := [],
      store := fun p => if p = 0 then .stringValue (utf8 "5".toList)
        else .stringValue (utf8 "6".toList) }
    [(utf8 "x".toList, utf8 "1".toList), (utf8 "y".toList, utf8 "2".toList)]
    [(utf8 "y".toList, utf8 "2".toList), (utf8 "x".toList, utf8 "1".toList)]
    (List.Perm.swap _ _ _) (by decide) (by decide) rfl).2.1

/-- Claim C18 fails as stated: the flags `n` and `name` are bound to one string
variable holding `d`, none is set, and the mapping holds `n = a` and
`name = b`. The merge succeeds in both orders of the mapping, and the flag `n`
has the value `b` in the order `n`, `name` and the value `a` in the order
`name`, `n`. -/
theorem merge_order_dependent_alias :
    [(utf8 "n".toList, utf8 "a".toList), (utf8 "name".toList, utf8 "b".toList)].Perm
        [(utf8 "name".toList, utf8 "b".toList), (utf8 "n".toList, utf8 "a".toList)]
      ∧ (merge goOps (shortLong [] (GoValue.stringValue (utf8 "d".toList)))
          [(utf8 "n".toList, utf8 "a".toList), (utf8 "name".toList, utf8 "b".toList)]).2 = none
      ∧ (merge goOps (shortLong [] (GoValue.stringValue (utf8 "d".toList)))
          [(utf8 "name".toList, utf8 "b".toList), (utf8 "n".toList, utf8 "a".toList)]).2 = none
      ∧ flagValue (merge goOps (shortLong [] (GoValue.stringValue (utf8 "d".toList)))
          [(utf8 "n".toList, utf8 "a".toList), (utf8 "name".toList, utf8 "b".toList)]).1
          (utf8 "n".toList) = some (.stringValue (utf8 "b".toList))
      ∧ flagValue (merge goOps (shortLong [] (GoValue.stringValue (utf8 "d".toList)))
          [(utf8 "name".toList, utf8 "b".toList), (utf8 "n".toList, utf8 "a".toList)]).1
          (utf8 "n".toList) = some (.stringValue (utf8 "a".toList))
      ∧ GoValue.stringValue (utf8 "b".toList) ≠ .stringValue (utf8 "a".toList) :=
  ⟨List.Perm.swap _ _ _, rfl, rfl, rfl, rfl, by decide⟩

/-- Claim C19, as amended. For every registry and every list of file entries: a
flag whose value is not the same after the merge is bound to the variable of a
flag `k` (the flag itself, or another flag bound to the same variable) that is
in the missing list and is a key of the entries, with a file value that differs
from the string of the value before the merge; when no other key of the entries
names a flag bound to its variable, the flag itself is in the missing list and a
key of the entries; and the registered flags with the variables they are bound
to, the flags set on the command line and the missing list are the same after
the merge as before it. -/
theorem merge_frame {V : Type} (ops : ValueOps V) (fs : FlagSet V)
    (entries : List (Str × Str)) :
    (∀ name, flagValue (merge ops fs entries).1 name ≠ flagValue fs name →
        ∃ k v x, (k, v) ∈ entries ∧ k ∈ getMissingFlags fs ∧ sameVariable fs k name
          ∧ flagValue fs name = some x ∧ ops.String x ≠ v)
      ∧ (∀ name, (∀ e ∈ entries, sameVariable fs e.1 name → e.1 = name) →
          flagValue (merge ops fs entries).1 name ≠ flagValue fs name →
          name ∈ getMissingFlags fs
            ∧ ∃ v x, (name, v) ∈ entries ∧ flagValue fs name = some x ∧ ops.String x ≠ v)
      ∧ (merge ops fs entries).1.formal = fs.formal
      ∧ (merge ops fs entries).1.actual = fs.actual
      ∧ getMissingFlags (merge ops fs entries).1 = getMissingFlags fs := by
  have hn := mergeLoop_formal ops (getMissingFlags fs) entries fs
  have h1 : ∀ name, flagValue (merge ops fs entries).1 name ≠ flagValue fs name →
      ∃ k v x, (k, v) ∈ entries ∧ k ∈ getMissingFlags fs ∧ sameVariable fs k name
        ∧ flagValue fs name = some x ∧ ops.String x ≠ v := by
    intro name hne
    unfold merge at hne
    rw [flagValue_mergeLoop] at hne
    cases hl : Lookup fs name with
    | none =>
      rw [hl, flagValue_none fs name hl] at hne
      exact absurd rfl hne
    | some f =>
      rw [hl, flagValue_of_Lookup fs name f hl] at hne
      have hs : (mergeLoop ops (getMissingFlags fs) entries fs).1.store f.Value
          ≠ fs.store f.Value := fun e => hne (by rw [Option.map_some', e])
      obtain ⟨k, v, g, hkv, hg, hga, hkm, hsv⟩ := mergeLoop_changed ops _ f.Value entries fs hs
      exact ⟨k, v, fs.store f.Value, hkv, hkm,
        (sameVariable_iff fs k name).mpr ⟨g, f, hg, hl, hga⟩, flagValue_of_Lookup fs name f hl, hsv⟩
  refine ⟨h1, ?_, hn.1, hn.2, getMissingFlags_congr fs _ hn.1 hn.2⟩
  intro name hown hne
  obtain ⟨k, v, x, hkv, hkm, hs, hx, hsv⟩ := h1 name hne
  have hk : k = name := hown (k, v) hkv hs
  subst hk
  exact ⟨hkm, v, x, hkv, hx, hsv⟩

/-- Claim C19, as amended, with the flags `n` and `name` bound to one string
variable holding `d`, none set, and the entry `name = b`: the value of the flag
`n` changes, and the flag `name`, bound to the same variable, is in the missing
list and a key of the entries with a value that differs from `d`. -/
theorem merge_frame_witness :
    ∃ k v x, (k, v) ∈ [(utf8 "name".toList, utf8 "b".toList)]
      ∧ k ∈ getMissingFlags (shortLong [] (GoValue.stringValue (utf8 "d".toList)))
      ∧ sameVariable (shortLong [] (GoValue.stringValue (utf8 "d".toList))) k (utf8 "n".toList)
      ∧ flagValue (shortLong [] (GoValue.stringValue (utf8 "d".toList))) (utf8 "n".toList) = some x
      ∧ goOps.String x ≠ v :=
  (merge_frame goOps (shortLong [] (GoValue.stringValue (utf8 "d".toList)))
    [(utf8 "name".toList, utf8 "b".toList)]).1 (utf8 "n".toList) (by decide)

/-- Claim C19 fails as stated: the flags `n` and `name` are bound to one bool
variable, `n` was set on the command line and the variable holds `true`, and the
file holds `name = false`. The value of the flag `n` changes from `true` to
`false`, although `n` is not in the missing list and is no key of the mapping. -/
theorem merge_changes_flag_outside_missing :
    flagValue (shortLong [utf8 "n".toList] (GoValue.boolValue true)) (utf8 "n".toList)
        = some (.boolValue true)
      ∧ flagValue (merge goOps (shortLong [utf8 "n".toList] (GoValue.boolValue true))
          [(utf8 "name".toList, utf8 "false".toList)]).1 (utf8 "n".toList)
        = some (.boolValue false)
      ∧ utf8 "n".toList ∉ getMissingFlags (shortLong [utf8 "n".toList] (GoValue.boolValue true))
      ∧ utf8 "n".toList ∉ [(utf8 "name".toList, utf8 "false".toList)].map Prod.fst
      ∧ GoValue.boolValue false ≠ GoValue.boolValue true :=
  ⟨rfl, rfl, by decide, by decide, by decide⟩

/-! ### Errors of the line parser -/

/-- Claim C15 on three texts whose second line (index 1) is malformed, after
the well-formed line `a = 1`: the error for an unterminated quoted value
carries the index 1 and the error of `strconv.Unquote` but not the text of the
line, while the errors for more than one `=` and for no `=` carry the index 1
and the trimmed text of the line. -/
theorem parser_quote_error_lacks_line :
    getValuesFromFile
        (fun _ => Except.ok (joinLines [utf8 "a = 1".toList, utf8 "b = ".toList ++ [0x22, 0x78]]))
        []
      = .error (.processLine 1 .ErrSyntax)
    ∧ getValuesFromFile
        (fun _ => Except.ok (joinLines [utf8 "a = 1".toList, utf8 " b=c=d ".toList])) []
      = .error (.moreThanOneEq (utf8 "b=c=d".toList) 1)
    ∧ getValuesFromFile
        (fun _ => Except.ok (joinLines [utf8 "a = 1".toList, utf8 " novalue ".toList])) []
      = .error (.noEq (utf8 "novalue".toList) 1) :=
  ⟨rfl, rfl, rfl⟩

/-! ### Output of the line parser -/

/-- Claim C17. For every file text that parses to a mapping: every key and
every value of the mapping has no leading and no trailing white space (it is
empty, or neither its first rune nor its last rune is white space) and no key
contains `=`; and a data line whose value part is blank maps its key to the
empty string (the line being the last data line with that key). -/
theorem parser_output_trimmed (text configFile : Str) (m : FileMap)
    (h : getValuesFromFile (fun _ => Except.ok text) configFile = .ok m) :
    (∀ k v, mapGet m k = some v → trimmed k ∧ trimmed v ∧ 0x3D ∉ k)
      ∧ ∀ (pre post : List Str) (line : Str), dataLines text = pre ++ line :: post →
          (∀ l ∈ post, TrimSpace (keyPart l) ≠ TrimSpace (keyPart line)) →
          TrimSpace (valuePart line) = [] →
          mapGet m (TrimSpace (keyPart line)) = some [] := by
  have hl : ∀ k, mapGet m k = lastValue k ((dataLines text).map lineEntry) := by
    intro k
    unfold getValuesFromFile at h
    simp only at h
    have := parseLines_lookup _ _ _ _ h k
    rw [this, dataLines]
    cases hv : lastValue k ((dataOf (Split text 0x0A)).map lineEntry) with
    | some v => rfl
    | none => rfl
  have hgood : ∀ line ∈ dataLines text, malformedLine line = false := by
    intro line hline
    by_contra hc
    have hc' : malformedLine line = true := by simpa using hc
    obtain ⟨e, he⟩ := (getValuesFromFile_error_iff text configFile).mpr ⟨line, hline, hc'⟩
    rw [h] at he
    cases he
  have hentry : ∀ line ∈ dataLines text,
      trimmed (lineEntry line).1 ∧ trimmed (lineEntry line).2 ∧ 0x3D ∉ (lineEntry line).1
        ∧ (TrimSpace (valuePart line) = [] → (lineEntry line).2 = []) := by
    intro line hline
    obtain ⟨raw, hraw⟩ := mem_dataOf _ line hline
    have hwf := wellformed_clean line (hgood line hline)
    subst hraw
    have hc := cleaned_value_trimmed raw hwf
    exact ⟨trimmed_TrimSpace _, hc.1, keyPart_no_eq _, hc.2⟩
  constructor
  · intro k v hkv
    rw [hl k] at hkv
    obtain ⟨line, hline, he⟩ := List.mem_map.mp (lastValue_mem k v _ hkv)
    have := hentry line hline
    rw [he] at this
    exact ⟨this.1, this.2.1, this.2.2.1⟩
  · intro pre post line hd hpost hb
    have hline : line ∈ dataLines text := by rw [hd]; simp
    rw [hl, hd, List.map_append, List.map_cons]
    have hv : lineEntry line = (TrimSpace (keyPart line), []) := by
      have := (hentry line hline).2.2.2 hb
      rw [← this]
      rfl
    rw [hv]
    apply lastValue_last
    intro e he
    obtain ⟨l, hl2, rfl⟩ := List.mem_map.mp he
    exact hpost l hl2

/-- Claim C17 on the text `blank =` followed by three spaces: the key `blank`
is mapped to the empty string. -/
theorem parser_output_trimmed_witness :
    mapGet [(utf8 "blank".toList, [])] (TrimSpace (keyPart (utf8 "blank =".toList))) = some [] :=
  (parser_output_trimmed (utf8 "blank =   ".toList) [] [(utf8 "blank".toList, [])] rfl).2
    [] [] (utf8 "blank =".toList) (by decide) (fun _ hl => nomatch hl) (by decide)

end CfgFlags
